import Mathlib

/-!
# big_integer: a shallow embedding of `bigint/big_integer.cpp`

A `big_integer` is a sign flag and a little-endian sequence of 32-bit limbs
(`std::vector<uint32_t> data; bool negative;`).  Limbs are natural numbers; every
place where the source truncates to 32 bits is an explicit `% BASE`.

Functions that may not return a value have an `Option` result, and `none` stands for:
* an integer division by zero or a shift of a 32-bit value by 32 or more positions, both
  undefined in C++ (`div`, `mod`, `shl`, `shr`);
* the `std::length_error` of `std::vector::resize` after a `size_t` underflow (`shr`);
* the iteration bound of a `while` loop being reached (`to_string_loop`; the bound chosen in
  `to_string` is never reached on a canonical value, see `to_string_loop_spec`).

The mutual calls between `operator+` and `operator-` are bounded by a depth argument; the bound
used is never reached (`addAux_fuel`, `subAux_fuel`).
-/

namespace BigInteger

/-! ## Data model -/

/-- Number of values of a limb: limbs are `uint32_t`. -/
def BASE : Nat := 4294967296

/-- The constant `UINT32_MAX`. -/
def UINT32_MAX : Nat := 4294967295

/-- The class `big_integer`: the fields `data` (least significant limb first) and `negative`. -/
structure big_integer where
  data : List Nat
  negative : Bool
  deriving DecidableEq, Repr

/-- Method `big_integer::size()`. -/
def size (a : big_integer) : Nat := a.data.length

/-- Method `big_integer::zero()`: `data.size() == 1 && data[0] == 0`. -/
def zero (a : big_integer) : Bool := a.data.length == 1 && a.data.getD 0 0 == 0

/-- The loop of `normalize`: `while (size() > 1 && data.back() == 0) data.pop_back();`
the first argument bounds the number of iterations (at most `size()` of them happen). -/
def popBackZeros : Nat → List Nat → List Nat
  | 0, d => d
  | fuel + 1, d =>
    if 1 < d.length ∧ d.getLastD 1 = 0 then popBackZeros fuel d.dropLast else d

/-- Method `big_integer::normalize()`. -/
def normalize (a : big_integer) : big_integer :=
  let d := popBackZeros a.data.length a.data
  if zero ⟨d, a.negative⟩ then ⟨d, false⟩ else ⟨d, a.negative⟩

/-- Method `std::vector::resize(n, v)`. -/
def resize (l : List Nat) (n v : Nat) : List Nat :=
  l.take n ++ List.replicate (n - l.length) v

/-! ## Constructors -/

/-- Constructor `big_integer()`: one limb, value-initialised. -/
def ctor : big_integer := ⟨[0], false⟩

/-- Constructor `big_integer(int x)`: `data(1, (uint32_t) std::abs((int64_t) x)), negative(x < 0)`. -/
def ctor_int (x : Int) : big_integer := ⟨[x.natAbs % BASE], decide (x < 0)⟩

/-- Constructor `big_integer(uint32_t x)`. -/
def ctor_uint32 (x : Nat) : big_integer := ⟨[x], false⟩

/-- Constructor `big_integer(uint64_t x)`: pushes `x & UINT32_MAX`, then `x >> 32`. -/
def ctor_uint64 (x : Nat) : big_integer := ⟨[x % BASE, (x / BASE) % BASE], false⟩

/-- The constant `big_integer_inner::ONE`. -/
def ONE : big_integer := ctor_int 1

/-- The constant `big_integer_inner::TEN`. -/
def TEN : big_integer := ctor_int 10

/-! ## Unary minus and comparisons -/

/-- Unary `operator-`: flip the flag, then `normalize`. -/
def neg (a : big_integer) : big_integer := normalize ⟨a.data, !a.negative⟩

/-- Comparison `operator==`. -/
def eq (a b : big_integer) : Bool := a.negative == b.negative && a.data == b.data

/-- Comparison `operator!=`. -/
def ne (a b : big_integer) : Bool := !(eq a b)

/-- The loop of `operator<`, `for (size_t i = a.size(); i != 0; --i)`, entered with equal sizes;
the argument is the loop variable `i`. -/
def ltLoop (a b : big_integer) : Nat → Bool
  | 0 => false
  | i + 1 =>
    if a.data.getD i 0 != b.data.getD i 0 then
      Bool.xor (!a.negative) (decide (a.data.getD i 0 > b.data.getD i 0))
    else ltLoop a b i

/-- Comparison `operator<`. -/
def lt (a b : big_integer) : Bool :=
  if a.negative != b.negative then a.negative
  else if size a != size b then Bool.xor (!a.negative) (decide (size a > size b))
  else ltLoop a b (size a)

/-- Comparison `operator>`. -/
def gt (a b : big_integer) : Bool := lt b a

/-- Comparison `operator<=`. -/
def le (a b : big_integer) : Bool := !(gt a b)

/-- Comparison `operator>=`. -/
def ge (a b : big_integer) : Bool := !(lt a b)

/-! ## Addition and subtraction -/

/-- The loop of `operator+`, `for (size_t i = 0; i != size; ++i)`: the first argument is the
number of iterations left, then `i` and `carry`. `sum = carry (+ a.data[i]) (+ b.data[i])`, the
limb written is `sum & UINT32_MAX`, the next carry is `sum > UINT32_MAX`; after the last round
`res.data[size] = carry`. -/
def addLoop (a b : List Nat) : Nat → Nat → Nat → List Nat
  | 0, _, carry => [carry]
  | k + 1, i, carry =>
    ((carry + (if i < a.length then a.getD i 0 else 0) + (if i < b.length then b.getD i 0 else 0))
        % BASE)
      :: addLoop a b k (i + 1)
        (if carry + (if i < a.length then a.getD i 0 else 0)
            + (if i < b.length then b.getD i 0 else 0) > UINT32_MAX then 1 else 0)

/-- The loop of `operator-` over the limbs of `a` (the limbs of `b` beyond `a.size()` are never
read); all the arithmetic is on `uint32_t`. -/
def subLoop : List Nat → List Nat → Nat → List Nat
  | [], _, _ => []
  | x :: xs, [], carry =>
    (if x ≥ carry then x - carry else UINT32_MAX) :: subLoop xs [] (if x ≥ carry then 0 else 1)
  | x :: xs, y :: ys, carry =>
    (if x ≥ y then (if x - y ≥ carry then x - y - carry else UINT32_MAX)
      else (UINT32_MAX - (y - x) + 1 - carry) % BASE)
      :: subLoop xs ys (if x ≥ y then (if x - y ≥ carry then 0 else 1) else 1)

mutual
/-- Binary `operator+`; the first argument bounds the depth of the calls between `operator+` and
`operator-` (three levels are the most that any pair of operands needs, see `addAux_fuel`). -/
def addAux : Nat → big_integer → big_integer → big_integer
  | 0, _, _ => ctor
  | fuel + 1, a, b =>
    if a.negative != b.negative then
      (if a.negative then subAux fuel b (neg a) else subAux fuel a (neg b))
    else
      normalize ⟨addLoop a.data b.data (max (size a) (size b)) 0 0, a.negative⟩
/-- Binary `operator-`, with the same bound on the depth of the calls. -/
def subAux : Nat → big_integer → big_integer → big_integer
  | 0, _, _ => ctor
  | fuel + 1, a, b =>
    if a.negative != b.negative then
      (if a.negative then neg (addAux fuel (neg a) b) else addAux fuel a (neg b))
    else if a.negative then subAux fuel (neg b) (neg a)
    else if lt a b then neg (subAux fuel b a)
    else normalize ⟨subLoop a.data b.data 0, false⟩
end

/-- Binary `operator+`. -/
def add (a b : big_integer) : big_integer := addAux 3 a b

/-- Binary `operator-`. -/
def sub (a b : big_integer) : big_integer := subAux 3 a b

/-! ## Multiplication -/

/-- The inner loop of `operator*`, `for (size_t j = 0; j != b.size(); ++j)`, for the limb `ai` of
`a` at index `i`; the first argument is the number of iterations left. Returns `res.data` and
`carry`. -/
def mulInner (ai : Nat) (b : List Nat) (i : Nat) : Nat → Nat → List Nat → Nat → List Nat × Nat
  | 0, _, res, carry => (res, carry)
  | k + 1, j, res, carry =>
    mulInner ai b i k (j + 1)
      (res.set (i + j) ((ai * b.getD j 0 + res.getD (i + j) 0 + carry) % BASE))
      ((ai * b.getD j 0 + res.getD (i + j) 0 + carry) / BASE % BASE)

/-- The outer loop of `operator*`, `for (size_t i = 0; i != a.size(); ++i)`; the first argument is
the number of iterations left. -/
def mulOuter (a b : List Nat) : Nat → Nat → List Nat → List Nat
  | 0, _, res => res
  | k + 1, i, res =>
    mulOuter a b k (i + 1)
      ((mulInner (a.getD i 0) b i b.length 0 res 0).1.set (i + b.length)
        (((mulInner (a.getD i 0) b i b.length 0 res 0).1.getD (i + b.length) 0
          + (mulInner (a.getD i 0) b i b.length 0 res 0).2) % BASE))

/-- Binary `operator*`. -/
def mul (a b : big_integer) : big_integer :=
  if zero a || zero b then ctor
  else normalize
    ⟨mulOuter a.data b.data (size a) 0 (resize [0] (size a + size b) 0), Bool.xor a.negative b.negative⟩

/-! ## Division -/

/-- Function `diff`, the loop `for (size_t i = 0; i != index; ++i)`: subtracts limb `i` of `b`
(zero beyond `b.size()`) and the borrow from limb `start + i` of `a` in 64-bit signed arithmetic
and keeps the low 32 bits; the first argument is the number of iterations left. -/
def diffLoop (b : List Nat) (start : Nat) : Nat → Nat → List Nat → Bool → List Nat
  | 0, _, a, _ => a
  | k + 1, i, a, borrow =>
    diffLoop b start k (i + 1)
      (a.set (start + i)
        ((((a.getD (start + i) 0 : Int) - ((if i < b.length then b.getD i 0 else 0 : Nat) : Int)
            - (if borrow then 1 else 0)) % (BASE : Int)).toNat))
      (decide (((a.getD (start + i) 0 : Int) - ((if i < b.length then b.getD i 0 else 0 : Nat) : Int)
            - (if borrow then 1 else 0)) < 0))

/-- Function `diff(a, b, index)`, on the limbs of `a`. -/
def diff (a b : List Nat) (index : Nat) : List Nat :=
  diffLoop b (a.length - index) index 0 a false

/-- The loop of the single-limb path of `operator/`: the limbs of the dividend from the most
significant one, the running remainder `rest`, and `result.data` (to which each quotient limb is
pushed). `x = (rest << 32) | limb` is the sum `rest * BASE + limb`, both being 32-bit values.
`x / divisor.data[0]` is undefined for a zero limb. -/
def divSmallLoop (d : Nat) : List Nat → Nat → List Nat → Option (List Nat)
  | [], _, res => some res
  | limb :: limbs, rest, res =>
    if d = 0 then none
    else divSmallLoop d limbs ((rest * BASE + limb) % d) (res ++ [(rest * BASE + limb) / d % BASE])

/-- The comparison loop of the general path, `for (size_t k = 1; k <= divident.size(); k++)`:
the first argument is the number of iterations left; the value is `flag`. The index `m - k` is a
`size_t`, so for `k > m` it is far beyond `tmp_big.size()` and the limb compared with is 0. -/
def flagLoop (divident tmp_big : List Nat) (m : Nat) : Nat → Nat → Bool
  | 0, _ => true
  | r + 1, k =>
    if divident.getD (divident.length - k) 0
        != (if k ≤ m ∧ m - k < tmp_big.length then tmp_big.getD (m - k) 0 else 0) then
      decide (divident.getD (divident.length - k) 0
        > (if k ≤ m ∧ m - k < tmp_big.length then tmp_big.getD (m - k) 0 else 0))
    else flagLoop divident tmp_big m r (k + 1)

/-- The 128-bit value `x` of the general path: the three most significant limbs of the working
dividend, shifted by 64, 32 and 0 bits and or-ed, which is their weighted sum. -/
def top3 (divident : List Nat) : Nat :=
  divident.getD (divident.length - 1) 0 * (BASE * BASE)
    + divident.getD (divident.length - 2) 0 * BASE + divident.getD (divident.length - 3) 0

/-- The 128-bit value `y` of the general path: the two most significant limbs of the divisor. -/
def top2 (divisor : List Nat) : Nat :=
  divisor.getD (divisor.length - 1) 0 * BASE + divisor.getD (divisor.length - 2) 0

/-- The estimate `tmp_32 = static_cast<uint32_t>(x / y)`. -/
def estimate (divident divisor : List Nat) : Nat := top3 divident / top2 divisor % BASE

/-- The digit loop of the general path of `operator/`,
`for (size_t i = m - 1, j = result.data.size() - 1; i != n; ++i, --j)`: the first argument is the
number of iterations left, then `j`, the working dividend and `result.data`. `x / y` is undefined
for `y = 0`. -/
def divLoop (divisor : big_integer) (m : Nat) : Nat → Nat → List Nat → List Nat → Option (List Nat)
  | 0, _, _, res => some res
  | k + 1, j, divident, res =>
    if top2 divisor.data = 0 then none
    else
      let tmp_32 := estimate divident divisor.data
      let tmp_big := mul divisor (ctor_uint32 tmp_32)
      let flag := flagLoop divident tmp_big.data m divident.length 1
      let tmp_32 := if flag then tmp_32 else (tmp_32 + UINT32_MAX) % BASE
      let tmp_big := if flag then tmp_big else sub tmp_big divisor
      let divident := diff divident tmp_big.data m
      divLoop divisor m k (j - 1)
        (if divident.getLastD 0 = 0 then divident.dropLast else divident) (res.set j tmp_32)

/-- Binary `operator/`. -/
def div (a b : big_integer) : Option big_integer :=
  if lt ⟨a.data, false⟩ ⟨b.data, false⟩ then some (ctor_int 0)
  else if b.data.length = 1 then
    (divSmallLoop (b.data.getD 0 0) a.data.reverse 0 [0]).map
      (fun res => ⟨(normalize ⟨res.reverse, false⟩).data, Bool.xor a.negative b.negative⟩)
  else
    (divLoop ⟨b.data, false⟩ (b.data.length + 1) (a.data.length + 1 - (b.data.length + 1) + 1)
        (a.data.length + 1 - (b.data.length + 1)) (a.data ++ [0])
        (resize [0] (a.data.length + 1 - (b.data.length + 1) + 1) 0)).map
      (fun res => normalize ⟨res, Bool.xor a.negative b.negative⟩)

/-- Binary `operator%`: `a - (a / b) * b`. -/
def mod (a b : big_integer) : Option big_integer :=
  (div a b).map (fun q => sub a (mul q b))

/-! ## Increments, complement, bitwise operators -/

/-- Prefix `operator++`: `*this += ONE`. -/
def inc (a : big_integer) : big_integer := add a ONE

/-- Prefix `operator--`: `*this -= ONE`. -/
def dec (a : big_integer) : big_integer := sub a ONE

/-- Unary `operator~`: `-(*this) - ONE`. -/
def bnot (a : big_integer) : big_integer := sub (neg a) ONE

/-- Method `big_integer::convert(blocks)`: the two's-complement limbs of `*this` on `blocks`
limbs. The branch is chosen on the flag of `*this`; the flag returned is the one of `result`
after `++result`. -/
def convert (a : big_integer) (blocks : Nat) : big_integer :=
  if a.negative then
    ⟨resize ((inc a).data.map (fun block => UINT32_MAX - block)) blocks UINT32_MAX,
      (inc a).negative⟩
  else ⟨resize a.data blocks 0, a.negative⟩

/-- The lambda `_and`. -/
def _and (a b : Nat) : Nat := a &&& b

/-- The lambda `_or`. -/
def _or (a b : Nat) : Nat := a ||| b

/-- The lambda `_xor`. -/
def _xor (a b : Nat) : Nat := a ^^^ b

/-- A `bool` passed as a `uint32_t`. -/
def boolToLimb (b : Bool) : Nat := if b then 1 else 0

/-- Function `bitwise(a, b, op)`. -/
def bitwise (a b : big_integer) (op : Nat → Nat → Nat) : big_integer :=
  let sz := max (size a) (size b) + 1
  let tma := convert a sz
  let tmb := convert b sz
  let result : big_integer := normalize
    ⟨(List.range sz).map (fun i => op (tma.data.getD i 0) (tmb.data.getD i 0)),
      op (boolToLimb tma.negative) (boolToLimb tmb.negative) != 0⟩
  normalize
    (if result.negative then
      dec ⟨result.data.map (fun block => UINT32_MAX - block), result.negative⟩
    else result)

/-- Binary `operator&`. -/
def bit_and (a b : big_integer) : big_integer := bitwise a b _and

/-- Binary `operator|`. -/
def bit_or (a b : big_integer) : big_integer := bitwise a b _or

/-- Binary `operator^`. -/
def bit_xor (a b : big_integer) : big_integer := bitwise a b _xor

/-! ## Left shift -/

/-- The expression `x >> k` on a `uint32_t`: undefined for `k ≥ 32`. -/
def shr32 (x k : Nat) : Option Nat := if k < 32 then some (x / 2 ^ k) else none

/-- The expression `x << k` on a `uint32_t`, truncated to 32 bits: undefined for `k ≥ 32`. -/
def shl32 (x k : Nat) : Option Nat := if k < 32 then some (x * 2 ^ k % BASE) else none

/-- The first loop of `operator<<`, `for (uint32_t& i : result.data)`:
`tmp = i >> (32 - inner_shift); i = (i << inner_shift) | carry; carry = tmp;`.
Returns the limbs and the last carry. -/
def shlLoop (inner_shift : Nat) : List Nat → Nat → Option (List Nat × Nat)
  | [], carry => some ([], carry)
  | i :: rest, carry =>
    match shr32 i (32 - inner_shift), shl32 i inner_shift with
    | some tmp, some v =>
      (shlLoop inner_shift rest tmp).map (fun r => ((v ||| carry) :: r.1, r.2))
    | _, _ => none

/-- The second loop of `operator<<`, `for (size_t i = result.data.size(); i > block_shift; i--)`:
`result.data[i - 1] = result.data[i - block_shift - 1]`; the argument is the loop variable. -/
def shlMove (block_shift : Nat) : Nat → List Nat → List Nat
  | 0, d => d
  | i + 1, d =>
    if i + 1 > block_shift then shlMove block_shift i (d.set i (d.getD (i - block_shift) 0))
    else d

/-- Binary `operator<<(a, int b)`; `static_cast<size_t>(b)` is `b` modulo 2^64. -/
def shl (a : big_integer) (b : Int) : Option big_integer :=
  let block_shift := (b % 18446744073709551616).toNat / 32
  let inner_shift := (b % 18446744073709551616).toNat % 32
  (shlLoop inner_shift a.data 0).map (fun r =>
    let d := if r.2 > 0 then r.1 ++ [r.2] else r.1
    let d := resize d (d.length + block_shift) 0
    let d := shlMove block_shift d.length d
    ⟨List.replicate block_shift 0 ++ d.drop block_shift, a.negative⟩)

/-! ## Right shift -/

/-- The first loop of `operator>>`, `for (size_t i = block_shift; i < result.data.size(); ++i)`:
`result.data[i - block_shift] = result.data[i]`; the first argument is the number of iterations
left, the second is `i`. -/
def shrMove (block_shift : Nat) : Nat → Nat → List Nat → List Nat
  | 0, _, d => d
  | r + 1, i, d => shrMove block_shift r (i + 1) (d.set (i - block_shift) (d.getD i 0))

/-- The second loop of `operator>>`, from `rbegin()` to `rend()` (the limbs most significant
first): `tmp = (*i & offset) << (32 - inner_shift); *i = (*i >> inner_shift) | carry;
carry = tmp;`. -/
def shrLoop (inner_shift offset : Nat) : List Nat → Nat → Option (List Nat)
  | [], _ => some []
  | x :: rest, carry =>
    match shl32 (x &&& offset) (32 - inner_shift), shr32 x inner_shift with
    | some tmp, some v => (shrLoop inner_shift offset rest tmp).map (fun r => (v ||| carry) :: r)
    | _, _ => none

/-- Binary `operator>>(a, int b)`. `resize(size() - block_shift)` with `block_shift > size()` is a
`size_t` underflow and `std::vector::resize` throws `std::length_error`: no value is returned.
The post-decrement `result--` is `*this -= 1`. -/
def shr (a : big_integer) (b : Int) : Option big_integer :=
  let block_shift := (b % 18446744073709551616).toNat / 32
  let inner_shift := (b % 18446744073709551616).toNat % 32
  let d := shrMove block_shift (a.data.length - block_shift) block_shift a.data
  if block_shift > d.length then none
  else
    (shrLoop inner_shift (2 ^ inner_shift - 1) (resize d (d.length - block_shift) 0).reverse 0).map
      (fun r =>
        if (normalize ⟨r.reverse, a.negative⟩).negative
        then sub (normalize ⟨r.reverse, a.negative⟩) (ctor_int 1)
        else normalize ⟨r.reverse, a.negative⟩)

/-! ## Decimal strings -/

/-- Constructor `big_integer(const std::string& s)`: the digits after an optional sign are folded
by `*this = (*this * TEN) + (s[i] - '0')`; then the flag is set from `s[0]` and `normalize` runs. -/
def ctor_string (s : List Char) : big_integer :=
  normalize
    ⟨((s.drop (if s.length > 0 ∧ (s.getD 0 (Char.ofNat 0) = '-' ∨ s.getD 0 (Char.ofNat 0) = '+')
          then 1 else 0)).foldl
        (fun acc c => add (mul acc TEN) (ctor_int ((c.toNat : Int) - 48))) ⟨[0], false⟩).data,
      decide (s.getD 0 (Char.ofNat 0) = '-')⟩

/-- The loop of `to_string`, `while (!tmp.zero())`: each round divides by ten and appends the
character of the remainder digit. The first argument bounds the number of rounds; `none` when the
bound is reached before `tmp` is zero. -/
def to_string_loop : Nat → big_integer → List Char → Option (List Char)
  | 0, tmp, ans => if zero tmp then some ans else none
  | fuel + 1, tmp, ans =>
    if zero tmp then some ans
    else match div tmp TEN with
      | none => none
      | some cycle_tmp =>
        to_string_loop fuel cycle_tmp
          (ans ++ [Char.ofNat ((48 + (sub tmp (mul cycle_tmp TEN)).data.getD 0 0) % 256)])

/-- Function `to_string`: ten rounds per limb are more than the decimal digits of the value. -/
def to_string (a : big_integer) : Option (List Char) :=
  if eq a ctor then some ['0']
  else (to_string_loop (10 * size a + 1) a []).map
    (fun ans => (if a.negative then ans ++ ['-'] else ans).reverse)

/-! ## How a call ends -/

/-- The errors a call can end with. `DivideByZero` and `InvalidArgument` are the two errors the
specification names for division and for shifts; no statement of `big_integer.cpp` throws either
of them: the file contains no `throw`. `BadAlloc` is the exception `std::bad_alloc` of the
standard library, which leaves an operator when a `std::vector` asks the allocator for more
memory than there is. -/
inductive Error where
  | DivideByZero
  | InvalidArgument
  | BadAlloc
  deriving DecidableEq, Repr

/-- How a call of an operator ends: it returns a value, it signals an error to the caller, or its
behaviour is undefined. -/
inductive Outcome where
  | returns (v : big_integer)
  | signals (e : Error)
  | undefined
  deriving DecidableEq, Repr

/-- How `a / b` ends. `operator/` has no `throw`; the only way `div` has no value is the machine
division `x / divisor.data[0]` (or `x / y`) by zero, which is undefined. -/
def div_outcome (a b : big_integer) : Outcome :=
  match div a b with
  | some q => Outcome.returns q
  | none => Outcome.undefined

/-- How `a % b` ends: `operator%` is `a - (a / b) * b`. -/
def mod_outcome (a b : big_integer) : Outcome :=
  match mod a b with
  | some r => Outcome.returns r
  | none => Outcome.undefined

/-- How `a << b` ends on a machine whose allocator gives one vector at most `mem` limbs.
`operator<<` has no `throw` and does not look at the sign of `b`. The copy `result(a)`, the
`push_back(carry)` and the `resize(size() + block_shift)` ask the allocator for memory; a request
for more than `mem` limbs ends in `std::bad_alloc`, which leaves the operator (with a count that
comes from an `int` the request stays below `max_size()`, so `std::length_error` does not come
first). A shift of a limb by 32 positions is undefined. The sum `size() + block_shift` is a
`size_t`: if it wraps, `std::fill` writes `block_shift` limbs into a shorter vector, which is
undefined. Where nothing fails the value is that of `shl`. -/
def shl_outcome (mem : Nat) (a : big_integer) (b : Int) : Outcome :=
  let block_shift := (b % 18446744073709551616).toNat / 32
  let inner_shift := (b % 18446744073709551616).toNat % 32
  if a.data.length > mem then Outcome.signals Error.BadAlloc
  else
    match shlLoop inner_shift a.data 0 with
    | none => Outcome.undefined
    | some r =>
      let d := if r.2 > 0 then r.1 ++ [r.2] else r.1
      if d.length > mem then Outcome.signals Error.BadAlloc
      else if (d.length + block_shift) % 18446744073709551616 > mem then
        Outcome.signals Error.BadAlloc
      else if d.length + block_shift ≥ 18446744073709551616 then Outcome.undefined
      else
        let d := resize d (d.length + block_shift) 0
        let d := shlMove block_shift d.length d
        Outcome.returns ⟨List.replicate block_shift 0 ++ d.drop block_shift, a.negative⟩

/-! ## small_object (`bigint-optimized/small_object.h`) -/

/-- Modelled from the spec: the class `cow_wrapper`, whose header `cow_wrapper.h` is not among the
sources: a heap-allocated, growable limb buffer and its reference count, the number of handles
that point at it. -/
structure cow_wrapper where
  vec : List Nat
  ref_count : Nat
  deriving DecidableEq, Repr

/-- The heap of `cow_wrapper` objects, by address; `none` is an address after `delete`. -/
abbrev Heap := List (Option cow_wrapper)

/-- The expression `new cow_wrapper(...)`: the new heap and the address. -/
def heap_new (h : Heap) (c : cow_wrapper) : Heap × Nat := (h ++ [some c], h.length)

/-- Reading through a pointer; `none` when nothing lives at the address. -/
def heap_get (h : Heap) (p : Nat) : Option cow_wrapper := h.getD p none

/-- Writing through a pointer. -/
def heap_set (h : Heap) (p : Nat) (c : cow_wrapper) : Heap := h.set p (some c)

/-- The statement `delete data`. -/
def heap_delete (h : Heap) (p : Nat) : Heap := h.set p none

/-- Modelled from the spec: `cow_wrapper::unique()`, the buffer is referenced by one handle. -/
def cow_unique (c : cow_wrapper) : Bool := c.ref_count == 1

/-- Modelled from the spec: `cow_wrapper::add_ref()`. -/
def cow_add_ref (c : cow_wrapper) : cow_wrapper := ⟨c.vec, c.ref_count + 1⟩

/-- Modelled from the spec: `cow_wrapper::rem_ref()`. -/
def cow_rem_ref (c : cow_wrapper) : cow_wrapper := ⟨c.vec, c.ref_count - 1⟩

/-- Modelled from the spec: `cow_wrapper::extract_unique()`, called on a buffer that other handles
reference: "a fresh copy is made and the old reference released (count decremented)". Returns the
new heap and the address of the copy. -/
def extract_unique (h : Heap) (p : Nat) : Option (Heap × Nat) :=
  (heap_get h p).map (fun c => heap_new (heap_set h p (cow_rem_ref c)) ⟨c.vec, 1⟩)

/-- Modelled from the spec: a call `data->op(...)` of one of the mutating methods of
`cow_wrapper` (`resize`, `operator[]`, `pop_back`, `push_back`, `reverse`, `insert`, `erase`),
which changes the limbs of the buffer in place; `f` is what the method does to the limbs. -/
def cow_call (f : List Nat → List Nat) (h : Heap) (p : Nat) : Option Heap :=
  (heap_get h p).map (fun c => heap_set h p ⟨f c.vec, c.ref_count⟩)

/-- The class `small_object`: the fields `small` and `small_size` and the union of `small_val`
and the pointer `data`. The union is modelled as two fields; the one that is not active holds
no meaningful value. -/
structure small_object where
  small : Bool
  small_size : Nat
  small_val : List Nat
  data : Nat
  deriving DecidableEq, Repr

/-- Method `small_object::uniquify()`: `if (!data->unique()) data = data->extract_unique();`. -/
def uniquify (h : Heap) (s : small_object) : Option (Heap × small_object) :=
  match heap_get h s.data with
  | none => none
  | some c =>
    if cow_unique c then some (h, s)
    else (extract_unique h s.data).map (fun r => (r.1, ⟨s.small, s.small_size, s.small_val, r.2⟩))

/-- Method `small_object::desmall()`: a small object gets a new buffer (`new cow_wrapper(0, 0)`,
then one `push_back` per inline limb) and stops being small. -/
def desmall (h : Heap) (s : small_object) : Heap × small_object :=
  if s.small then
    ((heap_new h ⟨s.small_val.take s.small_size, 1⟩).1,
      ⟨false, s.small_size, s.small_val, (heap_new h ⟨s.small_val.take s.small_size, 1⟩).2⟩)
  else (h, s)

/-- Constructor `small_object(size_t size, uint32_t val)`. -/
def so_ctor (h : Heap) (size val : Nat) : Heap × small_object :=
  if size ≤ 2 then
    desmall h ⟨true, size, List.replicate size val ++ List.replicate (2 - size) 0, 0⟩
  else
    ((heap_new h ⟨List.replicate size val, 1⟩).1,
      ⟨false, size, [0, 0], (heap_new h ⟨List.replicate size val, 1⟩).2⟩)

/-- Copy constructor `small_object(const small_object& that)`: a small source is copied limb by
limb and promoted; otherwise `that.data->add_ref(); data = that.data;`. -/
def so_copy (h : Heap) (that : small_object) : Option (Heap × small_object) :=
  if that.small then
    some (desmall h ⟨true, that.small_size,
      that.small_val.take that.small_size ++ List.replicate (2 - that.small_size) 0, 0⟩)
  else
    (heap_get h that.data).map (fun c =>
      (heap_set h that.data (cow_add_ref c), ⟨false, that.small_size, [0, 0], that.data⟩))

/-- Method `size() const`. -/
def so_size (h : Heap) (s : small_object) : Option Nat :=
  if s.small then some s.small_size else (heap_get h s.data).map (fun c => c.vec.length)

/-- Method `operator[](size_t i) const`; `none` for an index outside the limbs. -/
def so_read (h : Heap) (s : small_object) (i : Nat) : Option Nat :=
  if s.small then s.small_val.get? i else (heap_get h s.data).bind (fun c => c.vec.get? i)

/-- The release of the buffer of `this` in `operator=`:
`if (data->unique()) delete data; else data->rem_ref();`. -/
def so_release (h : Heap) (s : small_object) : Option Heap :=
  (heap_get h s.data).map (fun c =>
    if cow_unique c then heap_delete h s.data else heap_set h s.data (cow_rem_ref c))

/-- Method `operator=(const small_object& that)` for `this != &that`. The four `if` statements
of the source are exclusive (none of them changes a flag that a later one tests to true). When
`this` is small and `that` is not, the source sets `data` and leaves `small` as it is. -/
def so_assign (h : Heap) (this that : small_object) : Option (Heap × small_object) :=
  if this.small && that.small then
    some (h, ⟨this.small, that.small_size,
      that.small_val.take that.small_size ++ this.small_val.drop that.small_size, this.data⟩)
  else if this.small && !that.small then
    (heap_get h that.data).map (fun c =>
      (heap_set h that.data (cow_add_ref c),
        ⟨this.small, this.small_size, this.small_val, that.data⟩))
  else if !this.small && that.small then
    (so_release h this).map (fun h1 =>
      (h1, ⟨that.small, that.small_size,
        that.small_val.take that.small_size ++ this.small_val.drop that.small_size, this.data⟩))
  else
    (so_release h this).bind (fun h1 =>
      (heap_get h1 that.data).map (fun c =>
        (heap_set h1 that.data (cow_add_ref c),
          ⟨this.small, this.small_size, this.small_val, that.data⟩)))

/-- Method `resize(size, val)`: `desmall(); uniquify(); data->resize(size, val);`. -/
def so_resize (h : Heap) (s : small_object) (size val : Nat) : Option (Heap × small_object) :=
  (uniquify (desmall h s).1 (desmall h s).2).bind (fun u =>
    (cow_call (fun v => resize v size val) u.1 u.2.data).map (fun h2 => (h2, u.2)))

/-- A write `s[i] = x` through the non-const `operator[](size_t i)`:
`desmall(); uniquify(); return (*data)[i];`. -/
def so_write (h : Heap) (s : small_object) (i x : Nat) : Option (Heap × small_object) :=
  (uniquify (desmall h s).1 (desmall h s).2).bind (fun u =>
    (cow_call (fun v => v.set i x) u.1 u.2.data).map (fun h2 => (h2, u.2)))

/-- Method `pop_back()`: `desmall(); uniquify(); data->pop_back();`. -/
def so_pop_back (h : Heap) (s : small_object) : Option (Heap × small_object) :=
  (uniquify (desmall h s).1 (desmall h s).2).bind (fun u =>
    (cow_call List.dropLast u.1 u.2.data).map (fun h2 => (h2, u.2)))

/-- Method `push_back(val)`: `desmall(); uniquify(); data->push_back(val);`. -/
def so_push_back (h : Heap) (s : small_object) (val : Nat) : Option (Heap × small_object) :=
  (uniquify (desmall h s).1 (desmall h s).2).bind (fun u =>
    (cow_call (fun v => v ++ [val]) u.1 u.2.data).map (fun h2 => (h2, u.2)))

/-- Method `reverse()`: `desmall(); uniquify(); data->reverse();`. -/
def so_reverse (h : Heap) (s : small_object) : Option (Heap × small_object) :=
  (uniquify (desmall h s).1 (desmall h s).2).bind (fun u =>
    (cow_call List.reverse u.1 u.2.data).map (fun h2 => (h2, u.2)))

/-- Method `insert(len)`: `desmall(); data->insert(len);`, with no call of `uniquify()`. What
`cow_wrapper::insert` does to the limbs is the parameter `ins`. -/
def so_insert (ins : Nat → List Nat → List Nat) (h : Heap) (s : small_object) (len : Nat) :
    Option (Heap × small_object) :=
  (cow_call (ins len) (desmall h s).1 (desmall h s).2.data).map (fun h2 => (h2, (desmall h s).2))

/-- Method `erase(len)`: `desmall(); uniquify(); data->erase(len);`. What `cow_wrapper::erase`
does to the limbs is the parameter `ers`. -/
def so_erase (ers : Nat → List Nat → List Nat) (h : Heap) (s : small_object) (len : Nat) :
    Option (Heap × small_object) :=
  (uniquify (desmall h s).1 (desmall h s).2).bind (fun u =>
    (cow_call (ers len) u.1 u.2.data).map (fun h2 => (h2, u.2)))

/-- The limbs a `small_object` shows through `size()` and the const `operator[]`. -/
def so_contents (h : Heap) (s : small_object) : Option (List Nat) :=
  if s.small then some (s.small_val.take s.small_size) else (heap_get h s.data).map (fun c => c.vec)

/-- A `small_object` as the constructors leave it: not small, pointing at a live buffer that at
least one handle references. -/
def so_valid (h : Heap) (s : small_object) : Prop :=
  s.small = false ∧ ∃ c, heap_get h s.data = some c ∧ 1 ≤ c.ref_count

/-! ## Values and canonical form -/

/-- The natural number a limb sequence stands for (base 2^32, least significant limb first). -/
def mag : List Nat → Nat
  | [] => 0
  | x :: xs => x + BASE * mag xs

/-- The signed integer value of a `big_integer`. -/
def toInt (a : big_integer) : Int := if a.negative then -(mag a.data : Int) else (mag a.data : Int)

/-- Every limb fits in a `uint32_t`. -/
def limbsOk (l : List Nat) : Prop := ∀ x ∈ l, x < BASE

/-- Canonical form: the limb sequence is not empty, its limbs are 32-bit values, its most
significant limb is not zero unless the sequence is the single limb `[0]`, and zero is not
negative. -/
def Canonical (a : big_integer) : Prop :=
  a.data ≠ [] ∧ limbsOk a.data ∧ (a.data.length = 1 ∨ a.data.getLastD 0 ≠ 0)
    ∧ (zero a = true → a.negative = false)

instance (l : List Nat) : Decidable (limbsOk l) := by
  unfold limbsOk; infer_instance

instance (a : big_integer) : Decidable (Canonical a) := by
  unfold Canonical; infer_instance

/-- The number the comparison loop of the general path of `operator/` compares the working
dividend (of `s` limbs) with: the limbs of `tmp_big` aligned with the top `m` limbs of the
dividend, zero below and above. -/
def aligned (s m : Nat) (tmp : List Nat) : List Nat :=
  List.replicate (s - m) 0 ++ (tmp ++ List.replicate (m - tmp.length) 0)

/-- The trial product of one round of the digit loop after the correction: `tmp_big` when
`flag` holds, `tmp_big - divisor` otherwise. -/
def roundProduct (divisor : big_integer) (m : Nat) (divident : List Nat) : big_integer :=
  if flagLoop divident (mul divisor (ctor_uint32 (estimate divident divisor.data))).data m
      divident.length 1
  then mul divisor (ctor_uint32 (estimate divident divisor.data))
  else sub (mul divisor (ctor_uint32 (estimate divident divisor.data))) divisor

/-- The quotient limb stored by one round of the digit loop: `tmp_32` after the correction. -/
def roundDigit (divisor : big_integer) (m : Nat) (divident : List Nat) : Nat :=
  if flagLoop divident (mul divisor (ctor_uint32 (estimate divident divisor.data))).data m
      divident.length 1
  then estimate divident divisor.data
  else (estimate divident divisor.data + UINT32_MAX) % BASE

/-- The working dividend after one round of the digit loop: `diff`, then `pop_back` of a zero
top limb. -/
def roundDivident (divisor : big_integer) (m : Nat) (divident : List Nat) : List Nat :=
  if (diff divident (roundProduct divisor m divident).data m).getLastD 0 = 0
  then (diff divident (roundProduct divisor m divident).data m).dropLast
  else diff divident (roundProduct divisor m divident).data m

/-! ## Values of limb sequences -/

theorem BASE_eq : BASE = 4294967296 := rfl

theorem UINT32_MAX_eq : UINT32_MAX = 4294967295 := rfl

theorem BASE_pos : 0 < BASE := by decide

theorem limbsOk_nil : limbsOk [] := by
  intro x hx; cases hx

theorem limbsOk_cons {x : Nat} {xs : List Nat} : limbsOk (x :: xs) ↔ x < BASE ∧ limbsOk xs := by
  simp [limbsOk]

theorem limbsOk_append {l r : List Nat} : limbsOk (l ++ r) ↔ limbsOk l ∧ limbsOk r := by
  simp only [limbsOk, List.mem_append]
  constructor
  · intro h; exact ⟨fun x hx => h x (Or.inl hx), fun x hx => h x (Or.inr hx)⟩
  · rintro ⟨h1, h2⟩ x (hx | hx)
    · exact h1 x hx
    · exact h2 x hx

theorem limbsOk_replicate (n v : Nat) (hv : v < BASE) : limbsOk (List.replicate n v) := by
  intro x hx
  rw [List.mem_replicate] at hx
  rw [hx.2]; exact hv

theorem mag_append (l r : List Nat) : mag (l ++ r) = mag l + BASE ^ l.length * mag r := by
  induction l with
  | nil => simp [mag]
  | cons x xs ih =>
    show x + BASE * mag (xs ++ r) = x + BASE * mag xs + BASE ^ (xs.length + 1) * mag r
    rw [ih, pow_succ]
    ring

theorem mag_replicate_zero (n : Nat) : mag (List.replicate n 0) = 0 := by
  induction n with
  | zero => rfl
  | succ n ih => simp [List.replicate_succ, mag, ih]

theorem mag_lt {l : List Nat} (h : limbsOk l) : mag l < BASE ^ l.length := by
  induction l with
  | nil => simp [mag]
  | cons x xs ih =>
    rw [limbsOk_cons] at h
    have h1 := ih h.2
    have h2 : BASE * (mag xs + 1) ≤ BASE * BASE ^ xs.length := Nat.mul_le_mul_left _ h1
    simp only [mag, List.length_cons, pow_succ]
    have h3 := h.1
    nlinarith

theorem snoc_cases (l : List Nat) : l = [] ∨ ∃ L b, l = L ++ [b] := by
  rcases List.eq_nil_or_concat l with h | ⟨L, b, h⟩
  · exact Or.inl h
  · exact Or.inr ⟨L, b, by rw [h, List.concat_eq_append]⟩

theorem mag_snoc (L : List Nat) (b : Nat) : mag (L ++ [b]) = mag L + BASE ^ L.length * b := by
  rw [mag_append]; simp [mag]

/-- A sequence whose last limb is not zero is at least the power of its top position. -/
theorem mag_ge_of_getLast {l : List Nat} (hl : l ≠ []) (h : l.getLastD 0 ≠ 0) :
    BASE ^ (l.length - 1) ≤ mag l := by
  rcases snoc_cases l with rfl | ⟨L, b, rfl⟩
  · exact absurd rfl hl
  · rw [List.getLastD_concat] at h
    rw [mag_snoc]
    simp only [List.length_append, List.length_singleton, Nat.add_sub_cancel]
    have : 1 ≤ b := Nat.one_le_iff_ne_zero.mpr h
    calc BASE ^ L.length = BASE ^ L.length * 1 := by ring
      _ ≤ BASE ^ L.length * b := Nat.mul_le_mul_left _ this
      _ ≤ mag L + BASE ^ L.length * b := Nat.le_add_left _ _

/-! ## normalize -/

theorem popBackZeros_mag (n : Nat) (d : List Nat) : mag (popBackZeros n d) = mag d := by
  induction n generalizing d with
  | zero => rfl
  | succ n ih =>
    unfold popBackZeros
    split
    · rename_i h
      rw [ih]
      rcases snoc_cases d with rfl | ⟨L, b, rfl⟩
      · simp at h
      · rw [List.getLastD_concat] at h
        rw [List.dropLast_concat, mag_snoc, h.2]; simp
    · rfl

theorem limbsOk_dropLast {d : List Nat} (h : limbsOk d) : limbsOk d.dropLast := by
  intro x hx
  exact h x (List.mem_of_mem_dropLast hx)

theorem popBackZeros_limbsOk (n : Nat) (d : List Nat) (h : limbsOk d) :
    limbsOk (popBackZeros n d) := by
  induction n generalizing d with
  | zero => exact h
  | succ n ih =>
    unfold popBackZeros
    split
    · exact ih _ (limbsOk_dropLast h)
    · exact h

theorem dropLast_ne_nil {d : List Nat} (h : 1 < d.length) : d.dropLast ≠ [] := by
  intro hd
  have := congrArg List.length hd
  simp only [List.length_dropLast, List.length_nil] at this
  omega

theorem popBackZeros_ne_nil (n : Nat) (d : List Nat) (h : d ≠ []) : popBackZeros n d ≠ [] := by
  induction n generalizing d with
  | zero => exact h
  | succ n ih =>
    unfold popBackZeros
    split
    · rename_i hc
      exact ih _ (dropLast_ne_nil hc.1)
    · exact h

theorem popBackZeros_trim (n : Nat) (d : List Nat) (hn : d.length ≤ n) (h : d ≠ []) :
    (popBackZeros n d).length = 1 ∨ (popBackZeros n d).getLastD 0 ≠ 0 := by
  induction n generalizing d with
  | zero =>
    have : d.length = 0 := Nat.le_zero.mp hn
    exact absurd (List.length_eq_zero.mp this) h
  | succ n ih =>
    unfold popBackZeros
    split
    · rename_i hc
      apply ih
      · rw [List.length_dropLast]; omega
      · exact dropLast_ne_nil hc.1
    · rename_i hc
      rcases snoc_cases d with rfl | ⟨L, b, rfl⟩
      · exact absurd rfl h
      · rw [List.getLastD_concat] at hc ⊢
        simp only [List.length_append, List.length_singleton] at hc ⊢
        by_cases hb : b = 0
        · left
          have : ¬ (1 < L.length + 1) := fun h1 => hc ⟨h1, hb⟩
          omega
        · right; exact hb

theorem popBackZeros_id (n : Nat) (d : List Nat) (h : d.length = 1 ∨ d.getLastD 0 ≠ 0) :
    popBackZeros n d = d := by
  cases n with
  | zero => rfl
  | succ n =>
    unfold popBackZeros
    split
    · rename_i hc
      rcases snoc_cases d with rfl | ⟨L, b, rfl⟩
      · simp at hc
      · rw [List.getLastD_concat] at hc h
        rcases h with h | h
        · omega
        · exact absurd hc.2 h
    · rfl

theorem zero_iff (a : big_integer) : zero a = true ↔ a.data = [0] := by
  unfold zero
  rcases a with ⟨d, s⟩
  cases d with
  | nil => simp
  | cons x xs =>
    cases xs with
    | nil => simp
    | cons y ys => simp

theorem normalize_data (a : big_integer) :
    (normalize a).data = popBackZeros a.data.length a.data := by
  unfold normalize
  simp only
  split <;> rfl

theorem normalize_negative (a : big_integer) :
    (normalize a).negative = (if (normalize a).data = [0] then false else a.negative) := by
  unfold normalize
  simp only
  split
  · rename_i h
    rw [zero_iff] at h
    simp only at h
    simp [h]
  · rename_i h
    rw [zero_iff] at h
    simp only at h
    simp [h]

theorem normalize_canonical (a : big_integer) (hne : a.data ≠ []) (hok : limbsOk a.data) :
    Canonical (normalize a) := by
  refine ⟨?_, ?_, ?_, ?_⟩
  · rw [normalize_data]; exact popBackZeros_ne_nil _ _ hne
  · rw [normalize_data]; exact popBackZeros_limbsOk _ _ hok
  · rw [normalize_data]; exact popBackZeros_trim _ _ (le_refl _) hne
  · intro hz
    rw [zero_iff] at hz
    rw [normalize_negative, if_pos hz]

theorem mag_normalize (a : big_integer) : mag (normalize a).data = mag a.data := by
  rw [normalize_data, popBackZeros_mag]

theorem mag_eq_zero_of_zero {a : big_integer} (h : a.data = [0]) : mag a.data = 0 := by
  rw [h]; rfl

theorem toInt_normalize (a : big_integer) : toInt (normalize a) = toInt a := by
  unfold toInt
  rw [mag_normalize, normalize_negative]
  split
  · rename_i h
    have := mag_eq_zero_of_zero h
    rw [mag_normalize] at this
    rw [this]; simp
  · rfl

theorem normalize_of_canonical {a : big_integer} (h : Canonical a) : normalize a = a := by
  obtain ⟨_, _, h3, h4⟩ := h
  have hd : (normalize a).data = a.data := by rw [normalize_data, popBackZeros_id _ _ h3]
  have hn : (normalize a).negative = a.negative := by
    rw [normalize_negative, hd]
    split
    · rename_i hz
      exact (h4 ((zero_iff a).mpr hz)).symm
    · rfl
  rcases a with ⟨d, s⟩
  rcases hnorm : normalize ⟨d, s⟩ with ⟨d2, s2⟩
  rw [hnorm] at hd hn
  simp only at hd hn
  rw [hd, hn]

/-! ## Canonical representations are unique -/

theorem mag_inj_of_length_eq {l1 l2 : List Nat} (h1 : limbsOk l1) (h2 : limbsOk l2)
    (hl : l1.length = l2.length) (hm : mag l1 = mag l2) : l1 = l2 := by
  induction l1 generalizing l2 with
  | nil =>
    cases l2 with
    | nil => rfl
    | cons y ys => simp at hl
  | cons x xs ih =>
    cases l2 with
    | nil => simp at hl
    | cons y ys =>
      rw [limbsOk_cons] at h1 h2
      simp only [mag, BASE] at hm
      have hx := h1.1
      have hy := h2.1
      simp only [BASE] at hx hy
      have hxy : x = y := by omega
      have hms : mag xs = mag ys := by omega
      rw [hxy, ih h1.2 h2.2 (by simpa using hl) hms]

theorem mag_lt_of_length_lt {l1 l2 : List Nat} (h1 : limbsOk l1) (hne : l2 ≠ [])
    (hlast : l2.getLastD 0 ≠ 0) (hl : l1.length < l2.length) : mag l1 < mag l2 := by
  have ha := mag_lt h1
  have hb := mag_ge_of_getLast hne hlast
  have : BASE ^ l1.length ≤ BASE ^ (l2.length - 1) :=
    Nat.pow_le_pow_right BASE_pos (by omega)
  omega

theorem canonical_length_pos {a : big_integer} (h : Canonical a) : 1 ≤ a.data.length := by
  have := h.1
  cases hd : a.data with
  | nil => exact absurd hd this
  | cons x xs => simp

theorem canonical_mag_zero {a : big_integer} (h : Canonical a) (hm : mag a.data = 0) :
    a.data = [0] := by
  obtain ⟨hne, hok, htrim, _⟩ := h
  rcases htrim with h1 | h1
  · cases hd : a.data with
    | nil => exact absurd hd hne
    | cons x xs =>
      rw [hd] at h1 hm
      cases xs with
      | nil =>
        simp only [mag] at hm
        have : x = 0 := by omega
        rw [this]
      | cons y ys => simp at h1
  · have := mag_ge_of_getLast hne h1
    have hp : 0 < BASE ^ (a.data.length - 1) := pow_pos BASE_pos _
    omega

theorem canonical_data_ext {a b : big_integer} (ha : Canonical a) (hb : Canonical b)
    (hm : mag a.data = mag b.data) : a.data = b.data := by
  have hla := canonical_length_pos ha
  have hlb := canonical_length_pos hb
  obtain ⟨hnea, hoka, htrima, _⟩ := ha
  obtain ⟨hneb, hokb, htrimb, _⟩ := hb
  apply mag_inj_of_length_eq hoka hokb _ hm
  by_contra hne
  rcases Nat.lt_or_gt_of_ne hne with hlt | hlt
  · have h2 : b.data.getLastD 0 ≠ 0 := by
      rcases htrimb with h | h
      · omega
      · exact h
    have := mag_lt_of_length_lt hoka hneb h2 hlt
    omega
  · have h2 : a.data.getLastD 0 ≠ 0 := by
      rcases htrima with h | h
      · omega
      · exact h
    have := mag_lt_of_length_lt hokb hnea h2 hlt
    omega

theorem canonical_neg_mag_pos {a : big_integer} (h : Canonical a) (hn : a.negative = true) :
    0 < mag a.data := by
  by_contra h0
  have hz := canonical_mag_zero h (by omega)
  have := h.2.2.2 ((zero_iff a).mpr hz)
  rw [hn] at this
  cases this

/-- Two canonical values with the same integer value are the same object. -/
theorem canonical_ext {a b : big_integer} (ha : Canonical a) (hb : Canonical b)
    (h : toInt a = toInt b) : a = b := by
  have key : a.negative = b.negative ∧ mag a.data = mag b.data := by
    unfold toInt at h
    cases hna : a.negative <;> cases hnb : b.negative <;> rw [hna, hnb] at h <;> simp at h
    · exact ⟨rfl, h⟩
    · have := canonical_neg_mag_pos hb hnb
      omega
    · have := canonical_neg_mag_pos ha hna
      omega
    · exact ⟨rfl, h⟩
  have hd := canonical_data_ext ha hb key.2
  rcases a with ⟨da, sa⟩
  rcases b with ⟨db, sb⟩
  simp only at key hd
  rw [key.1, hd]

theorem eq_iff (a b : big_integer) : eq a b = true ↔ a = b := by
  rcases a with ⟨da, sa⟩
  rcases b with ⟨db, sb⟩
  simp [eq]
  tauto

/-! ## Comparison -/

theorem take_succ_getD (l : List Nat) (i : Nat) (h : i < l.length) :
    l.take (i + 1) = l.take i ++ [l.getD i 0] := by
  rw [List.take_succ, List.getD_eq_getElem?_getD, List.getElem?_eq_getElem h]
  rfl

theorem mag_take_succ (l : List Nat) (i : Nat) (h : i < l.length) :
    mag (l.take (i + 1)) = mag (l.take i) + BASE ^ i * l.getD i 0 := by
  rw [take_succ_getD l i h, mag_snoc, List.length_take, Nat.min_eq_left (Nat.le_of_lt h)]

theorem limbsOk_take {l : List Nat} (h : limbsOk l) (i : Nat) : limbsOk (l.take i) := by
  intro x hx
  exact h x (List.mem_of_mem_take hx)

theorem limbsOk_drop {l : List Nat} (h : limbsOk l) (i : Nat) : limbsOk (l.drop i) := by
  intro x hx
  exact h x (List.mem_of_mem_drop hx)

theorem mag_take_lt {l : List Nat} (h : limbsOk l) (i : Nat) (hi : i ≤ l.length) :
    mag (l.take i) < BASE ^ i := by
  have := mag_lt (limbsOk_take h i)
  rwa [List.length_take, Nat.min_eq_left hi] at this

/-- Comparing `A + P * x` with `B + P * y` when `A, B < P`: the high digits decide. -/
theorem digits_lt {P A B x y : Nat} (hA : A < P) (hxy : x < y) : A + P * x < B + P * y := by
  have : P * (x + 1) ≤ P * y := Nat.mul_le_mul_left _ hxy
  have h2 : P * (x + 1) = P * x + P := by ring
  omega

theorem ltLoop_spec (a b : big_integer)
    (hoka : limbsOk a.data) (hokb : limbsOk b.data) (i : Nat)
    (hia : i ≤ a.data.length) (hib : i ≤ b.data.length) :
    ltLoop a b i = (if mag (a.data.take i) = mag (b.data.take i) then false
      else Bool.xor (!a.negative) (decide (mag (a.data.take i) > mag (b.data.take i)))) := by
  induction i with
  | zero => simp [ltLoop, mag]
  | succ i ih =>
    have iha := ih (by omega) (by omega)
    have hA := mag_take_lt hoka i (by omega)
    have hB := mag_take_lt hokb i (by omega)
    rw [mag_take_succ _ _ (by omega : i < a.data.length),
      mag_take_succ _ _ (by omega : i < b.data.length)]
    unfold ltLoop
    by_cases hxy : a.data.getD i 0 = b.data.getD i 0
    · rw [if_neg (by simpa using hxy), iha, hxy]
      by_cases hm : mag (a.data.take i) = mag (b.data.take i)
      · rw [if_pos hm, if_pos (by rw [hm])]
      · have h1 : ¬ (mag (List.take i a.data) + BASE ^ i * b.data.getD i 0
            = mag (List.take i b.data) + BASE ^ i * b.data.getD i 0) := by omega
        rw [if_neg hm, if_neg h1]
        congr 1
        exact decide_eq_decide.mpr ⟨fun h => by omega, fun h => by omega⟩
    · rw [if_pos (by simpa using hxy)]
      rcases Nat.lt_or_gt_of_ne hxy with hlt | hgt
      · have := digits_lt (B := mag (b.data.take i)) hA hlt
        rw [if_neg (by omega)]
        congr 1
        exact decide_eq_decide.mpr ⟨fun h => by omega, fun h => by omega⟩
      · have := digits_lt (B := mag (a.data.take i)) hB hgt
        rw [if_neg (by omega)]
        congr 1
        exact decide_eq_decide.mpr ⟨fun h => by omega, fun h => by omega⟩

/-- For canonical operands `operator<` is the order of the integer values. -/
theorem lt_iff {a b : big_integer} (ha : Canonical a) (hb : Canonical b) :
    lt a b = true ↔ toInt a < toInt b := by
  have hla := canonical_length_pos ha
  have hlb := canonical_length_pos hb
  unfold lt
  by_cases hs : a.negative = b.negative
  · rw [if_neg (by simpa using hs)]
    by_cases hsz : size a = size b
    · rw [if_neg (by simpa using hsz)]
      unfold size at hsz ⊢
      rw [ltLoop_spec a b ha.2.1 hb.2.1 _ (le_refl _) (by omega)]
      have hbt : List.take a.data.length b.data = b.data := by rw [hsz, List.take_length]
      rw [List.take_length, hbt]
      unfold toInt
      rw [← hs]
      cases hn : a.negative
      · by_cases hm : mag a.data = mag b.data
        · simp [hm]
        · simp [hm]; omega
      · by_cases hm : mag a.data = mag b.data
        · simp [hm]
        · simp [hm]
    · rw [if_pos (by simpa using hsz)]
      unfold size at hsz ⊢
      unfold toInt
      rw [← hs]
      rcases Nat.lt_or_gt_of_ne hsz with hlt | hgt
      · have hlast : b.data.getLastD 0 ≠ 0 := by
          rcases hb.2.2.1 with h | h
          · omega
          · exact h
        have := mag_lt_of_length_lt ha.2.1 hb.1 hlast hlt
        cases hn : a.negative
        · simp; constructor
          · intro _; omega
          · intro _; omega
        · simp; omega
      · have hlast : a.data.getLastD 0 ≠ 0 := by
          rcases ha.2.2.1 with h | h
          · omega
          · exact h
        have := mag_lt_of_length_lt hb.2.1 ha.1 hlast hgt
        cases hn : a.negative
        · simp; omega
        · simp; constructor
          · intro _; omega
          · intro _; omega
  · rw [if_pos (by simpa using hs)]
    unfold toInt
    cases hna : a.negative <;> cases hnb : b.negative
    · exact absurd (hna.trans hnb.symm) hs
    · have := canonical_neg_mag_pos hb hnb
      simp; omega
    · have := canonical_neg_mag_pos ha hna
      simp; omega
    · exact absurd (hna.trans hnb.symm) hs

/-! ## The magnitude loops of addition and subtraction -/

theorem getD_lt_BASE {l : List Nat} (h : limbsOk l) (i : Nat) : l.getD i 0 < BASE := by
  by_cases hi : i < l.length
  · rw [List.getD_eq_getElem _ _ hi]
    exact h _ (List.getElem_mem hi)
  · rw [List.getD_eq_default _ _ (by omega)]
    exact BASE_pos

theorem mag_drop (l : List Nat) (i : Nat) :
    mag (l.drop i) = (if i < l.length then l.getD i 0 else 0) + BASE * mag (l.drop (i + 1)) := by
  by_cases hi : i < l.length
  · rw [if_pos hi, List.drop_eq_getElem_cons hi, List.getD_eq_getElem _ _ hi]
    rfl
  · rw [if_neg hi, List.drop_eq_nil_of_le (by omega), List.drop_eq_nil_of_le (by omega)]
    rfl

theorem carry_le_one (p : Prop) [Decidable p] : (if p then 1 else 0 : Nat) ≤ 1 := by
  split <;> omega

theorem addLoop_mag (a b : List Nat) (hoka : limbsOk a) (hokb : limbsOk b) (k i c : Nat)
    (hc : c ≤ 1) (ha : a.length ≤ i + k) (hb : b.length ≤ i + k) :
    mag (addLoop a b k i c) = c + mag (a.drop i) + mag (b.drop i) := by
  induction k generalizing i c with
  | zero =>
    rw [List.drop_eq_nil_of_le (by omega), List.drop_eq_nil_of_le (by omega)]
    simp [addLoop, mag]
  | succ k ih =>
    unfold addLoop
    rw [mag_drop a i, mag_drop b i]
    have hx : a.getD i 0 < BASE := getD_lt_BASE hoka i
    have hy : b.getD i 0 < BASE := getD_lt_BASE hokb i
    generalize hX : (if i < a.length then a.getD i 0 else 0) = x
    generalize hY : (if i < b.length then b.getD i 0 else 0) = y
    have hx2 : x < BASE := by rw [← hX]; split <;> [exact hx; exact BASE_pos]
    have hy2 : y < BASE := by rw [← hY]; split <;> [exact hy; exact BASE_pos]
    show (c + x + y) % BASE + BASE * mag (addLoop a b k (i + 1) _) = _
    rw [ih (i + 1) _ (carry_le_one _) (by omega) (by omega)]
    simp only [BASE, UINT32_MAX] at hx2 hy2 ⊢
    by_cases hs : c + x + y > 4294967295
    · rw [if_pos hs]; omega
    · rw [if_neg hs]; omega

theorem addLoop_limbsOk (a b : List Nat) (k i c : Nat) (hc : c ≤ 1) :
    limbsOk (addLoop a b k i c) := by
  induction k generalizing i c with
  | zero =>
    unfold addLoop
    rw [limbsOk_cons]
    exact ⟨by simp only [BASE]; omega, limbsOk_nil⟩
  | succ k ih =>
    unfold addLoop
    rw [limbsOk_cons]
    exact ⟨Nat.mod_lt _ BASE_pos, ih _ _ (carry_le_one _)⟩

theorem addLoop_ne_nil (a b : List Nat) (k i c : Nat) : addLoop a b k i c ≠ [] := by
  cases k <;> simp [addLoop]

/-- The loop of `operator-` computes the difference up to a borrow out of the top limb. -/
theorem subLoop_spec (a b : List Nat) (c : Nat) (hoka : limbsOk a) (hokb : limbsOk b)
    (hc : c ≤ 1) (hl : b.length ≤ a.length) :
    (mag (subLoop a b c) + mag b + c = mag a
        ∨ mag (subLoop a b c) + mag b + c = mag a + BASE ^ a.length)
      ∧ limbsOk (subLoop a b c) ∧ (subLoop a b c).length = a.length := by
  induction a generalizing b c with
  | nil =>
    have hb : b = [] := List.length_eq_zero.mp (Nat.le_zero.mp hl)
    subst hb
    simp only [subLoop, mag, List.length_nil, pow_zero]
    exact ⟨by omega, limbsOk_nil, trivial⟩
  | cons x xs ih =>
    rw [limbsOk_cons] at hoka
    have hx := hoka.1
    cases b with
    | nil =>
      by_cases hxc : x ≥ c
      · have e : subLoop (x :: xs) [] c = (x - c) :: subLoop xs [] 0 := by
          simp only [subLoop, if_pos hxc]
        obtain ⟨h1, h2, h3⟩ := ih [] 0 hoka.2 limbsOk_nil (by omega) (by simp)
        rw [e]
        refine ⟨?_, limbsOk_cons.mpr ⟨by omega, h2⟩, by simp [h3]⟩
        simp only [mag, List.length_cons, pow_succ, BASE] at h1 hx ⊢
        omega
      · have e : subLoop (x :: xs) [] c = UINT32_MAX :: subLoop xs [] 1 := by
          simp only [subLoop, if_neg hxc]
        obtain ⟨h1, h2, h3⟩ := ih [] 1 hoka.2 limbsOk_nil (by omega) (by simp)
        rw [e]
        refine ⟨?_, limbsOk_cons.mpr ⟨by decide, h2⟩, by simp [h3]⟩
        simp only [mag, List.length_cons, pow_succ, BASE, UINT32_MAX] at h1 hx ⊢
        omega
    | cons y ys =>
      rw [limbsOk_cons] at hokb
      have hy := hokb.1
      have hl2 : ys.length ≤ xs.length := by simpa using hl
      by_cases hxy : x ≥ y
      · by_cases hxc : x - y ≥ c
        · have e : subLoop (x :: xs) (y :: ys) c = (x - y - c) :: subLoop xs ys 0 := by
            simp only [subLoop, if_pos hxy, if_pos hxc]
          obtain ⟨h1, h2, h3⟩ := ih ys 0 hoka.2 hokb.2 (by omega) hl2
          rw [e]
          refine ⟨?_, limbsOk_cons.mpr ⟨by omega, h2⟩, by simp [h3]⟩
          simp only [mag, List.length_cons, pow_succ, BASE] at h1 hx hy ⊢
          omega
        · have e : subLoop (x :: xs) (y :: ys) c = UINT32_MAX :: subLoop xs ys 1 := by
            simp only [subLoop, if_pos hxy, if_neg hxc]
          obtain ⟨h1, h2, h3⟩ := ih ys 1 hoka.2 hokb.2 (by omega) hl2
          rw [e]
          refine ⟨?_, limbsOk_cons.mpr ⟨by decide, h2⟩, by simp [h3]⟩
          simp only [mag, List.length_cons, pow_succ, BASE, UINT32_MAX] at h1 hx hy ⊢
          omega
      · have e : subLoop (x :: xs) (y :: ys) c
            = ((UINT32_MAX - (y - x) + 1 - c) % BASE) :: subLoop xs ys 1 := by
          simp only [subLoop, if_neg hxy]
        obtain ⟨h1, h2, h3⟩ := ih ys 1 hoka.2 hokb.2 (by omega) hl2
        rw [e]
        refine ⟨?_, limbsOk_cons.mpr ⟨Nat.mod_lt _ BASE_pos, h2⟩, by simp [h3]⟩
        simp only [mag, List.length_cons, pow_succ, BASE, UINT32_MAX] at h1 hx hy ⊢
        omega

theorem subLoop_mag (a b : List Nat) (hoka : limbsOk a) (hokb : limbsOk b)
    (hl : b.length ≤ a.length) (hle : mag b ≤ mag a) :
    mag (subLoop a b 0) + mag b = mag a := by
  obtain ⟨h1, h2, h3⟩ := subLoop_spec a b 0 hoka hokb (by omega) hl
  rcases h1 with h | h
  · omega
  · have := mag_lt h2
    have hb := mag_lt hokb
    rw [h3] at this
    have hp : BASE ^ b.length ≤ BASE ^ a.length := Nat.pow_le_pow_right BASE_pos hl
    omega

/-! ## Unary minus, addition and subtraction on canonical values -/

theorem neg_canonical {a : big_integer} (ha : Canonical a) : Canonical (neg a) :=
  normalize_canonical _ ha.1 ha.2.1

theorem toInt_neg (a : big_integer) : toInt (neg a) = - toInt a := by
  unfold neg
  rw [toInt_normalize]
  unfold toInt
  cases a.negative <;> simp

theorem negative_iff {a : big_integer} (ha : Canonical a) : a.negative = true ↔ toInt a < 0 := by
  unfold toInt
  constructor
  · intro h
    have := canonical_neg_mag_pos ha h
    rw [if_pos h]; omega
  · intro h
    by_contra hn
    rw [if_neg hn] at h
    omega

theorem negative_false_iff {a : big_integer} (ha : Canonical a) :
    a.negative = false ↔ 0 ≤ toInt a := by
  rw [← not_iff_not, Bool.not_eq_false, negative_iff ha]
  omega

theorem toInt_of_nonneg {a : big_integer} (h : a.negative = false) : toInt a = mag a.data := by
  unfold toInt; rw [h]; rfl

theorem length_le_of_mag_le {a b : big_integer} (ha : Canonical a) (hb : Canonical b)
    (h : mag b.data ≤ mag a.data) : b.data.length ≤ a.data.length := by
  by_contra hl
  have hlb : b.data.getLastD 0 ≠ 0 := by
    have := canonical_length_pos ha
    rcases hb.2.2.1 with h1 | h1
    · omega
    · exact h1
  have := mag_lt_of_length_lt ha.2.1 hb.1 hlb (by omega)
  omega

/-- The same-sign branch of `operator+`. -/
theorem addAux_same_sign (n : Nat) {a b : big_integer} (ha : Canonical a) (hb : Canonical b)
    (hs : a.negative = b.negative) :
    Canonical (addAux (n + 1) a b) ∧ toInt (addAux (n + 1) a b) = toInt a + toInt b := by
  have e : addAux (n + 1) a b
      = normalize ⟨addLoop a.data b.data (max (size a) (size b)) 0 0, a.negative⟩ := by
    rw [addAux, if_neg (by simpa using hs)]
  rw [e]
  refine ⟨normalize_canonical _ (addLoop_ne_nil _ _ _ _ _)
    (addLoop_limbsOk _ _ _ _ _ (by omega)), ?_⟩
  rw [toInt_normalize]
  unfold toInt
  simp only
  rw [addLoop_mag _ _ ha.2.1 hb.2.1 _ _ _ (by omega) (by unfold size; omega)
    (by unfold size; omega), ← hs]
  simp only [List.drop_zero]
  cases a.negative <;> first | (simp; omega) | simp

/-- The magnitude branch of `operator-`: both operands non-negative and `a < b` false. -/
theorem subAux_nonneg_ge (n : Nat) {a b : big_integer} (ha : Canonical a) (hb : Canonical b)
    (hna : a.negative = false) (hnb : b.negative = false) (hlt : lt a b = false) :
    Canonical (subAux (n + 1) a b) ∧ toInt (subAux (n + 1) a b) = toInt a - toInt b := by
  have e : subAux (n + 1) a b = normalize ⟨subLoop a.data b.data 0, false⟩ := by
    rw [subAux, if_neg (by simp [hna, hnb]), if_neg (by simp [hna]), if_neg (by simp [hlt])]
  have hle : mag b.data ≤ mag a.data := by
    have h1 : ¬ (toInt a < toInt b) := by
      rw [← lt_iff ha hb, hlt]; simp
    rw [toInt_of_nonneg hna, toInt_of_nonneg hnb] at h1
    omega
  have hlen := length_le_of_mag_le ha hb hle
  obtain ⟨_, hok, hl⟩ := subLoop_spec a.data b.data 0 ha.2.1 hb.2.1 (by omega) hlen
  have hne : subLoop a.data b.data 0 ≠ [] := by
    intro h0
    rw [h0] at hl
    have := canonical_length_pos ha
    simp at hl
    omega
  rw [e]
  refine ⟨normalize_canonical _ hne hok, ?_⟩
  rw [toInt_normalize, toInt_of_nonneg hna, toInt_of_nonneg hnb, toInt_of_nonneg rfl]
  have := subLoop_mag a.data b.data ha.2.1 hb.2.1 hlen hle
  simp only
  omega

/-- Subtraction `operator-` of two non-negative operands. -/
theorem subAux_nonneg (n : Nat) {a b : big_integer} (ha : Canonical a) (hb : Canonical b)
    (hna : a.negative = false) (hnb : b.negative = false) :
    Canonical (subAux (n + 2) a b) ∧ toInt (subAux (n + 2) a b) = toInt a - toInt b := by
  cases hlt : lt a b
  · exact subAux_nonneg_ge (n + 1) ha hb hna hnb hlt
  · have e : subAux (n + 2) a b = neg (subAux (n + 1) b a) := by
      rw [subAux, if_neg (by simp [hna, hnb]), if_neg (by simp [hna]), if_pos hlt]
    have hba : lt b a = false := by
      have h1 := (lt_iff ha hb).mp hlt
      cases h : lt b a
      · rfl
      · have h2 := (lt_iff hb ha).mp h
        omega
    obtain ⟨hc, hv⟩ := subAux_nonneg_ge n hb ha hnb hna hba
    rw [e]
    exact ⟨neg_canonical hc, by rw [toInt_neg, hv]; ring⟩

theorem neg_negative_of_neg {a : big_integer} (ha : Canonical a) (hn : a.negative = true) :
    (neg a).negative = false := by
  rw [negative_false_iff (neg_canonical ha), toInt_neg]
  have := (negative_iff ha).mp hn
  omega

/-- Binary `operator-` on canonical operands, for every depth bound of at least 3. -/
theorem subAux_spec (n : Nat) {a b : big_integer} (ha : Canonical a) (hb : Canonical b) :
    Canonical (subAux (n + 3) a b) ∧ toInt (subAux (n + 3) a b) = toInt a - toInt b := by
  cases hna : a.negative <;> cases hnb : b.negative
  · exact subAux_nonneg (n + 1) ha hb hna hnb
  · have e : subAux (n + 3) a b = addAux (n + 2) a (neg b) := by
      rw [subAux, if_pos (by simp [hna, hnb]), if_neg (by simp [hna])]
    have h1 := neg_negative_of_neg hb hnb
    obtain ⟨hc, hv⟩ := addAux_same_sign (n + 1) ha (neg_canonical hb) (hna.trans h1.symm)
    rw [e]
    exact ⟨hc, by rw [hv, toInt_neg]; ring⟩
  · have e : subAux (n + 3) a b = neg (addAux (n + 2) (neg a) b) := by
      rw [subAux, if_pos (by simp [hna, hnb]), if_pos hna]
    have h1 := neg_negative_of_neg ha hna
    obtain ⟨hc, hv⟩ := addAux_same_sign (n + 1) (neg_canonical ha) hb (h1.trans hnb.symm)
    rw [e]
    exact ⟨neg_canonical hc, by rw [toInt_neg, hv, toInt_neg]; ring⟩
  · have e : subAux (n + 3) a b = subAux (n + 2) (neg b) (neg a) := by
      rw [subAux, if_neg (by simp [hna, hnb]), if_pos hna]
    obtain ⟨hc, hv⟩ := subAux_nonneg n (neg_canonical hb) (neg_canonical ha)
      (neg_negative_of_neg hb hnb) (neg_negative_of_neg ha hna)
    rw [e]
    exact ⟨hc, by rw [hv, toInt_neg, toInt_neg]; ring⟩

/-- Binary `operator+` on canonical operands, for every depth bound of at least 3. -/
theorem addAux_spec (n : Nat) {a b : big_integer} (ha : Canonical a) (hb : Canonical b) :
    Canonical (addAux (n + 3) a b) ∧ toInt (addAux (n + 3) a b) = toInt a + toInt b := by
  by_cases hs : a.negative = b.negative
  · exact addAux_same_sign (n + 2) ha hb hs
  · cases hna : a.negative
    · have hnb : b.negative = true := by
        cases h : b.negative
        · exact absurd (hna.trans h.symm) hs
        · rfl
      have e : addAux (n + 3) a b = subAux (n + 2) a (neg b) := by
        rw [addAux, if_pos (by simp [hna, hnb]), if_neg (by simp [hna])]
      obtain ⟨hc, hv⟩ := subAux_nonneg n ha (neg_canonical hb) hna (neg_negative_of_neg hb hnb)
      rw [e]
      exact ⟨hc, by rw [hv, toInt_neg]; ring⟩
    · have hnb : b.negative = false := by
        cases h : b.negative
        · rfl
        · exact absurd (hna.trans h.symm) hs
      have e : addAux (n + 3) a b = subAux (n + 2) b (neg a) := by
        rw [addAux, if_pos (by simp [hna, hnb]), if_pos hna]
      obtain ⟨hc, hv⟩ := subAux_nonneg n hb (neg_canonical ha) hnb (neg_negative_of_neg ha hna)
      rw [e]
      exact ⟨hc, by rw [hv, toInt_neg]; ring⟩

theorem add_canonical {a b : big_integer} (ha : Canonical a) (hb : Canonical b) :
    Canonical (add a b) := (addAux_spec 0 ha hb).1

theorem toInt_add {a b : big_integer} (ha : Canonical a) (hb : Canonical b) :
    toInt (add a b) = toInt a + toInt b := (addAux_spec 0 ha hb).2

theorem sub_canonical {a b : big_integer} (ha : Canonical a) (hb : Canonical b) :
    Canonical (sub a b) := (subAux_spec 0 ha hb).1

theorem toInt_sub {a b : big_integer} (ha : Canonical a) (hb : Canonical b) :
    toInt (sub a b) = toInt a - toInt b := (subAux_spec 0 ha hb).2

/-! ## Writing one limb -/

theorem mag_set (l : List Nat) (p v : Nat) (h : p < l.length) :
    mag (l.set p v) + BASE ^ p * l.getD p 0 = mag l + BASE ^ p * v := by
  induction l generalizing p with
  | nil => simp at h
  | cons x xs ih =>
    cases p with
    | zero => simp [mag]; ring
    | succ p =>
      have := ih p (by simpa using h)
      simp only [List.set_cons_succ, mag, List.getD_cons_succ, pow_succ]
      nlinarith [this]

theorem limbsOk_set {l : List Nat} (h : limbsOk l) (p v : Nat) (hv : v < BASE) :
    limbsOk (l.set p v) := by
  intro x hx
  rcases List.mem_or_eq_of_mem_set hx with h1 | h1
  · exact h x h1
  · rw [h1]; exact hv

theorem getD_set_ne (l : List Nat) {p q : Nat} (v : Nat) (h : p ≠ q) :
    (l.set p v).getD q 0 = l.getD q 0 := by
  simp only [List.getD_eq_getElem?_getD, List.getElem?_set_ne h]

theorem getD_set_self (l : List Nat) {p : Nat} (v : Nat) (h : p < l.length) :
    (l.set p v).getD p 0 = v := by
  simp only [List.getD_eq_getElem?_getD, List.getElem?_set_self h, Option.getD_some]

theorem resize_zero (n : Nat) : resize [0] n 0 = List.replicate n 0 := by
  unfold resize
  cases n with
  | zero => rfl
  | succ n => simp [List.replicate_succ]

theorem getD_replicate_zero (n i : Nat) : (List.replicate n 0).getD i 0 = 0 := by
  by_cases h : i < n
  · rw [List.getD_eq_getElem _ _ (by simpa using h)]; simp
  · rw [List.getD_eq_default _ _ (by simpa using h)]

/-! ## Multiplication -/

theorem mul_limb_bound {x y r c : Nat} (hx : x < BASE) (hy : y < BASE) (hr : r < BASE)
    (hc : c < BASE) : (x * y + r + c) / BASE < BASE := by
  have h1 : x * y ≤ (BASE - 1) * (BASE - 1) := Nat.mul_le_mul (by omega) (by omega)
  rw [Nat.div_lt_iff_lt_mul BASE_pos]
  simp only [BASE] at *
  omega

theorem mulInner_length (ai : Nat) (b : List Nat) (i k j : Nat) (res : List Nat) (carry : Nat) :
    (mulInner ai b i k j res carry).1.length = res.length := by
  induction k generalizing j res carry with
  | zero => rfl
  | succ k ih => rw [mulInner, ih, List.length_set]

theorem mulInner_limbsOk (ai : Nat) (b : List Nat) (i k j : Nat) (res : List Nat) (carry : Nat)
    (h : limbsOk res) : limbsOk (mulInner ai b i k j res carry).1 := by
  induction k generalizing j res carry with
  | zero => exact h
  | succ k ih =>
    rw [mulInner]
    exact ih _ _ _ (limbsOk_set h _ _ (Nat.mod_lt _ BASE_pos))

theorem mulInner_getD (ai : Nat) (b : List Nat) (i k j : Nat) (res : List Nat) (carry q : Nat)
    (hq : q < i + j ∨ i + j + k ≤ q) :
    (mulInner ai b i k j res carry).1.getD q 0 = res.getD q 0 := by
  induction k generalizing j res carry with
  | zero => rfl
  | succ k ih =>
    rw [mulInner, ih _ _ _ (by omega), getD_set_ne _ _ (by omega)]

theorem mulInner_carry_lt (ai : Nat) (b : List Nat) (i k j : Nat) (res : List Nat) (carry : Nat)
    (hc : carry < BASE) : (mulInner ai b i k j res carry).2 < BASE := by
  induction k generalizing j res carry with
  | zero => exact hc
  | succ k ih =>
    rw [mulInner]
    exact ih _ _ _ (Nat.mod_lt _ BASE_pos)

theorem mag_take_drop_succ (b : List Nat) (j k : Nat) (h : j < b.length) :
    mag ((b.drop j).take (k + 1)) = b.getD j 0 + BASE * mag ((b.drop (j + 1)).take k) := by
  rw [List.drop_eq_getElem_cons h, List.take_succ_cons, List.getD_eq_getElem _ _ h]
  rfl

/-- The inner loop adds `ai * b[j .. j+k)` at limb position `i + j`, up to the carry out. -/
theorem mulInner_mag (ai : Nat) (b : List Nat) (i k j : Nat) (res : List Nat) (carry : Nat)
    (hai : ai < BASE) (hb : limbsOk b) (hres : limbsOk res) (hc : carry < BASE)
    (hj : j + k ≤ b.length) (hl : i + j + k ≤ res.length) :
    mag (mulInner ai b i k j res carry).1 + BASE ^ (i + j + k) * (mulInner ai b i k j res carry).2
      = mag res + BASE ^ (i + j) * (carry + ai * mag ((b.drop j).take k)) := by
  induction k generalizing j res carry with
  | zero => simp [mulInner, mag]
  | succ k ih =>
    rw [mulInner]
    have hbj := getD_lt_BASE hb j
    have hrj := getD_lt_BASE hres (i + j)
    have hq := mul_limb_bound hai hbj hrj hc
    rw [Nat.mod_eq_of_lt hq]
    have hset := mag_set res (i + j) ((ai * b.getD j 0 + res.getD (i + j) 0 + carry) % BASE)
      (by omega)
    have := ih (j + 1) (res.set (i + j) ((ai * b.getD j 0 + res.getD (i + j) 0 + carry) % BASE))
      ((ai * b.getD j 0 + res.getD (i + j) 0 + carry) / BASE)
      (limbsOk_set hres _ _ (Nat.mod_lt _ BASE_pos)) hq (by omega)
      (by rw [List.length_set]; omega)
    rw [mag_take_drop_succ b j k (by omega)]
    have e1 : i + (j + 1) + k = i + j + (k + 1) := by ring
    have e2 : BASE ^ (i + (j + 1)) = BASE ^ (i + j) * BASE := by rw [← pow_succ]; rfl
    rw [e1, e2] at this
    have hdm := Nat.div_add_mod (ai * b.getD j 0 + res.getD (i + j) 0 + carry) BASE
    generalize (ai * b.getD j 0 + res.getD (i + j) 0 + carry) / BASE = Q at *
    generalize (ai * b.getD j 0 + res.getD (i + j) 0 + carry) % BASE = R at *
    generalize mag (List.take k (List.drop (j + 1) b)) = M at *
    generalize BASE ^ (i + j) = P at *
    generalize mag (mulInner ai b i k (j + 1) (res.set (i + j) R) Q).1 = X at *
    generalize (mulInner ai b i k (j + 1) (res.set (i + j) R) Q).2 = Y at *
    generalize BASE ^ (i + j + (k + 1)) = P2 at *
    generalize mag (res.set (i + j) R) = S at *
    generalize mag res = S0 at *
    have h3 : P * (BASE * Q + R) = P * (ai * b.getD j 0 + res.getD (i + j) 0 + carry) := by
      rw [hdm]
    zify at this hset h3 ⊢
    linear_combination this + hset + h3

theorem mulOuter_length (a b : List Nat) (k i : Nat) (res : List Nat) :
    (mulOuter a b k i res).length = res.length := by
  induction k generalizing i res with
  | zero => rfl
  | succ k ih => rw [mulOuter, ih, List.length_set, mulInner_length]

theorem mulOuter_limbsOk (a b : List Nat) (k i : Nat) (res : List Nat) (h : limbsOk res) :
    limbsOk (mulOuter a b k i res) := by
  induction k generalizing i res with
  | zero => exact h
  | succ k ih =>
    rw [mulOuter]
    exact ih _ _ (limbsOk_set (mulInner_limbsOk _ _ _ _ _ _ _ h) _ _ (Nat.mod_lt _ BASE_pos))

/-- The outer loop adds `a[i ..] * b` at limb position `i`. -/
theorem mulOuter_mag (a b : List Nat) (k i : Nat) (res : List Nat)
    (ha : limbsOk a) (hb : limbsOk b) (hres : limbsOk res)
    (hk : i + k = a.length) (hl : res.length = a.length + b.length)
    (hz : ∀ q, i + b.length ≤ q → res.getD q 0 = 0) :
    mag (mulOuter a b k i res) = mag res + BASE ^ i * (mag (a.drop i) * mag b) := by
  induction k generalizing i res with
  | zero =>
    rw [mulOuter, List.drop_eq_nil_of_le (by omega)]
    simp [mag]
  | succ k ih =>
    rw [mulOuter]
    have hai := getD_lt_BASE ha i
    have hinner := mulInner_mag (a.getD i 0) b i b.length 0 res 0 hai hb hres BASE_pos
      (by omega) (by omega)
    have hcarry := mulInner_carry_lt (a.getD i 0) b i b.length 0 res 0 BASE_pos
    have hlen := mulInner_length (a.getD i 0) b i b.length 0 res 0
    have hok := mulInner_limbsOk (a.getD i 0) b i b.length 0 res 0 hres
    have hget : ∀ q, i + b.length ≤ q →
        (mulInner (a.getD i 0) b i b.length 0 res 0).1.getD q 0 = 0 := by
      intro q hq
      rw [mulInner_getD _ _ _ _ _ _ _ _ (by omega)]
      exact hz q hq
    generalize mulInner (a.getD i 0) b i b.length 0 res 0 = r at *
    rw [hget _ (le_refl _), Nat.zero_add, Nat.mod_eq_of_lt hcarry]
    have hset := mag_set r.1 (i + b.length) r.2 (by omega)
    rw [hget _ (le_refl _)] at hset
    rw [ih (i + 1) _ (limbsOk_set hok _ _ hcarry) (by omega)
      (by rw [List.length_set]; omega)
      (by
        intro q hq
        rw [getD_set_ne _ _ (by omega)]
        exact hget q (by omega))]
    rw [mag_drop a i, if_pos (by omega)]
    simp only [List.drop_zero, List.take_length, Nat.add_zero, Nat.zero_add] at hinner
    rw [pow_succ]
    generalize mag (List.drop (i + 1) a) = M at *
    generalize mag (r.1.set (i + b.length) r.2) = S at *
    generalize BASE ^ (i + b.length) = P2 at *
    generalize BASE ^ i = P at *
    zify at hset hinner ⊢
    linear_combination hset + hinner

theorem mag_mulOuter (a b : List Nat) (ha : limbsOk a) (hb : limbsOk b) :
    mag (mulOuter a b a.length 0 (resize [0] (a.length + b.length) 0)) = mag a * mag b := by
  rw [resize_zero, mulOuter_mag a b a.length 0 _ ha hb (limbsOk_replicate _ _ BASE_pos)
    (by omega) (by simp) (fun q _ => getD_replicate_zero _ _)]
  simp [mag_replicate_zero]

theorem ctor_canonical : Canonical ctor := by decide

theorem toInt_ctor : toInt ctor = 0 := by decide

/-- The product is canonical whenever the right operand has at least one limb. -/
theorem mul_canonical_of_right (q : big_integer) {b : big_integer} (hb : b.data ≠ []) :
    Canonical (mul q b) := by
  unfold mul
  split
  · exact ctor_canonical
  · apply normalize_canonical
    · intro h
      have h1 := congrArg List.length h
      simp only [mulOuter_length, resize_zero, List.length_replicate, List.length_nil, size] at h1
      have : b.data.length ≠ 0 := fun h0 => hb (List.length_eq_zero.mp h0)
      omega
    · apply mulOuter_limbsOk
      rw [resize_zero]
      exact limbsOk_replicate _ _ BASE_pos

theorem mul_canonical {a b : big_integer} (hb : Canonical b) : Canonical (mul a b) :=
  mul_canonical_of_right a hb.1

/-- Binary `operator*` computes the product of the integer values. -/
theorem toInt_mul {a b : big_integer} (ha : Canonical a) (hb : Canonical b) :
    toInt (mul a b) = toInt a * toInt b := by
  unfold mul
  split
  · rename_i hz
    rw [toInt_ctor]
    rw [Bool.or_eq_true, zero_iff, zero_iff] at hz
    rcases hz with h | h
    · have : toInt a = 0 := by
        unfold toInt; rw [h]; cases a.negative <;> simp [mag]
      rw [this]; simp
    · have : toInt b = 0 := by
        unfold toInt; rw [h]; cases b.negative <;> simp [mag]
      rw [this]; simp
  · rw [toInt_normalize]
    unfold toInt
    simp only [size]
    rw [mag_mulOuter _ _ ha.2.1 hb.2.1]
    cases a.negative <;> cases b.negative <;> simp

/-! ## Division returns a value for a divisor that is not zero -/

theorem divSmallLoop_isSome (d : Nat) (hd : d ≠ 0) (l : List Nat) (rest : Nat) (res : List Nat) :
    ∃ r, divSmallLoop d l rest res = some r := by
  induction l generalizing rest res with
  | nil => exact ⟨res, rfl⟩
  | cons x xs ih =>
    rw [divSmallLoop, if_neg hd]
    exact ih _ _

theorem divLoop_isSome (divisor : big_integer) (m : Nat) (hy : top2 divisor.data ≠ 0)
    (k j : Nat) (divident res : List Nat) :
    ∃ r, divLoop divisor m k j divident res = some r := by
  induction k generalizing j divident res with
  | zero => exact ⟨res, rfl⟩
  | succ k ih =>
    rw [divLoop, if_neg hy]
    exact ih _ _ _

theorem getD_length_sub_one (l : List Nat) : l.getD (l.length - 1) 0 = l.getLastD 0 := by
  rcases snoc_cases l with rfl | ⟨L, b, rfl⟩
  · rfl
  · rw [List.getLastD_concat]
    simp [List.getD_eq_getElem?_getD]

theorem top2_ne_zero {l : List Nat} (h : l.getLastD 0 ≠ 0) : top2 l ≠ 0 := by
  unfold top2
  rw [getD_length_sub_one]
  intro h0
  have : l.getLastD 0 * BASE = 0 := by omega
  rcases Nat.mul_eq_zero.mp this with h1 | h1
  · exact h h1
  · simp [BASE] at h1

theorem ne_zero_iff (b : big_integer) : ne b (ctor_int 0) = true ↔ b ≠ ⟨[0], false⟩ := by
  unfold ne
  rw [Bool.not_eq_true', ← Bool.not_eq_true, eq_iff]
  rfl

theorem zero_false_of_ne {b : big_integer} (hb : Canonical b) (h : ne b (ctor_int 0) = true) :
    zero b = false := by
  rw [ne_zero_iff] at h
  cases hz : zero b
  · rfl
  · exfalso
    apply h
    have hd := (zero_iff b).mp hz
    have hn := hb.2.2.2 hz
    rcases b with ⟨d, s⟩
    simp only at hd hn
    rw [hd, hn]

theorem div_isSome (a : big_integer) {b : big_integer} (hb : Canonical b)
    (hz : zero b = false) : ∃ q, div a b = some q := by
  unfold div
  split
  · exact ⟨_, rfl⟩
  · split
    · rename_i h1
      have hd : b.data.getD 0 0 ≠ 0 := by
        intro h0
        have : zero b = true := by
          unfold zero
          rw [h1, h0]
          rfl
        rw [hz] at this
        cases this
      obtain ⟨r, hr⟩ := divSmallLoop_isSome _ hd a.data.reverse 0 [0]
      rw [hr]
      exact ⟨_, rfl⟩
    · rename_i h1
      have hlast : b.data.getLastD 0 ≠ 0 := by
        rcases hb.2.2.1 with h | h
        · exact absurd h h1
        · exact h
      obtain ⟨r, hr⟩ := divLoop_isSome ⟨b.data, false⟩ (b.data.length + 1)
        (top2_ne_zero hlast) (a.data.length + 1 - (b.data.length + 1) + 1)
        (a.data.length + 1 - (b.data.length + 1)) (a.data ++ [0])
        (resize [0] (a.data.length + 1 - (b.data.length + 1) + 1) 0)
      rw [hr]
      exact ⟨_, rfl⟩

/-- Adding back what was subtracted: `p + (a - p) == a` for canonical `a` and `p`. -/
theorem add_sub_cancel_eq {a p : big_integer} (ha : Canonical a) (hp : Canonical p) :
    add p (sub a p) = a := by
  apply canonical_ext (add_canonical hp (sub_canonical ha hp)) ha
  rw [toInt_add hp (sub_canonical ha hp), toInt_sub ha hp]
  ring

/-! ## Three levels of calls are enough for `operator+` and `operator-` -/

theorem neg_negative_eq_false (a : big_integer) (h : a.negative = true) :
    (neg a).negative = false := by
  unfold neg
  rw [normalize_negative, h]
  split <;> rfl

theorem ltLoop_asymm (a b : big_integer) (hs : a.negative = b.negative) (i : Nat)
    (h : ltLoop a b i = true) : ltLoop b a i = false := by
  induction i with
  | zero => rfl
  | succ i ih =>
    unfold ltLoop at h ⊢
    by_cases hxy : a.data.getD i 0 = b.data.getD i 0
    · rw [if_neg (by simpa using hxy)] at h
      rw [if_neg (by simpa using hxy.symm)]
      exact ih h
    · rw [if_pos (by simpa using hxy)] at h
      rw [if_pos (by simpa using (Ne.symm hxy)), ← hs]
      rcases Nat.lt_or_gt_of_ne hxy with hlt | hgt
      · have e1 : decide (a.data.getD i 0 > b.data.getD i 0) = false := by
          simp only [gt_iff_lt, decide_eq_false_iff_not]; omega
        have e2 : decide (b.data.getD i 0 > a.data.getD i 0) = true := by
          simp only [gt_iff_lt, decide_eq_true_eq]; omega
        rw [e1] at h
        rw [e2]
        cases hn : a.negative <;> rw [hn] at h <;> simp at h ⊢
      · have e1 : decide (a.data.getD i 0 > b.data.getD i 0) = true := by
          simp only [gt_iff_lt, decide_eq_true_eq]; omega
        have e2 : decide (b.data.getD i 0 > a.data.getD i 0) = false := by
          simp only [gt_iff_lt, decide_eq_false_iff_not]; omega
        rw [e1] at h
        rw [e2]
        cases hn : a.negative <;> rw [hn] at h <;> simp at h ⊢

theorem lt_asymm_same_sign (a b : big_integer) (hs : a.negative = b.negative)
    (h : lt a b = true) : lt b a = false := by
  unfold lt at h ⊢
  rw [if_neg (by simpa using hs)] at h
  rw [if_neg (by simpa using hs.symm)]
  by_cases hsz : size a = size b
  · rw [if_neg (by simpa using hsz)] at h
    rw [if_neg (by simpa using hsz.symm), ← hsz]
    exact ltLoop_asymm a b hs _ h
  · rw [if_pos (by simpa using hsz)] at h
    rw [if_pos (by simpa using (Ne.symm hsz)), ← hs]
    rcases Nat.lt_or_gt_of_ne hsz with hlt | hgt
    · have e1 : decide (size a > size b) = false := by
        simp only [gt_iff_lt, decide_eq_false_iff_not]; omega
      have e2 : decide (size b > size a) = true := by
        simp only [gt_iff_lt, decide_eq_true_eq]; omega
      rw [e1] at h
      rw [e2]
      cases hn : a.negative <;> rw [hn] at h <;> simp at h ⊢
    · have e1 : decide (size a > size b) = true := by
        simp only [gt_iff_lt, decide_eq_true_eq]; omega
      have e2 : decide (size b > size a) = false := by
        simp only [gt_iff_lt, decide_eq_false_iff_not]; omega
      rw [e1] at h
      rw [e2]
      cases hn : a.negative <;> rw [hn] at h <;> simp at h ⊢

theorem addAux_fuel_same_sign (n : Nat) (a b : big_integer) (hs : a.negative = b.negative) :
    addAux (n + 1) a b = addAux 1 a b := by
  rw [addAux, addAux, if_neg (by simpa using hs), if_neg (by simpa using hs)]

theorem subAux_fuel_ge (n : Nat) (a b : big_integer) (hna : a.negative = false)
    (hnb : b.negative = false) (hlt : lt a b = false) : subAux (n + 1) a b = subAux 1 a b := by
  rw [subAux, subAux, if_neg (by simp [hna, hnb]), if_neg (by simp [hna]),
    if_neg (by simp [hlt]), if_neg (by simp [hna, hnb]), if_neg (by simp [hna]),
    if_neg (by simp [hlt])]

theorem subAux_fuel_nonneg (n : Nat) (a b : big_integer) (hna : a.negative = false)
    (hnb : b.negative = false) : subAux (n + 2) a b = subAux 2 a b := by
  cases hlt : lt a b
  · rw [subAux_fuel_ge (n + 1) a b hna hnb hlt, subAux_fuel_ge 1 a b hna hnb hlt]
  · have hba := lt_asymm_same_sign a b (hna.trans hnb.symm) hlt
    rw [subAux, if_neg (by simp [hna, hnb]), if_neg (by simp [hna]), if_pos hlt,
      subAux_fuel_ge n b a hnb hna hba]
    rw [subAux.eq_def 2]
    simp only
    rw [if_neg (by simp [hna, hnb]), if_neg (by simp [hna]), if_pos hlt]

theorem subAux_fuel (n : Nat) (a b : big_integer) : subAux (n + 3) a b = subAux 3 a b := by
  cases hna : a.negative <;> cases hnb : b.negative
  · exact (subAux_fuel_nonneg (n + 1) a b hna hnb).trans (subAux_fuel_nonneg 1 a b hna hnb).symm
  · have h1 := neg_negative_eq_false b hnb
    rw [subAux, if_pos (by simp [hna, hnb]), if_neg (by simp [hna]),
      addAux_fuel_same_sign (n + 1) a (neg b) (hna.trans h1.symm)]
    rw [subAux.eq_def 3]
    simp only
    rw [if_pos (by simp [hna, hnb]), if_neg (by simp [hna]),
      addAux_fuel_same_sign 1 a (neg b) (hna.trans h1.symm)]
  · have h1 := neg_negative_eq_false a hna
    rw [subAux, if_pos (by simp [hna, hnb]), if_pos hna,
      addAux_fuel_same_sign (n + 1) (neg a) b (h1.trans hnb.symm)]
    rw [subAux.eq_def 3]
    simp only
    rw [if_pos (by simp [hna, hnb]), if_pos hna,
      addAux_fuel_same_sign 1 (neg a) b (h1.trans hnb.symm)]
  · have h1 := neg_negative_eq_false a hna
    have h2 := neg_negative_eq_false b hnb
    rw [subAux, if_neg (by simp [hna, hnb]), if_pos hna,
      subAux_fuel_nonneg n (neg b) (neg a) h2 h1]
    rw [subAux.eq_def 3]
    simp only
    rw [if_neg (by simp [hna, hnb]), if_pos hna]

/-- The bound 3 in `add` is never reached: any larger bound gives the same value, for all
operands. -/
theorem addAux_fuel (n : Nat) (a b : big_integer) : addAux (n + 3) a b = addAux 3 a b := by
  by_cases hs : a.negative = b.negative
  · exact (addAux_fuel_same_sign (n + 2) a b hs).trans (addAux_fuel_same_sign 2 a b hs).symm
  · cases hna : a.negative
    · have hnb : b.negative = true := by
        cases h : b.negative
        · exact absurd (hna.trans h.symm) hs
        · rfl
      have h2 := neg_negative_eq_false b hnb
      rw [addAux, if_pos (by simp [hna, hnb]), if_neg (by simp [hna]),
        subAux_fuel_nonneg n a (neg b) hna h2]
      rw [addAux.eq_def 3]
      simp only
      rw [if_pos (by simp [hna, hnb]), if_neg (by simp [hna])]
    · have hnb : b.negative = false := by
        cases h : b.negative
        · rfl
        · exact absurd (hna.trans h.symm) hs
      have h1 := neg_negative_eq_false a hna
      rw [addAux, if_pos (by simp [hna, hnb]), if_pos hna,
        subAux_fuel_nonneg n b (neg a) hnb h1]
      rw [addAux.eq_def 3]
      simp only
      rw [if_pos (by simp [hna, hnb]), if_pos hna]

/-! ## The single-limb path of division -/

/-- The long division loop: the limbs pushed are the quotient, most significant limb first. -/
theorem divSmallLoop_spec (d : Nat) (hd : 0 < d) (l : List Nat)
    (hl : limbsOk l) (rest : Nat) (hr : rest < d) (res : List Nat) :
    ∃ qs, divSmallLoop d l rest res = some (res ++ qs) ∧ qs.length = l.length ∧ limbsOk qs
      ∧ mag qs.reverse = (rest * BASE ^ l.length + mag l.reverse) / d := by
  induction l generalizing rest res with
  | nil =>
    refine ⟨[], by simp [divSmallLoop], rfl, limbsOk_nil, ?_⟩
    simp only [List.reverse_nil, mag, List.length_nil, pow_zero, mul_one, add_zero]
    exact (Nat.div_eq_of_lt hr).symm
  | cons x xs ih =>
    rw [limbsOk_cons] at hl
    have hx := hl.1
    have hX : rest * BASE + x < d * BASE := by
      have : (rest + 1) * BASE ≤ d * BASE := Nat.mul_le_mul_right _ hr
      have e : (rest + 1) * BASE = rest * BASE + BASE := by ring
      omega
    have hq : (rest * BASE + x) / d < BASE := by
      rw [Nat.div_lt_iff_lt_mul hd, Nat.mul_comm BASE d]
      exact hX
    obtain ⟨qs, h1, h2, h3, h4⟩ := ih hl.2 ((rest * BASE + x) % d) (Nat.mod_lt _ hd)
      (res ++ [(rest * BASE + x) / d % BASE])
    refine ⟨(rest * BASE + x) / d :: qs, ?_, by simp [h2], limbsOk_cons.mpr ⟨hq, h3⟩, ?_⟩
    · rw [divSmallLoop, if_neg (by omega), h1, Nat.mod_eq_of_lt hq]
      simp
    · rw [List.reverse_cons, mag_snoc, h4, List.reverse_cons, mag_snoc, List.length_reverse,
        List.length_reverse, h2, List.length_cons, pow_succ]
      have hdm := Nat.div_add_mod (rest * BASE + x) d
      generalize (rest * BASE + x) / d = Q at *
      generalize (rest * BASE + x) % d = R at *
      generalize BASE ^ xs.length = P at *
      generalize mag xs.reverse = M at *
      have e : rest * (P * BASE) + (M + P * x) = (R * P + M) + d * (P * Q) := by
        have : P * (d * Q + R) = P * (rest * BASE + x) := by rw [hdm]
        zify at this ⊢
        linear_combination (-1 : ℤ) * this
      rw [e, Nat.add_mul_div_left _ _ hd]

theorem canonical_nonneg {a : big_integer} (ha : Canonical a) : Canonical ⟨a.data, false⟩ :=
  ⟨ha.1, ha.2.1, ha.2.2.1, fun _ => rfl⟩

theorem lt_abs_iff {a b : big_integer} (ha : Canonical a) (hb : Canonical b) :
    lt ⟨a.data, false⟩ ⟨b.data, false⟩ = true ↔ mag a.data < mag b.data := by
  rw [lt_iff (canonical_nonneg ha) (canonical_nonneg hb), toInt_of_nonneg rfl,
    toInt_of_nonneg rfl]
  simp only
  omega

theorem mag_singleton_of_length {l : List Nat} (h : l.length = 1) : mag l = l.getD 0 0 := by
  cases l with
  | nil => simp at h
  | cons x xs =>
    cases xs with
    | nil => simp [mag]
    | cons y ys => simp at h

/-- The value of `a / b` when it comes from the early return or the single-limb path: the
magnitude is the floor of the quotient of the magnitudes, and the result is canonical. -/
theorem div_small_spec {a b : big_integer} (ha : Canonical a) (hb : Canonical b)
    (hz : zero b = false) (h1 : b.data.length = 1) :
    ∃ q, div a b = some q ∧ Canonical q ∧ mag q.data = mag a.data / mag b.data
      ∧ (q.negative = true → Bool.xor a.negative b.negative = true)
      ∧ (mag q.data ≠ 0 → q.negative = Bool.xor a.negative b.negative) := by
  have hd0 : b.data.getD 0 0 ≠ 0 := by
    intro h0
    have : zero b = true := by
      unfold zero
      rw [h1, h0]
      rfl
    rw [hz] at this
    cases this
  have hmb := mag_singleton_of_length h1
  unfold div
  by_cases hlt : lt ⟨a.data, false⟩ ⟨b.data, false⟩ = true
  · rw [if_pos hlt]
    have hm := (lt_abs_iff ha hb).mp hlt
    refine ⟨ctor_int 0, rfl, by decide, ?_, ?_, ?_⟩
    · rw [Nat.div_eq_of_lt hm]
      rfl
    · intro h
      cases h
    · intro h
      exact absurd rfl h
  · rw [if_neg hlt, if_pos h1]
    have hm : mag b.data ≤ mag a.data := by
      have := (lt_abs_iff ha hb).not.mp hlt
      omega
    obtain ⟨qs, e1, e2, e3, e4⟩ := divSmallLoop_spec (b.data.getD 0 0) (by omega)
      a.data.reverse
      (by intro x hx; exact ha.2.1 x (List.mem_reverse.mp hx)) 0 (by omega) [0]
    rw [e1]
    simp only [Option.map_some', List.reverse_append, List.reverse_cons, List.reverse_nil,
      List.nil_append, List.reverse_reverse, Nat.zero_mul, Nat.zero_add] at e4 ⊢
    have hmq : mag (normalize ⟨qs.reverse ++ [0], false⟩).data = mag a.data / mag b.data := by
      rw [mag_normalize, mag_snoc, e4, hmb]
      simp
    have hcan : Canonical (normalize ⟨qs.reverse ++ [0], false⟩) := by
      apply normalize_canonical
      · simp
      · rw [limbsOk_append]
        exact ⟨by intro x hx; exact e3 x (List.mem_reverse.mp hx),
          limbsOk_cons.mpr ⟨BASE_pos, limbsOk_nil⟩⟩
    have hpos : 0 < mag a.data / mag b.data := by
      apply Nat.div_pos hm
      rw [hmb]; omega
    refine ⟨_, rfl, ⟨hcan.1, hcan.2.1, hcan.2.2.1, ?_⟩, hmq, fun h => h, fun _ => rfl⟩
    intro hzq
    rw [zero_iff] at hzq
    simp only at hzq
    rw [hzq] at hmq
    simp only [mag] at hmq
    omega

/-! ## Decimal conversion -/

theorem digitChar_facts : ∀ d, d < 10 →
    (Char.ofNat ((48 + d) % 256)).toNat = 48 + d ∧ Char.ofNat ((48 + d) % 256) ≠ '-'
      ∧ Char.ofNat ((48 + d) % 256) ≠ '+' := by
  decide

theorem natAbs_toInt (a : big_integer) : (toInt a).natAbs = mag a.data := by
  unfold toInt
  cases a.negative <;> simp

theorem canonical_small {c : big_integer} (hc : Canonical c) (h : mag c.data < BASE) :
    c.data = [mag c.data] := by
  have hl : c.data.length = 1 := by
    rcases hc.2.2.1 with h1 | h1
    · exact h1
    · have h2 := mag_ge_of_getLast hc.1 h1
      have h3 := canonical_length_pos hc
      by_contra hne
      have : BASE ^ 1 ≤ BASE ^ (c.data.length - 1) := Nat.pow_le_pow_right BASE_pos (by omega)
      simp only [pow_one] at this
      omega
  cases hd : c.data with
  | nil => rw [hd] at hl; simp at hl
  | cons x xs =>
    rw [hd] at hl
    cases xs with
    | nil => simp [mag]
    | cons y ys => simp at hl

theorem TEN_canonical : Canonical TEN := by decide

/-- One round of the loop of `to_string`: the quotient by ten and the remainder digit. -/
theorem div_ten_spec {tmp : big_integer} (ht : Canonical tmp) :
    ∃ q, div tmp TEN = some q ∧ Canonical q ∧ mag q.data = mag tmp.data / 10
      ∧ (sub tmp (mul q TEN)).data.getD 0 0 = mag tmp.data % 10 := by
  obtain ⟨q, h1, h2, h3, h4, h5⟩ := div_small_spec ht TEN_canonical (by decide) (by decide)
  have hm10 : mag TEN.data = 10 := by decide
  rw [hm10] at h3
  refine ⟨q, h1, h2, h3, ?_⟩
  have hp := mul_canonical (a := q) TEN_canonical
  have hr := sub_canonical ht hp
  have hv : toInt (sub tmp (mul q TEN)) = toInt tmp - toInt q * 10 := by
    rw [toInt_sub ht hp, toInt_mul h2 TEN_canonical]
    rfl
  have hq : toInt q = if tmp.negative then -((mag tmp.data / 10 : Nat) : Int)
      else ((mag tmp.data / 10 : Nat) : Int) := by
    by_cases h0 : mag q.data = 0
    · unfold toInt
      rw [h0]
      rw [h0] at h3
      rw [← h3]
      simp
    · have := h5 h0
      have hT : TEN.negative = false := rfl
      rw [hT, Bool.xor_false] at this
      unfold toInt
      rw [this, h3]
  have hmr : mag (sub tmp (mul q TEN)).data = mag tmp.data % 10 := by
    rw [← natAbs_toInt, hv, hq]
    unfold toInt
    cases tmp.negative <;> simp <;> omega
  have hsmall : mag (sub tmp (mul q TEN)).data < BASE := by
    rw [hmr]
    have := Nat.mod_lt (mag tmp.data) (by omega : 10 > 0)
    simp only [BASE]
    omega
  rw [canonical_small hr hsmall, hmr]
  rfl

theorem to_string_loop_spec (fuel : Nat) (tmp : big_integer) (ans : List Char)
    (ht : Canonical tmp) (hf : mag tmp.data < 10 ^ fuel) :
    to_string_loop fuel tmp ans
      = some (ans ++ (Nat.digits 10 (mag tmp.data)).map (fun d => Char.ofNat ((48 + d) % 256)))
    := by
  induction fuel generalizing tmp ans with
  | zero =>
    have h0 : mag tmp.data = 0 := by simpa using hf
    have hz := (zero_iff tmp).mpr (canonical_mag_zero ht h0)
    rw [to_string_loop, if_pos hz, h0]
    simp
  | succ fuel ih =>
    by_cases hz : zero tmp = true
    · have h0 : mag tmp.data = 0 := by
        rw [(zero_iff tmp).mp hz]; rfl
      rw [to_string_loop, if_pos hz, h0]
      simp
    · have hpos : 0 < mag tmp.data := by
        by_contra h0
        exact hz ((zero_iff tmp).mpr (canonical_mag_zero ht (by omega)))
      obtain ⟨q, h1, h2, h3, h4⟩ := div_ten_spec ht
      rw [to_string_loop, if_neg hz, h1]
      simp only
      rw [ih q _ h2 (by rw [h3]; apply Nat.div_lt_of_lt_mul; rw [pow_succ] at hf; omega), h4, h3,
        Nat.digits_def' (by omega) hpos]
      simp

theorem mag_lt_pow_ten (a : big_integer) (ha : limbsOk a.data) :
    mag a.data < 10 ^ (10 * size a + 1) := by
  have h1 := mag_lt ha
  have h2 : BASE ^ a.data.length ≤ (10 ^ 10) ^ a.data.length :=
    Nat.pow_le_pow_left (by decide) _
  rw [← pow_mul] at h2
  have h3 : 10 ^ (10 * a.data.length) < 10 ^ (10 * a.data.length + 1) :=
    Nat.pow_lt_pow_right (by omega) (by omega)
  unfold size
  omega

/-- Folding the digit characters, most significant first, as the string constructor does. -/
theorem parse_digits (ds : List Nat) (hds : ∀ d ∈ ds, d < 10) :
    Canonical (((ds.map (fun d => Char.ofNat ((48 + d) % 256))).reverse).foldl
        (fun acc c => add (mul acc TEN) (ctor_int ((c.toNat : Int) - 48))) ⟨[0], false⟩)
      ∧ toInt (((ds.map (fun d => Char.ofNat ((48 + d) % 256))).reverse).foldl
        (fun acc c => add (mul acc TEN) (ctor_int ((c.toNat : Int) - 48))) ⟨[0], false⟩)
        = ((Nat.ofDigits 10 ds : Nat) : Int) := by
  induction ds with
  | nil =>
    refine ⟨by decide, ?_⟩
    simp [toInt, mag]
  | cons d ds ih =>
    obtain ⟨hc, hv⟩ := ih (fun x hx => hds x (List.mem_cons_of_mem _ hx))
    have hd : d < 10 := hds d (List.mem_cons_self _ _)
    have hch := (digitChar_facts d hd).1
    rw [List.map_cons, List.reverse_cons, List.foldl_append]
    simp only [List.foldl_cons, List.foldl_nil]
    rw [hch]
    have e : (((48 + d : Nat) : Int) - 48) = (d : Int) := by omega
    rw [e]
    have hcd : Canonical (ctor_int (d : Int)) := by
      have : ctor_int (d : Int) = ⟨[d], false⟩ := by
        unfold ctor_int
        simp only [Int.natAbs_ofNat, BASE]
        rw [Nat.mod_eq_of_lt (by omega)]
        simp
      rw [this]
      exact ⟨by simp, limbsOk_cons.mpr ⟨by simp only [BASE]; omega, limbsOk_nil⟩, Or.inl rfl,
        fun _ => rfl⟩
    have hvd : toInt (ctor_int (d : Int)) = d := by
      unfold toInt ctor_int
      simp only [Int.natAbs_ofNat, BASE, mag]
      rw [Nat.mod_eq_of_lt (by omega)]
      simp
    have hp := mul_canonical (a := (((ds.map (fun d => Char.ofNat ((48 + d) % 256))).reverse).foldl
        (fun acc c => add (mul acc TEN) (ctor_int ((c.toNat : Int) - 48))) ⟨[0], false⟩))
        TEN_canonical
    refine ⟨add_canonical hp hcd, ?_⟩
    rw [toInt_add hp hcd, toInt_mul hc TEN_canonical, hv, hvd, Nat.ofDigits_cons]
    have : toInt TEN = 10 := by decide
    rw [this]
    push_cast
    ring

/-! ## The general path of division: the quotient estimate -/

/-- The three-by-two estimate: with `x` and `y` the leading parts of the window `W` and of the
divisor `V` (both cut at the same position `P`), `y` at least `BASE` and `W < BASE * V`, the
quotient `x / y` is the true quotient digit or one more, and it is at most `BASE`. -/
theorem estimate_bounds {W V x y P wl dl : Nat} (hW : W = x * P + wl) (hwl : wl < P)
    (hD : V = y * P + dl) (hdl : dl < P) (hy : BASE ≤ y) (hlt : W < BASE * V) :
    W / V ≤ x / y ∧ x / y ≤ W / V + 1 ∧ x / y ≤ BASE := by
  have hB := BASE_pos
  have hypos : 0 < y := by omega
  have hP : 0 < P := by omega
  have hDpos : 0 < V := by
    have : 0 < y * P := Nat.mul_pos hypos hP
    omega
  have hxP : x * P ≤ W := by omega
  have hWlt : W < (x + 1) * P := by
    have : (x + 1) * P = x * P + P := by ring
    omega
  have hDlt : V < (y + 1) * P := by
    have : (y + 1) * P = y * P + P := by ring
    omega
  have hyP : y * P ≤ V := by omega
  -- the estimate is at most BASE
  have h3 : x / y ≤ BASE := by
    have h1 : x * P < (BASE * (y + 1)) * P := by
      have : BASE * V < BASE * ((y + 1) * P) := Nat.mul_lt_mul_of_pos_left hDlt hB
      have e : BASE * ((y + 1) * P) = (BASE * (y + 1)) * P := by ring
      omega
    have h2 : x < BASE * (y + 1) := Nat.lt_of_mul_lt_mul_right h1
    have h4 : x < y * (BASE + 1) := by
      have e1 : BASE * (y + 1) = BASE * y + BASE := by ring
      have e2 : y * (BASE + 1) = BASE * y + y := by ring
      omega
    have := (Nat.div_lt_iff_lt_mul hypos).mpr (by rw [Nat.mul_comm] at h4; exact h4)
    omega
  refine ⟨?_, ?_, h3⟩
  · -- the true digit is at most the estimate
    rw [Nat.le_div_iff_mul_le hypos]
    have h1 : W / V * V ≤ W := Nat.div_mul_le_self W V
    have h2 : W / V * (y * P) ≤ W / V * V := Nat.mul_le_mul_left _ hyP
    have h4 : (W / V * y) * P < (x + 1) * P :=
      calc (W / V * y) * P = W / V * (y * P) := by ring
        _ ≤ W / V * V := h2
        _ ≤ W := h1
        _ < (x + 1) * P := hWlt
    exact Nat.le_of_lt_succ (Nat.lt_of_mul_lt_mul_right h4)
  · -- the estimate is at most one more than the true digit
    rcases Nat.eq_zero_or_pos (x / y) with h0 | hpos
    · rw [h0]; exact Nat.zero_le _
    · obtain ⟨f, hf⟩ : ∃ f, x / y = f + 1 := ⟨x / y - 1, by omega⟩
      have hfq : f ≤ W / V := by
        rw [Nat.le_div_iff_mul_le hDpos]
        have hey : (f + 1) * y ≤ x := by
          rw [← hf]; exact Nat.div_mul_le_self x y
        have hfy : f * y + f ≤ x := by
          have e : (f + 1) * y = f * y + y := by ring
          omega
        have h1 : f * V ≤ f * ((y + 1) * P) := Nat.mul_le_mul_left _ (Nat.le_of_lt hDlt)
        have h2 : f * ((y + 1) * P) = (f * y + f) * P := by ring
        have h4 : (f * y + f) * P ≤ x * P := Nat.mul_le_mul_right _ hfy
        omega
      omega

theorem mag_take_add_drop (l : List Nat) (k : Nat) (hk : k ≤ l.length) :
    mag l = mag (l.take k) + BASE ^ k * mag (l.drop k) := by
  have h := mag_append (l.take k) (l.drop k)
  rw [List.take_append_drop, List.length_take, Nat.min_eq_left hk] at h
  exact h

theorem top2_eq (l : List Nat) (h : 2 ≤ l.length) : top2 l = mag (l.drop (l.length - 2)) := by
  unfold top2
  rw [mag_drop l (l.length - 2), if_pos (by omega), mag_drop l (l.length - 2 + 1),
    if_pos (by omega), List.drop_eq_nil_of_le (by omega)]
  have e : l.length - 2 + 1 = l.length - 1 := by omega
  rw [e]
  simp only [mag]
  ring

theorem top3_eq (l : List Nat) (h : 3 ≤ l.length) : top3 l = mag (l.drop (l.length - 3)) := by
  unfold top3
  rw [mag_drop l (l.length - 3), if_pos (by omega), mag_drop l (l.length - 3 + 1),
    if_pos (by omega), mag_drop l (l.length - 3 + 1 + 1), if_pos (by omega),
    List.drop_eq_nil_of_le (by omega)]
  have e1 : l.length - 3 + 1 = l.length - 2 := by omega
  have e2 : l.length - 2 + 1 = l.length - 1 := by omega
  rw [e1, e2]
  simp only [mag]
  ring

theorem top2_ge_BASE {l : List Nat} (h : l.getLastD 0 ≠ 0) : BASE ≤ top2 l := by
  unfold top2
  rw [getD_length_sub_one]
  have : 1 ≤ l.getLastD 0 := Nat.one_le_iff_ne_zero.mpr h
  have h2 : 1 * BASE ≤ l.getLastD 0 * BASE := Nat.mul_le_mul_right _ this
  omega

/-- The estimate of one round, in terms of the value of the working dividend: if the dividend has
`j + D.length + 1` limbs and is below `BASE ^ (j + 1)` times the divisor, then `top3 / top2` is
the quotient digit of the window by the divisor, or one more, and at most `BASE`. -/
theorem estimate_window (dd D : List Nat) (j : Nat) (hdd : limbsOk dd) (hD : limbsOk D)
    (hL : 2 ≤ D.length) (hlast : D.getLastD 0 ≠ 0) (hs : dd.length = j + D.length + 1)
    (hlt : mag dd < BASE ^ (j + 1) * mag D) :
    mag (dd.drop j) / mag D ≤ top3 dd / top2 D
      ∧ top3 dd / top2 D ≤ mag (dd.drop j) / mag D + 1 ∧ top3 dd / top2 D ≤ BASE
      ∧ mag (dd.drop j) < BASE * mag D := by
  have hsplit := mag_take_add_drop dd j (by omega)
  have hlow := mag_take_lt hdd j (by omega)
  have hPj : 0 < BASE ^ j := pow_pos BASE_pos _
  have hW : mag (dd.drop j) < BASE * mag D := by
    have h1 : BASE ^ j * mag (dd.drop j) < BASE ^ j * (BASE * mag D) := by
      have e : BASE ^ (j + 1) * mag D = BASE ^ j * (BASE * mag D) := by rw [pow_succ]; ring
      omega
    exact Nat.lt_of_mul_lt_mul_left h1
  have hwlen : (dd.drop j).length = D.length + 1 := by
    rw [List.length_drop]; omega
  have hw := mag_take_add_drop (dd.drop j) (D.length - 2) (by omega)
  have hwl := mag_take_lt (limbsOk_drop hdd j) (D.length - 2) (by omega)
  have hd := mag_take_add_drop D (D.length - 2) (by omega)
  have hdl := mag_take_lt hD (D.length - 2) (by omega)
  have e3 : (dd.drop j).drop (D.length - 2) = dd.drop (dd.length - 3) := by
    rw [List.drop_drop]
    congr 1
    omega
  rw [e3, ← top3_eq dd (by omega)] at hw
  rw [← top2_eq D hL] at hd
  have := estimate_bounds (W := mag (dd.drop j)) (V := mag D) (x := top3 dd) (y := top2 D)
    (P := BASE ^ (D.length - 2)) (by rw [hw]; ring) hwl (by rw [hd]; ring) hdl
    (top2_ge_BASE hlast) hW
  exact ⟨this.1, this.2.1, this.2.2, hW⟩

/-! ## The general path of division: comparison and subtraction against the window -/

theorem aligned_length (s m : Nat) (tmp : List Nat) (hm : m ≤ s) (ht : tmp.length ≤ m) :
    (aligned s m tmp).length = s := by
  unfold aligned
  simp only [List.length_append, List.length_replicate]
  omega

theorem aligned_mag (s m : Nat) (tmp : List Nat) :
    mag (aligned s m tmp) = BASE ^ (s - m) * mag tmp := by
  unfold aligned
  rw [mag_append, mag_append, mag_replicate_zero, mag_replicate_zero, List.length_replicate]
  simp

theorem aligned_limbsOk (s m : Nat) {tmp : List Nat} (h : limbsOk tmp) :
    limbsOk (aligned s m tmp) := by
  unfold aligned
  rw [limbsOk_append, limbsOk_append]
  exact ⟨limbsOk_replicate _ _ BASE_pos, h, limbsOk_replicate _ _ BASE_pos⟩

theorem aligned_getD (s m : Nat) (tmp : List Nat) (hm : m ≤ s) (k : Nat) (hk : k ≤ s) :
    (if k ≤ m ∧ m - k < tmp.length then tmp.getD (m - k) 0 else 0)
      = (aligned s m tmp).getD (s - k) 0 := by
  unfold aligned
  by_cases h1 : k ≤ m
  · rw [List.getD_append_right _ _ _ _ (by rw [List.length_replicate]; omega),
      List.length_replicate]
    have e : s - k - (s - m) = m - k := by omega
    rw [e]
    by_cases h2 : m - k < tmp.length
    · rw [if_pos ⟨h1, h2⟩, List.getD_append _ _ _ _ h2]
    · rw [if_neg (by tauto), List.getD_append_right _ _ _ _ (by omega), getD_replicate_zero]
  · rw [if_neg (by tauto), List.getD_append _ _ _ _ (by rw [List.length_replicate]; omega),
      getD_replicate_zero]

/-- The comparison loop, run over the lowest `r` limbs: `flag` says whether the aligned
`tmp_big` is at most the dividend on those limbs. -/
theorem flagLoop_take (dd tmp : List Nat) (m : Nat) (hm : m ≤ dd.length)
    (hdd : limbsOk dd) (htmp : limbsOk tmp) (ht : tmp.length ≤ m) (r : Nat)
    (hr : r ≤ dd.length) :
    flagLoop dd tmp m r (dd.length + 1 - r)
      = decide (mag ((aligned dd.length m tmp).take r) ≤ mag (dd.take r)) := by
  have hCl := aligned_length dd.length m tmp hm ht
  have hCok := aligned_limbsOk dd.length m htmp
  induction r with
  | zero => simp [flagLoop, mag]
  | succ r ih =>
    have hA := mag_take_lt hdd r (by omega)
    have hB := mag_take_lt hCok r (by omega)
    rw [mag_take_succ _ _ (by omega : r < dd.length),
      mag_take_succ _ _ (by omega : r < (aligned dd.length m tmp).length)]
    unfold flagLoop
    have e1 : dd.length - (dd.length + 1 - (r + 1)) = r := by omega
    have e2 : dd.length + 1 - (r + 1) + 1 = dd.length + 1 - r := by omega
    rw [aligned_getD dd.length m tmp hm _ (by omega), e1, e2]
    by_cases hxy : dd.getD r 0 = (aligned dd.length m tmp).getD r 0
    · rw [if_neg (by simpa using hxy), ih (by omega), hxy]
      exact decide_eq_decide.mpr ⟨fun h => by omega, fun h => by omega⟩
    · rw [if_pos (by simpa using hxy)]
      rcases Nat.lt_or_gt_of_ne hxy with hlt | hgt
      · have := digits_lt (B := mag ((aligned dd.length m tmp).take r)) hA hlt
        exact decide_eq_decide.mpr ⟨fun h => by omega, fun h => by omega⟩
      · have := digits_lt (B := mag (dd.take r)) hB hgt
        exact decide_eq_decide.mpr ⟨fun h => by omega, fun h => by omega⟩

/-- The value of `flag`: whether `tmp_big`, shifted to the window, is at most the dividend. -/
theorem flagLoop_spec (dd tmp : List Nat) (m : Nat) (hm : m ≤ dd.length)
    (hdd : limbsOk dd) (htmp : limbsOk tmp) (ht : tmp.length ≤ m) :
    flagLoop dd tmp m dd.length 1
      = decide (BASE ^ (dd.length - m) * mag tmp ≤ mag dd) := by
  have h := flagLoop_take dd tmp m hm hdd htmp ht dd.length (le_refl _)
  have e : dd.length + 1 - dd.length = 1 := by omega
  rw [e] at h
  rw [h, List.take_length]
  have hCl := aligned_length dd.length m tmp hm ht
  have : (aligned dd.length m tmp).take dd.length = aligned dd.length m tmp :=
    List.take_of_length_le (by omega)
  rw [this, aligned_mag]

theorem mag_take_drop_getD (b : List Nat) (i k : Nat) :
    mag ((b.drop i).take (k + 1)) = b.getD i 0 + BASE * mag ((b.drop (i + 1)).take k) := by
  by_cases h : i < b.length
  · exact mag_take_drop_succ b i k h
  · rw [List.drop_eq_nil_of_le (by omega), List.drop_eq_nil_of_le (by omega),
      List.getD_eq_default _ _ (by omega)]
    simp [mag]

theorem diffLoop_length (b : List Nat) (start k i : Nat) (a : List Nat) (borrow : Bool) :
    (diffLoop b start k i a borrow).length = a.length := by
  induction k generalizing i a borrow with
  | zero => rfl
  | succ k ih => rw [diffLoop, ih, List.length_set]

theorem diffLoop_limbsOk (b : List Nat) (start k i : Nat) (a : List Nat) (borrow : Bool)
    (h : limbsOk a) : limbsOk (diffLoop b start k i a borrow) := by
  induction k generalizing i a borrow with
  | zero => exact h
  | succ k ih =>
    rw [diffLoop]
    apply ih
    apply limbsOk_set h
    have hb : (0 : Int) < (BASE : Int) := by decide
    have h1 := Int.emod_lt_of_pos ((a.getD (start + i) 0 : Int)
      - ((if i < b.length then b.getD i 0 else 0 : Nat) : Int) - (if borrow then 1 else 0)) hb
    have h2 := Int.emod_nonneg ((a.getD (start + i) 0 : Int)
      - ((if i < b.length then b.getD i 0 else 0 : Nat) : Int) - (if borrow then 1 else 0))
      (by decide : (BASE : Int) ≠ 0)
    omega

/-- The loop of `diff` subtracts the limbs `b[i .. i+k)` and the incoming borrow at limb position
`start + i`, up to a borrow out of position `start + i + k`. -/
theorem diffLoop_mag (b : List Nat) (start k i : Nat) (a : List Nat) (borrow : Bool)
    (ha : limbsOk a) (hb : limbsOk b) (hl : start + i + k ≤ a.length) :
    ∃ bo : Nat, bo ≤ 1 ∧
      mag (diffLoop b start k i a borrow)
          + BASE ^ (start + i) * (mag ((b.drop i).take k) + (if borrow then 1 else 0))
        = mag a + BASE ^ (start + i + k) * bo := by
  induction k generalizing i a borrow with
  | zero =>
    refine ⟨if borrow then 1 else 0, by split <;> omega, ?_⟩
    simp [diffLoop, mag]
  | succ k ih =>
    rw [diffLoop]
    have hx := getD_lt_BASE ha (start + i)
    have hy := getD_lt_BASE hb i
    have ey : (if i < b.length then b.getD i 0 else 0) = b.getD i 0 := by
      split
      · rfl
      · rw [List.getD_eq_default _ _ (by omega)]
    rw [ey]
    generalize hX : a.getD (start + i) 0 = x at *
    generalize hY : b.getD i 0 = y at *
    generalize hc : ((x : Int) - (y : Int) - (if borrow then 1 else 0)) = c
    have hlimb : ∃ limb b2 : Nat, (c % (BASE : Int)).toNat = limb ∧ limb < BASE
        ∧ (if decide (c < 0) = true then 1 else 0) = b2 ∧ b2 ≤ 1
        ∧ (limb : Int) = (x : Int) - y - (if borrow then 1 else 0) + BASE * b2 := by
      refine ⟨(c % (BASE : Int)).toNat, if decide (c < 0) = true then 1 else 0, rfl, ?_, rfl,
        by split <;> omega, ?_⟩
      · simp only [BASE]; omega
      · rw [← hc]
        simp only [BASE] at hx hy ⊢
        cases borrow <;> simp <;> split <;> omega
    obtain ⟨limb, b2, e1, e2, e3, e4, e5⟩ := hlimb
    rw [e1]
    obtain ⟨bo, hbo, hih⟩ := ih (i + 1) (a.set (start + i) limb) (decide (c < 0))
      (limbsOk_set ha _ _ e2) (by rw [List.length_set]; omega)
    refine ⟨bo, hbo, ?_⟩
    have hset := mag_set a (start + i) limb (by omega)
    rw [hX] at hset
    rw [mag_take_drop_getD, hY]
    rw [e3] at hih
    have p1 : start + (i + 1) = start + i + 1 := by ring
    have p2 : start + i + 1 + k = start + i + (k + 1) := by ring
    rw [p1, p2, pow_succ] at hih
    generalize mag (diffLoop b start k (i + 1) (a.set (start + i) limb) (decide (c < 0))) = R at *
    generalize mag ((b.drop (i + 1)).take k) = T at *
    generalize mag (a.set (start + i) limb) = S at *
    generalize BASE ^ (start + i) = P at *
    generalize BASE ^ (start + i + (k + 1)) = P2 at *
    generalize mag a = A at *
    zify at hih hset ⊢
    linear_combination hih + hset + (P : Int) * e5

/-! ## The general path of division: one round of the digit loop -/

/-- Function `diff` subtracts `tmp_big`, shifted to the window, from the dividend when it is not
larger. -/
theorem diff_spec (dd tmp : List Nat) (m : Nat) (hm : m ≤ dd.length) (hdd : limbsOk dd)
    (htmp : limbsOk tmp) (ht : tmp.length ≤ m)
    (hle : BASE ^ (dd.length - m) * mag tmp ≤ mag dd) :
    (diff dd tmp m).length = dd.length ∧ limbsOk (diff dd tmp m)
      ∧ mag (diff dd tmp m) + BASE ^ (dd.length - m) * mag tmp = mag dd := by
  unfold diff
  have hlen := diffLoop_length tmp (dd.length - m) m 0 dd false
  have hok := diffLoop_limbsOk tmp (dd.length - m) m 0 dd false hdd
  refine ⟨hlen, hok, ?_⟩
  obtain ⟨bo, hbo, h⟩ := diffLoop_mag tmp (dd.length - m) m 0 dd false hdd htmp (by omega)
  have e1 : dd.length - m + 0 + m = dd.length := by omega
  have e2 : (tmp.drop 0).take m = tmp := by
    rw [List.drop_zero]; exact List.take_of_length_le ht
  rw [e1, e2] at h
  simp only [Nat.add_zero, Bool.false_eq_true, if_false] at h
  have hlt := mag_lt hok
  rw [hlen] at hlt
  rcases Nat.eq_zero_or_pos bo with h0 | h1
  · rw [h0] at h
    omega
  · have hb1 : bo = 1 := by omega
    rw [hb1] at h
    omega

theorem last_zero_of_mag_lt {l : List Nat} (hne : l ≠ [])
    (h : mag l < BASE ^ (l.length - 1)) : l.getLastD 0 = 0 := by
  by_contra h0
  have := mag_ge_of_getLast hne h0
  omega

theorem mag_dropLast_of_last_zero {l : List Nat} (h : l.getLastD 0 = 0) :
    mag l.dropLast = mag l := by
  rcases snoc_cases l with rfl | ⟨L, b, rfl⟩
  · rfl
  · rw [List.getLastD_concat] at h
    rw [List.dropLast_concat, mag_snoc, h]
    simp

theorem canonical_length_le {c : big_integer} (hc : Canonical c) (t : Nat) (ht : 1 ≤ t)
    (h : mag c.data < BASE ^ t) : c.data.length ≤ t := by
  rcases hc.2.2.1 with h1 | h1
  · omega
  · have h2 := mag_ge_of_getLast hc.1 h1
    by_contra hgt
    have : BASE ^ t ≤ BASE ^ (c.data.length - 1) := Nat.pow_le_pow_right BASE_pos (by omega)
    omega

theorem ctor_uint32_canonical {e : Nat} (he : e < BASE) : Canonical (ctor_uint32 e) :=
  ⟨by simp [ctor_uint32], limbsOk_cons.mpr ⟨he, limbsOk_nil⟩, Or.inl rfl, fun _ => rfl⟩

theorem toInt_ctor_uint32 (e : Nat) : toInt (ctor_uint32 e) = e := by
  simp [toInt, ctor_uint32, mag]

/-- The trial product `tmp_big = divisor * tmp_32`. -/
theorem trial_product {D : big_integer} (hD : Canonical D) (hDn : D.negative = false)
    {e : Nat} (he : e < BASE) :
    Canonical (mul D (ctor_uint32 e)) ∧ mag (mul D (ctor_uint32 e)).data = mag D.data * e
      ∧ (mul D (ctor_uint32 e)).data.length ≤ D.data.length + 1 := by
  have hc := mul_canonical (a := D) (ctor_uint32_canonical he)
  have hv := toInt_mul hD (ctor_uint32_canonical he)
  rw [toInt_ctor_uint32, toInt_of_nonneg hDn] at hv
  have hm : mag (mul D (ctor_uint32 e)).data = mag D.data * e := by
    rw [← natAbs_toInt, hv]
    exact Int.natAbs_ofNat _
  refine ⟨hc, hm, ?_⟩
  apply canonical_length_le hc _ (by omega)
  rw [hm, pow_succ]
  have h1 := mag_lt hD.2.1
  calc mag D.data * e < BASE ^ D.data.length * e + BASE ^ D.data.length := by
        have := Nat.mul_le_mul_right e (Nat.le_of_lt h1)
        have hp : 0 < BASE ^ D.data.length := pow_pos BASE_pos _
        omega
    _ = BASE ^ D.data.length * (e + 1) := by ring
    _ ≤ BASE ^ D.data.length * BASE := Nat.mul_le_mul_left _ he

/-- The corrected trial product `tmp_big -= divisor`. -/
theorem trial_product_corrected {D : big_integer} (hD : Canonical D) (hDn : D.negative = false)
    {e : Nat} (he : e < BASE) (h1 : 1 ≤ e) :
    Canonical (sub (mul D (ctor_uint32 e)) D)
      ∧ mag (sub (mul D (ctor_uint32 e)) D).data = mag D.data * (e - 1)
      ∧ (sub (mul D (ctor_uint32 e)) D).data.length ≤ D.data.length + 1 := by
  obtain ⟨hc, hm, hl⟩ := trial_product hD hDn he
  have hc2 := sub_canonical hc hD
  have hv := toInt_sub hc hD
  have hv1 := toInt_mul hD (ctor_uint32_canonical he)
  rw [toInt_ctor_uint32, toInt_of_nonneg hDn] at hv1
  rw [hv1, toInt_of_nonneg hDn] at hv
  have hm2 : mag (sub (mul D (ctor_uint32 e)) D).data = mag D.data * (e - 1) := by
    rw [← natAbs_toInt, hv]
    obtain ⟨f, rfl⟩ : ∃ f, e = f + 1 := ⟨e - 1, by omega⟩
    have : ((mag D.data : Int) * ((f + 1 : Nat) : Int) - (mag D.data : Int))
        = ((mag D.data * f : Nat) : Int) := by
      push_cast; ring
    rw [this]
    exact Int.natAbs_ofNat _
  refine ⟨hc2, hm2, ?_⟩
  apply canonical_length_le hc2 _ (by omega)
  rw [hm2]
  have h3 := mag_lt hD.2.1
  calc mag D.data * (e - 1) ≤ mag D.data * e := Nat.mul_le_mul_left _ (by omega)
    _ < BASE ^ (D.data.length + 1) := by
      rw [pow_succ]
      calc mag D.data * e < BASE ^ D.data.length * e + BASE ^ D.data.length := by
            have := Nat.mul_le_mul_right e (Nat.le_of_lt h3)
            have hp : 0 < BASE ^ D.data.length := pow_pos BASE_pos _
            omega
        _ = BASE ^ D.data.length * (e + 1) := by ring
        _ ≤ BASE ^ D.data.length * BASE := Nat.mul_le_mul_left _ he

/-- A round whose estimate is zero changes nothing: the digit is 0 and `diff` returns the
working dividend as it was. -/
theorem round_zero (D : big_integer) (dd : List Nat) (hdd : limbsOk dd)
    (hm : D.data.length + 1 ≤ dd.length) (hest : estimate dd D.data = 0) :
    flagLoop dd (mul D (ctor_uint32 (estimate dd D.data))).data (D.data.length + 1) dd.length 1
        = true
      ∧ diff dd (mul D (ctor_uint32 (estimate dd D.data))).data (D.data.length + 1) = dd := by
  have ht : mul D (ctor_uint32 (estimate dd D.data)) = ctor := by
    rw [hest]
    unfold mul
    rw [if_pos (by simp [zero, ctor_uint32])]
  rw [ht]
  have hok : limbsOk ctor.data := limbsOk_cons.mpr ⟨BASE_pos, limbsOk_nil⟩
  have hl : ctor.data.length ≤ D.data.length + 1 := by simp [ctor]
  have hmag : mag ctor.data = 0 := rfl
  constructor
  · rw [flagLoop_spec dd ctor.data _ hm hdd hok hl, hmag]
    simp
  · obtain ⟨h1, h2, h3⟩ := diff_spec dd ctor.data _ hm hdd hok hl (by rw [hmag]; simp)
    rw [hmag] at h3
    exact mag_inj_of_length_eq h2 hdd h1 (by omega)

theorem divLoop_succ (D : big_integer) (m k j : Nat) (dd res : List Nat)
    (hy : top2 D.data ≠ 0) :
    divLoop D m (k + 1) j dd res
      = divLoop D m k (j - 1) (roundDivident D m dd) (res.set j (roundDigit D m dd)) := by
  rw [divLoop, if_neg hy]
  rfl

theorem canonical_last_ne_zero {D : big_integer} (hD : Canonical D) (hL : 2 ≤ D.data.length) :
    D.data.getLastD 0 ≠ 0 := by
  rcases hD.2.2.1 with h | h
  · omega
  · exact h

theorem top3_lt_of_last_zero {dd : List Nat} (hdd : limbsOk dd) (h : dd.getLastD 0 = 0) :
    top3 dd < BASE * BASE := by
  unfold top3
  rw [getD_length_sub_one, h]
  have h2 := getD_lt_BASE hdd (dd.length - 2)
  have h3 := getD_lt_BASE hdd (dd.length - 3)
  have : dd.getD (dd.length - 2) 0 * BASE ≤ (BASE - 1) * BASE :=
    Nat.mul_le_mul_right _ (by omega)
  simp only [BASE] at *
  omega

/-- One round of the digit loop from a state in which the working dividend has `k + 1` more
limbs than the divisor and is below `BASE ^ (k + 1)` times the divisor. The round stores a digit,
subtracts exactly that digit times the divisor at limb position `k`, and either leaves a state of
the same kind for `k`, or (when the estimate was `BASE`, stored as 0) leaves the dividend as it
was, with a non-zero top limb. -/
theorem round_normal (D : big_integer) (hD : Canonical D) (hDn : D.negative = false)
    (hL : 2 ≤ D.data.length) (dd : List Nat) (k : Nat) (hdd : limbsOk dd)
    (hs : dd.length = k + D.data.length + 1)
    (hlt : mag dd < BASE ^ (k + 1) * mag D.data) :
    roundDigit D (D.data.length + 1) dd < BASE
      ∧ limbsOk (roundDivident D (D.data.length + 1) dd)
      ∧ mag (roundDivident D (D.data.length + 1) dd)
          + BASE ^ k * (roundDigit D (D.data.length + 1) dd * mag D.data) = mag dd
      ∧ (((roundDivident D (D.data.length + 1) dd).length = k + D.data.length
            ∧ mag (roundDivident D (D.data.length + 1) dd) < BASE ^ k * mag D.data)
          ∨ (roundDigit D (D.data.length + 1) dd = 0
            ∧ roundDivident D (D.data.length + 1) dd = dd
            ∧ estimate dd D.data = 0 ∧ dd.getLastD 0 ≠ 0)) := by
  have hlast := canonical_last_ne_zero hD hL
  obtain ⟨hq_le, hle1, hleB, hW⟩ := estimate_window dd D.data k hdd hD.2.1 hL hlast hs hlt
  have hm : D.data.length + 1 ≤ dd.length := by omega
  have hsm : dd.length - (D.data.length + 1) = k := by omega
  by_cases he : top3 dd / top2 D.data < BASE
  · -- the estimate fits in 32 bits
    have hest : estimate dd D.data = top3 dd / top2 D.data := by
      unfold estimate
      exact Nat.mod_eq_of_lt he
    obtain ⟨hc, hmt, hlen0⟩ := trial_product hD hDn he
    have hflag := flagLoop_spec dd (mul D (ctor_uint32 (top3 dd / top2 D.data))).data
      (D.data.length + 1) hm hdd hc.2.1 hlen0
    rw [hsm, hmt] at hflag
    have hsplit := mag_take_add_drop dd k (by omega)
    have hlow := mag_take_lt hdd k (by omega)
    have hPk : 0 < BASE ^ k := pow_pos BASE_pos _
    have hDpos : 0 < mag D.data := by
      have := mag_ge_of_getLast hD.1 hlast
      have hp : 0 < BASE ^ (D.data.length - 1) := pow_pos BASE_pos _
      omega
    have hqW : mag D.data * (mag (dd.drop k) / mag D.data) ≤ mag (dd.drop k) :=
      Nat.mul_div_le _ _
    have hWq : mag (dd.drop k) < mag D.data * (mag (dd.drop k) / mag D.data + 1) :=
      Nat.lt_mul_div_succ _ hDpos
    generalize hQ : mag (dd.drop k) / mag D.data = q at *
    generalize hWW : mag (dd.drop k) = W at *
    -- in both cases the digit stored is the true digit and the product is digit * divisor
    have key : roundDigit D (D.data.length + 1) dd = q
        ∧ limbsOk (roundProduct D (D.data.length + 1) dd).data
        ∧ (roundProduct D (D.data.length + 1) dd).data.length ≤ D.data.length + 1
        ∧ mag (roundProduct D (D.data.length + 1) dd).data = mag D.data * q := by
      by_cases hfl : top3 dd / top2 D.data ≤ q
      · have heq : top3 dd / top2 D.data = q := by omega
        have hf : flagLoop dd (mul D (ctor_uint32 (estimate dd D.data))).data
            (D.data.length + 1) dd.length 1 = true := by
          rw [hest, hflag, decide_eq_true_eq, heq, hsplit]
          have := Nat.mul_le_mul_left (BASE ^ k) hqW
          omega
        unfold roundDigit roundProduct
        rw [hf, hest, heq]
        simp only [if_true]
        rw [heq] at hc hmt hlen0
        exact ⟨trivial, hc.2.1, hlen0, hmt⟩
      · have heq : top3 dd / top2 D.data = q + 1 := by omega
        have hf : flagLoop dd (mul D (ctor_uint32 (estimate dd D.data))).data
            (D.data.length + 1) dd.length 1 = false := by
          rw [hest, hflag, decide_eq_false_iff_not, heq, hsplit]
          have h1 : BASE ^ k * (W + 1) ≤ BASE ^ k * (mag D.data * (q + 1)) :=
            Nat.mul_le_mul_left _ hWq
          have h2 : BASE ^ k * (W + 1) = BASE ^ k * W + BASE ^ k := by ring
          omega
        obtain ⟨hc2, hmt2, hlen2⟩ := trial_product_corrected hD hDn he (by omega)
        unfold roundDigit roundProduct
        rw [hf, hest]
        simp only [Bool.false_eq_true, if_false]
        rw [heq] at hc2 hmt2 hlen2 ⊢
        refine ⟨?_, hc2.2.1, hlen2, by rw [hmt2]; simp⟩
        simp only [BASE, UINT32_MAX] at he ⊢
        omega
    obtain ⟨hdig, hpok, hplen, hpmag⟩ := key
    have hle : BASE ^ (dd.length - (D.data.length + 1))
        * mag (roundProduct D (D.data.length + 1) dd).data ≤ mag dd := by
      rw [hsm, hpmag, hsplit]
      have := Nat.mul_le_mul_left (BASE ^ k) hqW
      omega
    obtain ⟨hdl, hdok, hdmag⟩ := diff_spec dd _ _ hm hdd hpok hplen hle
    rw [hsm, hpmag] at hdmag
    have hd1lt : mag (diff dd (roundProduct D (D.data.length + 1) dd).data (D.data.length + 1))
        < BASE ^ k * mag D.data := by
      have h1 : BASE ^ k * (W + 1) ≤ BASE ^ k * (mag D.data * (q + 1)) :=
        Nat.mul_le_mul_left _ hWq
      have h2 : BASE ^ k * (W + 1) = BASE ^ k * W + BASE ^ k := by ring
      have h3 : BASE ^ k * (mag D.data * (q + 1))
          = BASE ^ k * (mag D.data * q) + BASE ^ k * mag D.data := by ring
      omega
    have hdne : diff dd (roundProduct D (D.data.length + 1) dd).data (D.data.length + 1) ≠ [] := by
      intro h0
      rw [h0] at hdl
      simp at hdl
      omega
    have hzero : (diff dd (roundProduct D (D.data.length + 1) dd).data
        (D.data.length + 1)).getLastD 0 = 0 := by
      apply last_zero_of_mag_lt hdne
      rw [hdl, hs]
      have hDlt := mag_lt hD.2.1
      have e : k + D.data.length + 1 - 1 = k + D.data.length := by omega
      rw [e, pow_add]
      have := Nat.mul_lt_mul_of_pos_left hDlt hPk
      omega
    have hrd : roundDivident D (D.data.length + 1) dd
        = (diff dd (roundProduct D (D.data.length + 1) dd).data (D.data.length + 1)).dropLast := by
      unfold roundDivident
      rw [if_pos hzero]
    rw [hrd, hdig, mag_dropLast_of_last_zero hzero]
    refine ⟨by omega, limbsOk_dropLast hdok, ?_, Or.inl ⟨?_, hd1lt⟩⟩
    · have e : q * mag D.data = mag D.data * q := Nat.mul_comm _ _
      rw [e]
      exact hdmag
    · rw [List.length_dropLast, hdl, hs]
      omega
  · -- the estimate is BASE and the cast stores 0
    have heB : top3 dd / top2 D.data = BASE := by omega
    have hest : estimate dd D.data = 0 := by
      unfold estimate
      rw [heB]
      exact Nat.mod_self _
    obtain ⟨hf, hdiff⟩ := round_zero D dd hdd hm hest
    have hy := top2_ge_BASE hlast
    have htop : BASE * BASE ≤ top3 dd := by
      have h1 : top3 dd / top2 D.data * top2 D.data ≤ top3 dd := Nat.div_mul_le_self _ _
      rw [heB] at h1
      have h2 : BASE * BASE ≤ BASE * top2 D.data := Nat.mul_le_mul_left _ hy
      omega
    have hlastdd : dd.getLastD 0 ≠ 0 := by
      intro h0
      have := top3_lt_of_last_zero hdd h0
      omega
    have hrp : roundProduct D (D.data.length + 1) dd
        = mul D (ctor_uint32 (estimate dd D.data)) := by
      unfold roundProduct
      rw [hf]
      simp
    have hrd : roundDivident D (D.data.length + 1) dd = dd := by
      unfold roundDivident
      rw [hrp, hdiff, if_neg hlastdd]
    have hdig : roundDigit D (D.data.length + 1) dd = 0 := by
      unfold roundDigit
      rw [hf, hest]
      simp
    rw [hrd, hdig]
    exact ⟨BASE_pos, hdd, by simp, Or.inr ⟨rfl, rfl, hest, hlastdd⟩⟩

/-- A round from a state whose estimate is zero and whose top limb is not: nothing changes. -/
theorem round_stuck (D : big_integer) (dd : List Nat) (hdd : limbsOk dd)
    (hm : D.data.length + 1 ≤ dd.length) (hest : estimate dd D.data = 0)
    (hlast : dd.getLastD 0 ≠ 0) :
    roundDigit D (D.data.length + 1) dd = 0 ∧ roundDivident D (D.data.length + 1) dd = dd := by
  obtain ⟨hf, hdiff⟩ := round_zero D dd hdd hm hest
  have hrp : roundProduct D (D.data.length + 1) dd
      = mul D (ctor_uint32 (estimate dd D.data)) := by
    unfold roundProduct
    rw [hf]
    simp
  constructor
  · unfold roundDigit
    rw [hf, hest]
    simp
  · unfold roundDivident
    rw [hrp, hdiff, if_neg hlast]

/-! ## The general path of division: the digit loop never takes too much -/

/-- Invariant of the digit loop. With `k` rounds left, either the working dividend has `k` more
limbs than the divisor minus one and is below `BASE ^ k` times the divisor, or the loop is stuck
on an estimate stored as 0 with a non-zero top limb. In both cases the quotient limbs written
times the divisor never exceed what has been taken from the dividend. -/
theorem divLoop_inv (D : big_integer) (hD : Canonical D) (hDn : D.negative = false)
    (hL : 2 ≤ D.data.length) (k : Nat) (dd res : List Nat) (hdd : limbsOk dd)
    (hres : limbsOk res) (hk : k ≤ res.length) (hz : ∀ i, i < k → res.getD i 0 = 0)
    (hst : (dd.length = k + D.data.length ∧ mag dd < BASE ^ k * mag D.data)
      ∨ (D.data.length + 1 ≤ dd.length ∧ estimate dd D.data = 0 ∧ dd.getLastD 0 ≠ 0)) :
    ∃ rf, divLoop D (D.data.length + 1) k (k - 1) dd res = some rf ∧ limbsOk rf
      ∧ rf.length = res.length ∧ mag rf * mag D.data ≤ mag res * mag D.data + mag dd := by
  have hy : top2 D.data ≠ 0 := top2_ne_zero (canonical_last_ne_zero hD hL)
  induction k generalizing dd res with
  | zero => exact ⟨res, rfl, hres, rfl, Nat.le_add_right _ _⟩
  | succ k ih =>
    rw [divLoop_succ D _ k _ dd res hy]
    have ek : k + 1 - 1 = k := rfl
    rw [ek]
    have hzk : res.getD k 0 = 0 := hz k (by omega)
    have hset := mag_set res k (roundDigit D (D.data.length + 1) dd) (by omega)
    rw [hzk] at hset
    have hz2 : ∀ i, i < k → (res.set k (roundDigit D (D.data.length + 1) dd)).getD i 0 = 0 := by
      intro i hi
      rw [getD_set_ne _ _ (by omega)]
      exact hz i (by omega)
    rcases hst with ⟨hs, hlt⟩ | ⟨hm, hest, hlast⟩
    · obtain ⟨hdig, hok, hmag, hnext⟩ := round_normal D hD hDn hL dd k hdd (by omega) hlt
      have hst2 : ((roundDivident D (D.data.length + 1) dd).length = k + D.data.length
            ∧ mag (roundDivident D (D.data.length + 1) dd) < BASE ^ k * mag D.data)
          ∨ (D.data.length + 1 ≤ (roundDivident D (D.data.length + 1) dd).length
            ∧ estimate (roundDivident D (D.data.length + 1) dd) D.data = 0
            ∧ (roundDivident D (D.data.length + 1) dd).getLastD 0 ≠ 0) := by
        rcases hnext with h | ⟨_, h2, h3, h4⟩
        · exact Or.inl h
        · right
          rw [h2]
          exact ⟨by omega, h3, h4⟩
      obtain ⟨rf, h1, h2, h3, h4⟩ := ih (roundDivident D (D.data.length + 1) dd)
        (res.set k (roundDigit D (D.data.length + 1) dd)) hok
        (limbsOk_set hres _ _ hdig) (by rw [List.length_set]; omega) hz2 hst2
      refine ⟨rf, h1, h2, by rw [h3, List.length_set], ?_⟩
      generalize mag (res.set k (roundDigit D (D.data.length + 1) dd)) = S at *
      generalize roundDigit D (D.data.length + 1) dd = d at *
      generalize mag (roundDivident D (D.data.length + 1) dd) = R at *
      have e1 : S * mag D.data = mag res * mag D.data + BASE ^ k * (d * mag D.data) := by
        have : S = mag res + BASE ^ k * d := by omega
        rw [this]
        ring
      omega
    · obtain ⟨hdig, hrd⟩ := round_stuck D dd hdd hm hest hlast
      rw [hdig] at hset hz2
      rw [hrd, hdig]
      simp only [Nat.mul_zero, Nat.add_zero] at hset
      obtain ⟨rf, h1, h2, h3, h4⟩ := ih dd (res.set k 0) hdd
        (limbsOk_set hres _ _ BASE_pos) (by rw [List.length_set]; omega) hz2
        (Or.inr ⟨hm, hest, hlast⟩)
      refine ⟨rf, h1, h2, by rw [h3, List.length_set], ?_⟩
      rw [hset] at h4
      exact h4

/-- The value of `a / b` on the general path: a canonical quotient whose magnitude times the
magnitude of the divisor does not exceed the magnitude of the dividend. -/
theorem div_general_spec {a b : big_integer} (ha : Canonical a) (hb : Canonical b)
    (hL : 2 ≤ b.data.length) (hnlt : lt ⟨a.data, false⟩ ⟨b.data, false⟩ = false) :
    ∃ q, div a b = some q ∧ Canonical q ∧ mag q.data * mag b.data ≤ mag a.data
      ∧ (mag q.data ≠ 0 → q.negative = Bool.xor a.negative b.negative) := by
  have hmle : mag b.data ≤ mag a.data := by
    have := (lt_abs_iff ha hb).not.mp (by rw [hnlt]; simp)
    omega
  have hlen := length_le_of_mag_le ha hb hmle
  have hDc := canonical_nonneg hb
  have hk0 : a.data.length + 1 - (b.data.length + 1) + 1 = a.data.length - b.data.length + 1 := by
    omega
  have hj0 : a.data.length + 1 - (b.data.length + 1)
      = (a.data.length - b.data.length + 1) - 1 := by omega
  have hlast := canonical_last_ne_zero hb hL
  have hinit : mag (a.data ++ [0])
      < BASE ^ (a.data.length - b.data.length + 1) * mag b.data := by
    rw [mag_snoc]
    simp only [Nat.mul_zero, Nat.add_zero]
    have h1 := mag_lt ha.2.1
    have h2 := mag_ge_of_getLast hb.1 hlast
    have h3 : BASE ^ (a.data.length - b.data.length + 1) * BASE ^ (b.data.length - 1)
        ≤ BASE ^ (a.data.length - b.data.length + 1) * mag b.data :=
      Nat.mul_le_mul_left _ h2
    rw [← pow_add] at h3
    have e : a.data.length - b.data.length + 1 + (b.data.length - 1) = a.data.length := by omega
    rw [e] at h3
    omega
  obtain ⟨rf, h1, h2, h3, h4⟩ := divLoop_inv ⟨b.data, false⟩ hDc rfl hL
    (a.data.length - b.data.length + 1) (a.data ++ [0])
    (resize [0] (a.data.length - b.data.length + 1) 0)
    (limbsOk_append.mpr ⟨ha.2.1, limbsOk_cons.mpr ⟨BASE_pos, limbsOk_nil⟩⟩)
    (by rw [resize_zero]; exact limbsOk_replicate _ _ BASE_pos)
    (by rw [resize_zero, List.length_replicate])
    (by intro i _; rw [resize_zero]; exact getD_replicate_zero _ _)
    (Or.inl ⟨by simp only [List.length_append, List.length_singleton]; omega, hinit⟩)
  simp only at h1 h4
  rw [resize_zero, mag_replicate_zero, Nat.zero_mul, Nat.zero_add, mag_snoc] at h4
  simp only [Nat.mul_zero, Nat.add_zero] at h4
  rw [resize_zero, List.length_replicate] at h3
  unfold div
  rw [if_neg (by rw [hnlt]; simp), if_neg (by omega), hk0, hj0, h1]
  have hne : rf ≠ [] := by
    intro h0
    rw [h0] at h3
    simp at h3
  have hcan := normalize_canonical ⟨rf, Bool.xor a.negative b.negative⟩ hne h2
  refine ⟨_, rfl, hcan, by rw [mag_normalize]; exact h4, ?_⟩
  intro hm
  rw [normalize_negative, if_neg]
  intro h0
  apply hm
  rw [h0]
  rfl

/-- For canonical operands and a divisor that is not zero, `a / b` returns a canonical quotient
whose magnitude times the magnitude of `b` is at most the magnitude of `a`; when the quotient is
not zero its sign is the XOR of the operand signs. -/
theorem div_mag_le {a b : big_integer} (ha : Canonical a) (hb : Canonical b)
    (hz : zero b = false) :
    ∃ q, div a b = some q ∧ Canonical q ∧ mag q.data * mag b.data ≤ mag a.data
      ∧ (mag q.data ≠ 0 → q.negative = Bool.xor a.negative b.negative) := by
  by_cases h1 : b.data.length = 1
  · obtain ⟨q, e1, e2, e3, _, e5⟩ := div_small_spec ha hb hz h1
    refine ⟨q, e1, e2, ?_, e5⟩
    rw [e3]
    exact Nat.div_mul_le_self _ _
  · have hL : 2 ≤ b.data.length := by
      have := canonical_length_pos hb
      omega
    cases hlt : lt ⟨a.data, false⟩ ⟨b.data, false⟩
    · exact div_general_spec ha hb hL hlt
    · refine ⟨ctor_int 0, by unfold div; rw [if_pos hlt], by decide, ?_, ?_⟩
      · show 0 * mag b.data ≤ mag a.data
        omega
      · intro h
        exact absurd rfl h

/-! ## Claims on multiplication, comparison and the division law -/

set_option maxRecDepth 100000 in
/-- C4: for canonical `a` and `b`, `operator*` returns a canonical value whose integer value is
the product of the values: its magnitude is the product of the magnitudes, its sign is the XOR of
the operand signs when neither operand is zero, and it is `Integer(0)` when either operand is
zero; and `Integer("123456789012345678901234567890") * Integer(-2)` is `==` to
`Integer("-246913578024691357802469135780")`. -/
theorem mul_correct (a b : big_integer) (ha : Canonical a) (hb : Canonical b) :
    Canonical (mul a b) ∧ toInt (mul a b) = toInt a * toInt b
      ∧ mag (mul a b).data = mag a.data * mag b.data
      ∧ (zero a = false → zero b = false → (mul a b).negative = Bool.xor a.negative b.negative)
      ∧ (zero a = true ∨ zero b = true → mul a b = ctor_int 0)
      ∧ eq (mul (ctor_string "123456789012345678901234567890".toList) (ctor_int (-2)))
          (ctor_string "-246913578024691357802469135780".toList) = true := by
  have hmag : mag (mul a b).data = mag a.data * mag b.data := by
    unfold mul
    split
    · rename_i hz
      rw [Bool.or_eq_true, zero_iff, zero_iff] at hz
      rcases hz with h | h <;> rw [h] <;> simp [ctor, mag]
    · rw [mag_normalize]
      exact mag_mulOuter _ _ ha.2.1 hb.2.1
  refine ⟨mul_canonical hb, toInt_mul ha hb, hmag, ?_, ?_, by decide⟩
  · intro hza hzb
    have hma : mag a.data ≠ 0 := by
      intro h0
      have := (zero_iff a).mpr (canonical_mag_zero ha h0)
      rw [hza] at this; cases this
    have hmb : mag b.data ≠ 0 := by
      intro h0
      have := (zero_iff b).mpr (canonical_mag_zero hb h0)
      rw [hzb] at this; cases this
    have hne : (mul a b).data ≠ [0] := by
      intro h0
      have h1 : mag (mul a b).data = 0 := by rw [h0]; rfl
      rw [hmag] at h1
      rcases Nat.mul_eq_zero.mp h1 with h | h
      · exact hma h
      · exact hmb h
    have e : mul a b = normalize
        ⟨mulOuter a.data b.data (size a) 0 (resize [0] (size a + size b) 0),
          Bool.xor a.negative b.negative⟩ := by
      unfold mul
      rw [if_neg (by simp [hza, hzb])]
    rw [e] at hne ⊢
    rw [normalize_negative, if_neg hne]
  · intro hz
    unfold mul
    rw [if_pos (by simpa using hz)]
    rfl

/-- Witness of `mul_correct`: the operands -(2^33 - 1) and 7. -/
theorem mul_correct_witness :
    Canonical ⟨[4294967295, 1], true⟩ ∧ Canonical ⟨[7], false⟩
      ∧ toInt (mul ⟨[4294967295, 1], true⟩ ⟨[7], false⟩)
          = toInt ⟨[4294967295, 1], true⟩ * toInt ⟨[7], false⟩ :=
  ⟨by decide, by decide, (mul_correct _ _ (by decide) (by decide)).2.1⟩

/-- C6: for canonical `a` and `b` the six comparison operators are the corresponding relations
on the integer values. -/
theorem compare_correct (a b : big_integer) (ha : Canonical a) (hb : Canonical b) :
    (lt a b = true ↔ toInt a < toInt b) ∧ (eq a b = true ↔ toInt a = toInt b)
      ∧ (gt a b = true ↔ toInt a > toInt b) ∧ (le a b = true ↔ toInt a ≤ toInt b)
      ∧ (ge a b = true ↔ toInt a ≥ toInt b) ∧ (ne a b = true ↔ toInt a ≠ toInt b) := by
  have heq : eq a b = true ↔ toInt a = toInt b := by
    rw [eq_iff]
    exact ⟨fun h => by rw [h], canonical_ext ha hb⟩
  refine ⟨lt_iff ha hb, heq, lt_iff hb ha, ?_, ?_, ?_⟩
  · unfold le gt
    rw [Bool.not_eq_true', ← Bool.not_eq_true, lt_iff hb ha]
    omega
  · unfold ge
    rw [Bool.not_eq_true', ← Bool.not_eq_true, lt_iff ha hb]
    omega
  · unfold ne
    rw [Bool.not_eq_true', ← Bool.not_eq_true, heq]

/-- Witness of `compare_correct`: -(2^32) against 3. -/
theorem compare_correct_witness :
    Canonical ⟨[0, 1], true⟩ ∧ Canonical ⟨[3], false⟩
      ∧ (lt ⟨[0, 1], true⟩ ⟨[3], false⟩ = true ↔ toInt ⟨[0, 1], true⟩ < toInt ⟨[3], false⟩) :=
  ⟨by decide, by decide, (compare_correct _ _ (by decide) (by decide)).1⟩

/-- C2: for canonical `a` and `b` with `b != 0`, `a / b` and `a % b` return values and
`(a / b) * b + (a % b) == a`. -/
theorem div_mod_law (a b : big_integer) (ha : Canonical a) (hb : Canonical b)
    (hne : ne b (ctor_int 0) = true) :
    ∃ q r, div a b = some q ∧ mod a b = some r ∧ eq (add (mul q b) r) a = true := by
  obtain ⟨q, hq⟩ := div_isSome a hb (zero_false_of_ne hb hne)
  refine ⟨q, sub a (mul q b), hq, by rw [mod, hq]; rfl, ?_⟩
  rw [eq_iff]
  exact add_sub_cancel_eq ha (mul_canonical hb)

/-- Witness of `div_mod_law`: the operands 2^96 and 2^64 + 5. -/
theorem div_mod_law_witness :
    Canonical ⟨[0, 0, 0, 1], false⟩ ∧ Canonical ⟨[5, 0, 1], false⟩
      ∧ ne ⟨[5, 0, 1], false⟩ (ctor_int 0) = true
      ∧ ∃ q r, div ⟨[0, 0, 0, 1], false⟩ ⟨[5, 0, 1], false⟩ = some q
          ∧ mod ⟨[0, 0, 0, 1], false⟩ ⟨[5, 0, 1], false⟩ = some r
          ∧ eq (add (mul q ⟨[5, 0, 1], false⟩) r) ⟨[0, 0, 0, 1], false⟩ = true :=
  ⟨by decide, by decide, by decide, div_mod_law _ _ (by decide) (by decide) (by decide)⟩

/-- C5: decimal round trip. For every canonical `a`, `to_string(a)` returns a string, and the
value built from that string is `==` to `a`. -/
theorem to_string_roundtrip (a : big_integer) (ha : Canonical a) :
    ∃ s, to_string a = some s ∧ eq (ctor_string s) a = true := by
  by_cases h0 : eq a ctor = true
  · refine ⟨['0'], by rw [to_string, if_pos h0], ?_⟩
    rw [(eq_iff a ctor).mp h0]
    decide
  · have hn : mag a.data ≠ 0 := by
      intro hm
      apply h0
      rw [eq_iff]
      exact canonical_ext ha ctor_canonical (by
        rw [toInt_ctor]; unfold toInt; rw [hm]; cases a.negative <;> simp)
    have hloop := to_string_loop_spec (10 * size a + 1) a [] ha (mag_lt_pow_ten a ha.2.1)
    have hds : ∀ d ∈ Nat.digits 10 (mag a.data), d < 10 :=
      fun d hd => Nat.digits_lt_base (by omega) hd
    have hne : Nat.digits 10 (mag a.data) ≠ [] := Nat.digits_ne_nil_iff_ne_zero.mpr hn
    obtain ⟨hc, hv⟩ := parse_digits (Nat.digits 10 (mag a.data)) hds
    rw [Nat.ofDigits_digits] at hv
    generalize hA : (Nat.digits 10 (mag a.data)).map (fun d => Char.ofNat ((48 + d) % 256))
      = ans at hloop hc hv
    generalize hV : (ans.reverse).foldl
        (fun acc c => add (mul acc TEN) (ctor_int ((c.toNat : Int) - 48))) ⟨[0], false⟩
      = v at hc hv
    have hmv : mag v.data = mag a.data := by
      rw [← natAbs_toInt, hv]
      simp
    have hfinal : normalize ⟨v.data, a.negative⟩ = a := by
      apply canonical_ext (normalize_canonical ⟨v.data, a.negative⟩ hc.1 hc.2.1) ha
      rw [toInt_normalize]
      unfold toInt
      simp only
      rw [hmv]
    have hts : to_string a = some (if a.negative then ans ++ ['-'] else ans).reverse := by
      rw [to_string, if_neg h0, hloop]
      simp
    refine ⟨_, hts, ?_⟩
    rw [eq_iff]
    cases hneg : a.negative
    · simp only [Bool.false_eq_true, if_false]
      have hex : ∃ c rest, ans.reverse = c :: rest ∧ c ≠ '-' ∧ c ≠ '+' := by
        cases hr : ans.reverse with
        | nil =>
          exfalso
          apply hne
          have : ans = [] := by simpa using hr
          rw [this] at hA
          simpa using hA
        | cons c rest =>
          refine ⟨c, rest, rfl, ?_⟩
          have hmem : c ∈ ans := by
            rw [← List.mem_reverse, hr]
            exact List.mem_cons_self _ _
          rw [← hA, List.mem_map] at hmem
          obtain ⟨d, hd1, hd2⟩ := hmem
          rw [← hd2]
          exact (digitChar_facts d (hds d hd1)).2
      obtain ⟨c, rest, hr, hc1, hc2⟩ := hex
      have hstart : (if (ans.reverse).length > 0 ∧ ((ans.reverse).getD 0 (Char.ofNat 0) = '-'
          ∨ (ans.reverse).getD 0 (Char.ofNat 0) = '+') then 1 else 0) = 0 := by
        rw [hr]
        simp [hc1, hc2]
      have hflag : decide ((ans.reverse).getD 0 (Char.ofNat 0) = '-') = false := by
        rw [hr]
        simp [hc1]
      unfold ctor_string
      rw [hstart, hflag, List.drop_zero, hV]
      rw [hneg] at hfinal
      exact hfinal
    · simp only [if_true]
      have hs : (ans ++ ['-']).reverse = '-' :: ans.reverse := by simp
      rw [hs]
      unfold ctor_string
      simp only [List.length_cons, gt_iff_lt, Nat.zero_lt_succ, List.getD_cons_zero, true_or,
        and_self, if_true, List.drop_succ_cons, List.drop_zero, decide_True]
      rw [hV]
      rw [hneg] at hfinal
      exact hfinal

set_option maxRecDepth 100000 in
/-- Witness of `to_string_roundtrip`: the value -(2^64 + 5), whose string is
"-18446744073709551621". -/
theorem to_string_roundtrip_witness :
    Canonical ⟨[5, 0, 1], true⟩
      ∧ to_string ⟨[5, 0, 1], true⟩ = some "-18446744073709551621".toList
      ∧ ∃ s, to_string ⟨[5, 0, 1], true⟩ = some s ∧ eq (ctor_string s) ⟨[5, 0, 1], true⟩ = true :=
  ⟨by decide, by decide, to_string_roundtrip _ (by decide)⟩

/-- C3: for canonical `a` and `b` with `b != 0`, `a % b` returns a value that is zero or has the
flag of `a`; and `7 % 2 == 1`, `-7 % 2 == -1`. -/
theorem mod_sign (a b : big_integer) (ha : Canonical a) (hb : Canonical b)
    (hne : ne b (ctor_int 0) = true) :
    (∃ r, mod a b = some r ∧ (zero r = true ∨ r.negative = a.negative))
      ∧ (mod (ctor_int 7) (ctor_int 2)).map (fun r => eq r (ctor_int 1)) = some true
      ∧ (mod (ctor_int (-7)) (ctor_int 2)).map (fun r => eq r (ctor_int (-1))) = some true := by
  refine ⟨?_, by decide, by decide⟩
  obtain ⟨q, hq, hqc, hle, hsign⟩ := div_mag_le (a := a) ha hb (zero_false_of_ne hb hne)
  have hp := mul_canonical (a := q) hb
  have hr := sub_canonical ha hp
  have hv : toInt (sub a (mul q b)) = toInt a - toInt q * toInt b := by
    rw [toInt_sub ha hp, toInt_mul hqc hb]
  refine ⟨sub a (mul q b), by rw [mod, hq]; rfl, ?_⟩
  -- the product has the sign of `a` and a magnitude not above the one of `a`
  have hprod : toInt q * toInt b
      = if a.negative then -((mag q.data * mag b.data : Nat) : Int)
        else ((mag q.data * mag b.data : Nat) : Int) := by
    by_cases h0 : mag q.data = 0
    · have : toInt q = 0 := by
        unfold toInt; rw [h0]; cases q.negative <;> simp
      rw [this, h0]
      cases a.negative <;> simp
    · have hs := hsign h0
      unfold toInt
      rw [hs]
      cases a.negative <;> cases b.negative <;> simp
  have hval : toInt (sub a (mul q b))
      = if a.negative then -((mag a.data - mag q.data * mag b.data : Nat) : Int)
        else ((mag a.data - mag q.data * mag b.data : Nat) : Int) := by
    rw [hv, hprod]
    unfold toInt
    generalize mag q.data * mag b.data = p at *
    cases a.negative <;> simp <;> omega
  by_cases hd : mag a.data - mag q.data * mag b.data = 0
  · left
    rw [zero_iff]
    apply canonical_mag_zero hr
    rw [← natAbs_toInt, hval, hd]
    cases a.negative <;> simp
  · right
    cases hna : a.negative
    · rw [hna] at hval
      simp only [Bool.false_eq_true, if_false] at hval
      rw [negative_false_iff hr, hval]
      omega
    · rw [hna] at hval
      simp only [if_true] at hval
      rw [negative_iff hr, hval]
      omega

/-- Witness of `mod_sign`: the operands -(2^96) and 2^64 + 5. -/
theorem mod_sign_witness :
    Canonical ⟨[0, 0, 0, 1], true⟩ ∧ Canonical ⟨[5, 0, 1], false⟩
      ∧ ne ⟨[5, 0, 1], false⟩ (ctor_int 0) = true
      ∧ ∃ r, mod ⟨[0, 0, 0, 1], true⟩ ⟨[5, 0, 1], false⟩ = some r
          ∧ (zero r = true ∨ r.negative = true) :=
  ⟨by decide, by decide, by decide, (mod_sign _ _ (by decide) (by decide) (by decide)).1⟩

/-! ## Claims on the algebraic laws of `+`, `-` and `*` -/

/-- C13: for every canonical `a`, `a + (-a) == Integer(0)`, and the result, like `Integer(0)`
itself, has a non-negative sign flag. -/
theorem add_neg_self (a : big_integer) (ha : Canonical a) :
    eq (add a (neg a)) (ctor_int 0) = true ∧ (add a (neg a)).negative = false
      ∧ (ctor_int 0).negative = false := by
  have hn := neg_canonical ha
  have h : add a (neg a) = ctor_int 0 := by
    apply canonical_ext (add_canonical ha hn) (by decide)
    rw [toInt_add ha hn, toInt_neg]
    have : toInt (ctor_int 0) = 0 := by decide
    rw [this]
    ring
  refine ⟨(eq_iff _ _).mpr h, by rw [h]; rfl, rfl⟩

/-- Witness of `add_neg_self`: the value -(2^64 + 5). -/
theorem add_neg_self_witness :
    Canonical ⟨[5, 0, 1], true⟩
      ∧ eq (add ⟨[5, 0, 1], true⟩ (neg ⟨[5, 0, 1], true⟩)) (ctor_int 0) = true
      ∧ (add ⟨[5, 0, 1], true⟩ (neg ⟨[5, 0, 1], true⟩)).negative = false
      ∧ (ctor_int 0).negative = false :=
  ⟨by decide, add_neg_self _ (by decide)⟩

/-- C14: for every pair of canonical `a` and `b`, `a - b == -(b - a)`. -/
theorem sub_antisymm (a b : big_integer) (ha : Canonical a) (hb : Canonical b) :
    eq (sub a b) (neg (sub b a)) = true := by
  rw [eq_iff]
  have h1 := sub_canonical hb ha
  apply canonical_ext (sub_canonical ha hb) (neg_canonical h1)
  rw [toInt_sub ha hb, toInt_neg, toInt_sub hb ha]
  ring

/-- Witness of `sub_antisymm`: 2^32 + 7 and -3, and the case of a zero difference. -/
theorem sub_antisymm_witness :
    Canonical ⟨[7, 1], false⟩ ∧ Canonical ⟨[3], true⟩
      ∧ eq (sub ⟨[7, 1], false⟩ ⟨[3], true⟩) (neg (sub ⟨[3], true⟩ ⟨[7, 1], false⟩)) = true
      ∧ eq (sub ⟨[3], true⟩ ⟨[3], true⟩) (neg (sub ⟨[3], true⟩ ⟨[3], true⟩)) = true :=
  ⟨by decide, by decide, sub_antisymm _ _ (by decide) (by decide),
    sub_antisymm _ _ (by decide) (by decide)⟩

/-- C15: for every pair of canonical `a` and `b`, `a + b == b + a`. -/
theorem add_comm_eq (a b : big_integer) (ha : Canonical a) (hb : Canonical b) :
    eq (add a b) (add b a) = true := by
  rw [eq_iff]
  apply canonical_ext (add_canonical ha hb) (add_canonical hb ha)
  rw [toInt_add ha hb, toInt_add hb ha]
  ring

/-- Witness of `add_comm_eq`: -(2^64 + 5) and 2^32 - 1, of different signs and limb counts. -/
theorem add_comm_eq_witness :
    Canonical ⟨[5, 0, 1], true⟩ ∧ Canonical ⟨[4294967295], false⟩
      ∧ eq (add ⟨[5, 0, 1], true⟩ ⟨[4294967295], false⟩)
          (add ⟨[4294967295], false⟩ ⟨[5, 0, 1], true⟩) = true :=
  ⟨by decide, by decide, add_comm_eq _ _ (by decide) (by decide)⟩

/-- C16: for every pair of canonical `a` and `b`, `a * b == b * a`: the same sign flag and the
same limb sequence whichever operand drives the outer loop. -/
theorem mul_comm_eq (a b : big_integer) (ha : Canonical a) (hb : Canonical b) :
    eq (mul a b) (mul b a) = true ∧ (mul a b).negative = (mul b a).negative
      ∧ (mul a b).data = (mul b a).data := by
  have h : mul a b = mul b a := by
    apply canonical_ext (mul_canonical hb) (mul_canonical ha)
    rw [toInt_mul ha hb, toInt_mul hb ha]
    ring
  exact ⟨(eq_iff _ _).mpr h, by rw [h], by rw [h]⟩

/-- Witness of `mul_comm_eq`: -(2^33 - 1) and 2^64 + 5. -/
theorem mul_comm_eq_witness :
    Canonical ⟨[4294967295, 1], true⟩ ∧ Canonical ⟨[5, 0, 1], false⟩
      ∧ eq (mul ⟨[4294967295, 1], true⟩ ⟨[5, 0, 1], false⟩)
          (mul ⟨[5, 0, 1], false⟩ ⟨[4294967295, 1], true⟩) = true
      ∧ (mul ⟨[4294967295, 1], true⟩ ⟨[5, 0, 1], false⟩).negative
          = (mul ⟨[5, 0, 1], false⟩ ⟨[4294967295, 1], true⟩).negative
      ∧ (mul ⟨[4294967295, 1], true⟩ ⟨[5, 0, 1], false⟩).data
          = (mul ⟨[5, 0, 1], false⟩ ⟨[4294967295, 1], true⟩).data :=
  ⟨by decide, by decide, mul_comm_eq _ _ (by decide) (by decide)⟩

/-! ## small_object: the heap -/

theorem heap_get_lt {h : Heap} {p : Nat} {c : cow_wrapper} (hg : heap_get h p = some c) :
    p < h.length := by
  by_contra hlt
  unfold heap_get at hg
  rw [List.getD_eq_default _ _ (by omega)] at hg
  cases hg

theorem heap_get_set_self (h : Heap) (p : Nat) (c : cow_wrapper) (hp : p < h.length) :
    heap_get (heap_set h p c) p = some c := by
  unfold heap_get heap_set
  rw [List.getD_eq_getElem?_getD, List.getElem?_set_self hp]
  rfl

theorem heap_get_set_ne (h : Heap) {p q : Nat} (c : cow_wrapper) (hpq : p ≠ q) :
    heap_get (heap_set h p c) q = heap_get h q := by
  unfold heap_get heap_set
  rw [List.getD_eq_getElem?_getD, List.getD_eq_getElem?_getD, List.getElem?_set_ne hpq]

theorem heap_get_new_old (h : Heap) (c : cow_wrapper) {q : Nat} (hq : q < h.length) :
    heap_get (heap_new h c).1 q = heap_get h q := by
  unfold heap_get heap_new
  exact List.getD_append _ _ _ _ hq

theorem heap_get_new_self (h : Heap) (c : cow_wrapper) :
    heap_get (heap_new h c).1 (heap_new h c).2 = some c := by
  unfold heap_get heap_new
  simp only
  rw [List.getD_append_right _ _ _ _ (le_refl _)]
  simp

theorem heap_set_length (h : Heap) (p : Nat) (c : cow_wrapper) :
    (heap_set h p c).length = h.length := by
  unfold heap_set
  exact List.length_set _ _ _

/-! ## small_object: copy, then a mutator that calls `uniquify()` -/

/-- The copy constructor on a valid source: both handles point at the same buffer, whose
reference count has gone up by one. -/
theorem so_copy_valid {h : Heap} {a : small_object} (hv : so_valid h a) :
    ∃ c, heap_get h a.data = some c ∧ 1 ≤ c.ref_count
      ∧ so_copy h a = some (heap_set h a.data (cow_add_ref c),
          ⟨false, a.small_size, [0, 0], a.data⟩) := by
  obtain ⟨hs, c, hc, hr⟩ := hv
  refine ⟨c, hc, hr, ?_⟩
  unfold so_copy
  rw [hs, hc]
  rfl

/-- Copy isolation for the mutators that call `uniquify()`: after `small_object b(a)` and a
mutator of the form `desmall(); uniquify(); data->op(...)` on `b`, the limbs of `a` are what they
were and `b` holds the changed limbs in a buffer of its own. -/
theorem copy_then_unique_mutator (f : List Nat → List Nat) {h : Heap} {a : small_object}
    (hv : so_valid h a) :
    ∃ h1 b h2 b2, so_copy h a = some (h1, b)
      ∧ (uniquify (desmall h1 b).1 (desmall h1 b).2).bind (fun u =>
          (cow_call f u.1 u.2.data).map (fun h2 => (h2, u.2))) = some (h2, b2)
      ∧ so_contents h2 a = so_contents h a
      ∧ so_contents h2 b2 = (so_contents h a).map f
      ∧ b2.data ≠ a.data := by
  obtain ⟨c, hc, hr, hcopy⟩ := so_copy_valid hv
  have hp := heap_get_lt hc
  have hs := hv.1
  have hg1 : heap_get (heap_set h a.data (cow_add_ref c)) a.data = some (cow_add_ref c) :=
    heap_get_set_self h a.data _ hp
  have hnu : cow_unique (cow_add_ref c) = false := by
    unfold cow_unique cow_add_ref
    simp only [beq_eq_false_iff_ne, ne_eq]
    omega
  -- the heap after `uniquify()`: the old buffer with its count back, and a private copy
  have hu : uniquify (heap_set h a.data (cow_add_ref c)) ⟨false, a.small_size, [0, 0], a.data⟩
      = some ((heap_new (heap_set (heap_set h a.data (cow_add_ref c)) a.data
            (cow_rem_ref (cow_add_ref c))) ⟨c.vec, 1⟩).1,
          ⟨false, a.small_size, [0, 0], (heap_set h a.data (cow_add_ref c)).length⟩) := by
    unfold uniquify
    simp only [hg1, hnu, Bool.false_eq_true, if_false]
    unfold extract_unique
    rw [hg1]
    simp only [Option.map_some', heap_new, cow_add_ref, heap_set_length]
  have hlen : (heap_set h a.data (cow_add_ref c)).length = h.length := heap_set_length _ _ _
  have hlen2 : (heap_set (heap_set h a.data (cow_add_ref c)) a.data
      (cow_rem_ref (cow_add_ref c))).length = h.length := by
    rw [heap_set_length, heap_set_length]
  have hgnew : heap_get (heap_new (heap_set (heap_set h a.data (cow_add_ref c)) a.data
      (cow_rem_ref (cow_add_ref c))) ⟨c.vec, 1⟩).1 h.length = some ⟨c.vec, 1⟩ := by
    have := heap_get_new_self (heap_set (heap_set h a.data (cow_add_ref c)) a.data
      (cow_rem_ref (cow_add_ref c))) ⟨c.vec, 1⟩
    simp only [heap_new] at this ⊢
    rw [hlen2] at this
    exact this
  refine ⟨_, _, heap_set (heap_new (heap_set (heap_set h a.data (cow_add_ref c)) a.data
      (cow_rem_ref (cow_add_ref c))) ⟨c.vec, 1⟩).1 h.length ⟨f c.vec, 1⟩,
    ⟨false, a.small_size, [0, 0], h.length⟩, hcopy, ?_, ?_, ?_, ?_⟩
  · have hd : desmall (heap_set h a.data (cow_add_ref c)) ⟨false, a.small_size, [0, 0], a.data⟩
        = (heap_set h a.data (cow_add_ref c), ⟨false, a.small_size, [0, 0], a.data⟩) := by
      unfold desmall
      simp
    rw [hd]
    simp only
    rw [hu, hlen]
    simp only [Option.some_bind]
    unfold cow_call
    rw [hgnew]
    rfl
  · unfold so_contents
    rw [hs]
    simp only [Bool.false_eq_true, if_false]
    rw [heap_get_set_ne _ _ (by omega), heap_get_new_old _ _ (by rw [hlen2]; exact hp),
      heap_get_set_self _ _ _ (by rw [hlen]; exact hp), hc]
    rfl
  · unfold so_contents
    rw [hs]
    simp only [Bool.false_eq_true, if_false]
    have hl3 : h.length < (heap_new (heap_set (heap_set h a.data (cow_add_ref c)) a.data
        (cow_rem_ref (cow_add_ref c))) ⟨c.vec, 1⟩).1.length := by
      simp only [heap_new, List.length_append, List.length_singleton]
      rw [hlen2]
      omega
    rw [heap_get_set_self _ _ _ hl3, hc]
    rfl
  · simp only
    omega

/-- The missing `uniquify()` of `insert`: after `small_object b(a)` and `b.insert(len)`, `b` still
points at the buffer of `a`, and `a` shows the limbs as `cow_wrapper::insert` left them. -/
theorem copy_then_insert (ins : Nat → List Nat → List Nat) (len : Nat) {h : Heap}
    {a : small_object} (hv : so_valid h a) :
    ∃ h1 b h2 b2, so_copy h a = some (h1, b) ∧ so_insert ins h1 b len = some (h2, b2)
      ∧ so_contents h2 a = (so_contents h a).map (ins len) ∧ b2.data = a.data := by
  obtain ⟨c, hc, hr, hcopy⟩ := so_copy_valid hv
  have hp := heap_get_lt hc
  have hs := hv.1
  have hg1 : heap_get (heap_set h a.data (cow_add_ref c)) a.data = some (cow_add_ref c) :=
    heap_get_set_self h a.data _ hp
  have hd : desmall (heap_set h a.data (cow_add_ref c)) ⟨false, a.small_size, [0, 0], a.data⟩
      = (heap_set h a.data (cow_add_ref c), ⟨false, a.small_size, [0, 0], a.data⟩) := by
    unfold desmall
    simp
  refine ⟨_, _, heap_set (heap_set h a.data (cow_add_ref c)) a.data
      ⟨ins len c.vec, c.ref_count + 1⟩, ⟨false, a.small_size, [0, 0], a.data⟩, hcopy, ?_, ?_, rfl⟩
  · unfold so_insert
    rw [hd]
    simp only
    unfold cow_call
    rw [hg1]
    rfl
  · unfold so_contents
    rw [hs]
    simp only [Bool.false_eq_true, if_false]
    rw [heap_get_set_self _ _ _ (by rw [heap_set_length]; exact hp), hc]
    rfl

theorem so_ctor_valid (h : Heap) (size val : Nat) :
    so_valid (so_ctor h size val).1 (so_ctor h size val).2
      ∧ so_contents (so_ctor h size val).1 (so_ctor h size val).2
          = some (List.replicate size val) := by
  unfold so_ctor
  by_cases hsz : size ≤ 2
  · rw [if_pos hsz]
    unfold desmall
    simp only [if_true]
    refine ⟨⟨rfl, ⟨_, heap_get_new_self _ _, le_refl _⟩⟩, ?_⟩
    unfold so_contents
    simp only [Bool.false_eq_true, if_false]
    rw [heap_get_new_self]
    simp [List.take_append_of_le_length]
  · rw [if_neg hsz]
    refine ⟨⟨rfl, ⟨_, heap_get_new_self _ _, le_refl _⟩⟩, ?_⟩
    unfold so_contents
    simp only [Bool.false_eq_true, if_false]
    rw [heap_get_new_self]
    rfl

/-! ## Division by zero -/

/-- Against a divisor that is zero the first test of `operator/`, `divident < divisor`, is false
for every dividend with at least one limb. -/
theorem lt_zero_divisor (d : List Nat) (hd : d ≠ []) :
    lt ⟨d, false⟩ ⟨[0], false⟩ = false := by
  cases d with
  | nil => exact absurd rfl hd
  | cons x t =>
    cases t with
    | nil =>
      unfold lt
      simp only [size, List.length_singleton, bne_self_eq_false, Bool.false_eq_true, if_false]
      unfold ltLoop
      by_cases hx : x = 0
      · subst hx
        simp [ltLoop]
      · have : 0 < x := Nat.pos_of_ne_zero hx
        simp [hx, this]
    | cons y t =>
      unfold lt
      simp [size]

/-- With a divisor that is zero the fast path of `operator/` divides by `divisor.data[0] = 0`
in its first iteration. -/
theorem divSmallLoop_zero (l : List Nat) (hl : l ≠ []) (rest : Nat) (res : List Nat) :
    divSmallLoop 0 l rest res = none := by
  cases l with
  | nil => exact absurd rfl hl
  | cons x t => simp [divSmallLoop]

theorem div_zero_none (a b : big_integer) (ha : a.data ≠ []) (hb : zero b = true) :
    div a b = none := by
  have hb0 : b.data = [0] := (zero_iff b).1 hb
  unfold div
  rw [hb0, lt_zero_divisor a.data ha]
  simp only [Bool.false_eq_true, if_false, List.length_singleton, if_true]
  have hr : a.data.reverse ≠ [] := by
    intro h
    exact ha (List.reverse_eq_nil_iff.1 h)
  have h0 : ([0] : List Nat).getD 0 0 = 0 := rfl
  rw [h0, divSmallLoop_zero _ hr]
  rfl

/-! ## Left shift: the count as a `size_t` -/

theorem shlLoop_zero (x : Nat) (l : List Nat) (c : Nat) : shlLoop 0 (x :: l) c = none := by
  simp [shlLoop, shr32]

theorem shlLoop_some (k : Nat) (hk1 : 1 ≤ k) (hk : k < 32) (l : List Nat) (c : Nat) :
    ∃ r, shlLoop k l c = some r ∧ r.1.length = l.length := by
  induction l generalizing c with
  | nil => exact ⟨([], c), rfl, rfl⟩
  | cons x t ih =>
    obtain ⟨r, hr, hlen⟩ := ih (x / 2 ^ (32 - k))
    have h1 : shr32 x (32 - k) = some (x / 2 ^ (32 - k)) := by
      unfold shr32
      rw [if_pos (by omega)]
    have h2 : shl32 x k = some (x * 2 ^ k % BASE) := by
      unfold shl32
      rw [if_pos hk]
    refine ⟨((x * 2 ^ k % BASE ||| c) :: r.1, r.2), ?_, ?_⟩
    · unfold shlLoop
      rw [h1, h2]
      simp only [hr, Option.map_some']
    · simp [hlen]

theorem shlMove_length (bs : Nat) (i : Nat) (d : List Nat) :
    (shlMove bs i d).length = d.length := by
  induction i generalizing d with
  | zero => rfl
  | succ i ih =>
    unfold shlMove
    split
    · rw [ih, List.length_set]
    · rfl

theorem resize_length (l : List Nat) (n v : Nat) : (resize l n v).length = n := by
  unfold resize
  rw [List.length_append, List.length_take, List.length_replicate]
  omega

/-- The count of `operator<<` as a `size_t`, for a negative `int`: `b + 2^64`. -/
theorem size_t_of_negative (n : Int) (hn : n < 0) (hlo : -2147483648 ≤ n) :
    (n % 18446744073709551616).toNat = (18446744073709551616 + n).toNat
      ∧ 18446744071562067968 ≤ (18446744073709551616 + n).toNat
      ∧ ((18446744073709551616 + n).toNat % 32 = 0 ↔ n % 32 = 0) := by
  refine ⟨?_, ?_, ?_⟩ <;> omega

/-- A count whose `inner_shift` is zero: the operand is copied, and the first iteration of the
first loop of `operator<<` shifts a limb by 32 positions. -/
theorem shl_outcome_inner_zero (mem : Nat) (a : big_integer) (b : Int) (ha : a.data ≠ [])
    (hfit : a.data.length ≤ mem) (hb : (b % 18446744073709551616).toNat % 32 = 0) :
    shl_outcome mem a b = Outcome.undefined := by
  unfold shl_outcome
  simp only [hb]
  rw [if_neg (by omega)]
  cases hd : a.data with
  | nil => exact absurd hd ha
  | cons x t => rw [shlLoop_zero]

/-- A count whose `inner_shift` is not zero and whose `block_shift` is more than the allocator
can give: `operator<<` ends in `std::bad_alloc`, in `resize` at the latest. -/
theorem shl_outcome_bad_alloc (mem : Nat) (a : big_integer) (b : Int)
    (hb : (b % 18446744073709551616).toNat % 32 ≠ 0)
    (hmem : mem < (b % 18446744073709551616).toNat / 32) :
    shl_outcome mem a b = Outcome.signals Error.BadAlloc := by
  obtain ⟨r, hr, hlen⟩ := shlLoop_some ((b % 18446744073709551616).toNat % 32)
    (by omega) (Nat.mod_lt _ (by decide)) a.data 0
  have hbs : (b % 18446744073709551616).toNat / 32 < 576460752303423488 := by omega
  unfold shl_outcome
  simp only [hr]
  by_cases h1 : a.data.length > mem
  · rw [if_pos h1]
  · rw [if_neg h1]
    by_cases h2 : (if r.2 > 0 then r.1 ++ [r.2] else r.1).length > mem
    · rw [if_pos h2]
    · rw [if_neg h2, if_pos]
      generalize (if r.2 > 0 then r.1 ++ [r.2] else r.1).length = k at h2
      omega

/-- Where the allocator gives what `operator<<` asks for, the operator ends as `shl` does. -/
theorem shl_outcome_fits (mem : Nat) (a : big_integer) (b : Int)
    (hfit : a.data.length + 1 + (b % 18446744073709551616).toNat / 32 ≤ mem)
    (hwrap : mem < 18446744073709551616) :
    shl_outcome mem a b
      = (match shl a b with
        | some v => Outcome.returns v
        | none => Outcome.undefined) := by
  unfold shl_outcome shl
  simp only
  rw [if_neg (by omega)]
  cases hr : shlLoop ((b % 18446744073709551616).toNat % 32) a.data 0 with
  | none => rfl
  | some r =>
    have hlen : r.1.length ≤ a.data.length := by
      by_cases hk : (b % 18446744073709551616).toNat % 32 = 0
      · rw [hk] at hr
        cases hd : a.data with
        | nil =>
          rw [hd] at hr
          simp only [shlLoop, Option.some.injEq] at hr
          rw [← hr]
        | cons x t =>
          rw [hd, shlLoop_zero] at hr
          cases hr
      · obtain ⟨r2, hr2, hlen2⟩ := shlLoop_some ((b % 18446744073709551616).toNat % 32)
          (by omega) (Nat.mod_lt _ (by decide)) a.data 0
        rw [hr] at hr2
        cases hr2
        omega
    have hd : (if r.2 > 0 then r.1 ++ [r.2] else r.1).length ≤ a.data.length + 1 := by
      split
      · rw [List.length_append, List.length_singleton]
        omega
      · omega
    simp only [Option.map_some']
    generalize (if r.2 > 0 then r.1 ++ [r.2] else r.1) = d at hd
    rw [if_neg (by omega), if_neg (by omega), if_neg (by omega)]

/-! ## Claims on error handling -/

/-- C18 (counterexample): `Integer(5) / Integer(0)` and `Integer(5) % Integer(0)` do not end with
the error DivideByZero. The test `divident < divisor` is false, the divisor has one limb, and the
fast path computes `x / divisor.data[0]` with that limb zero: a machine division by zero, whose
behaviour is undefined. -/
theorem div_five_by_zero_undefined :
    zero (ctor_int 0) = true
      ∧ div_outcome (ctor_int 5) (ctor_int 0) = Outcome.undefined
      ∧ mod_outcome (ctor_int 5) (ctor_int 0) = Outcome.undefined
      ∧ div_outcome (ctor_int 5) (ctor_int 0) ≠ Outcome.signals Error.DivideByZero
      ∧ mod_outcome (ctor_int 5) (ctor_int 0) ≠ Outcome.signals Error.DivideByZero := by
  decide

/-- C18 (amended): for every `a` with at least one limb and every `b` that is zero, `a / b` and
`a % b` signal no error and return no value: the fast path of `operator/` divides a machine word
by the zero limb of `b`, which is undefined behaviour. -/
theorem div_by_zero_undefined (a b : big_integer) (ha : a.data ≠ []) (hb : zero b = true) :
    div_outcome a b = Outcome.undefined ∧ mod_outcome a b = Outcome.undefined
      ∧ div_outcome a b ≠ Outcome.signals Error.DivideByZero
      ∧ mod_outcome a b ≠ Outcome.signals Error.DivideByZero := by
  have hd : div a b = none := div_zero_none a b ha hb
  have h1 : div_outcome a b = Outcome.undefined := by
    unfold div_outcome
    rw [hd]
  have h2 : mod_outcome a b = Outcome.undefined := by
    unfold mod_outcome mod
    rw [hd]
    rfl
  refine ⟨h1, h2, ?_, ?_⟩
  · rw [h1]
    exact fun h => Outcome.noConfusion h
  · rw [h2]
    exact fun h => Outcome.noConfusion h

/-- Witness of `div_by_zero_undefined`: 2^96 divided by the zero a negation leaves, `-0`. -/
theorem div_by_zero_undefined_witness :
    (⟨[0, 0, 0, 1], false⟩ : big_integer).data ≠ [] ∧ zero (neg (ctor_int 0)) = true
      ∧ div_outcome ⟨[0, 0, 0, 1], false⟩ (neg (ctor_int 0)) = Outcome.undefined
      ∧ mod_outcome ⟨[0, 0, 0, 1], false⟩ (neg (ctor_int 0)) = Outcome.undefined
      ∧ div_outcome ⟨[0, 0, 0, 1], false⟩ (neg (ctor_int 0)) ≠ Outcome.signals Error.DivideByZero
      ∧ mod_outcome ⟨[0, 0, 0, 1], false⟩ (neg (ctor_int 0))
          ≠ Outcome.signals Error.DivideByZero :=
  ⟨by decide, by decide, div_by_zero_undefined _ _ (by decide) (by decide)⟩

/-- C19 (counterexample): a negative count does not end with the error InvalidArgument.
`operator<<` does not look at the sign of the count. On a machine whose allocator gives a vector
at most 2^32 limbs, `Integer(1) << -32` shifts a limb by 32 positions, which is undefined, and
`Integer(1) << -1` goes on with `block_shift = (2^64 - 1) / 32` and ends in the `std::bad_alloc`
of `resize`. -/
theorem shl_negative_count_no_error :
    shl_outcome 4294967296 (ctor_int 1) (-32) = Outcome.undefined
      ∧ shl_outcome 4294967296 (ctor_int 1) (-1) = Outcome.signals Error.BadAlloc
      ∧ shl_outcome 4294967296 (ctor_int 1) (-32) ≠ Outcome.signals Error.InvalidArgument
      ∧ shl_outcome 4294967296 (ctor_int 1) (-1) ≠ Outcome.signals Error.InvalidArgument := by
  decide

/-- C19 (amended): for every `a` with at least one limb and every negative `int` count `n`, on
every machine whose allocator gives one vector at most `mem` limbs, where `a` fits and `mem` is
less than 2^59 - 2^26 (about 2.3 * 10^18 bytes), `a << n` returns no value and does not end with
InvalidArgument. The count is converted to `size_t`, that is `n + 2^64`. If `n` is a multiple of
32 the first loop shifts a limb by 32 positions and the behaviour is undefined. Otherwise the
operator goes on with `block_shift = (n + 2^64) / 32`, at least 2^59 - 2^26 limbs, and ends in
`std::bad_alloc`. -/
theorem shl_negative_count (mem : Nat) (a : big_integer) (n : Int) (hn : n < 0)
    (hlo : -2147483648 ≤ n) (ha : a.data ≠ []) (hfit : a.data.length ≤ mem)
    (hmem : mem < 576460752236314624) :
    (n % 32 = 0 → shl_outcome mem a n = Outcome.undefined)
      ∧ (n % 32 ≠ 0 → shl_outcome mem a n = Outcome.signals Error.BadAlloc)
      ∧ shl_outcome mem a n ≠ Outcome.signals Error.InvalidArgument
      ∧ ∀ r, shl_outcome mem a n ≠ Outcome.returns r := by
  obtain ⟨hcast, hbig, hmod⟩ := size_t_of_negative n hn hlo
  have h0 : n % 32 = 0 → shl_outcome mem a n = Outcome.undefined := by
    intro h32
    exact shl_outcome_inner_zero mem a n ha hfit (by rw [hcast]; exact hmod.2 h32)
  have h1 : n % 32 ≠ 0 → shl_outcome mem a n = Outcome.signals Error.BadAlloc := by
    intro h32
    apply shl_outcome_bad_alloc mem a n
    · rw [hcast]
      exact fun h => h32 (hmod.1 h)
    · rw [hcast]
      omega
  refine ⟨h0, h1, ?_, ?_⟩
  · by_cases h32 : n % 32 = 0
    · rw [h0 h32]
      exact fun h => Outcome.noConfusion h
    · rw [h1 h32]
      decide
  · intro r
    by_cases h32 : n % 32 = 0
    · rw [h0 h32]
      exact fun h => Outcome.noConfusion h
    · rw [h1 h32]
      exact fun h => Outcome.noConfusion h

/-- Witness of `shl_negative_count`: `Integer(-7) << -5` with at most 2^32 limbs to a vector. -/
theorem shl_negative_count_witness :
    (-5 : Int) < 0 ∧ (-2147483648 : Int) ≤ -5 ∧ (ctor_int (-7)).data ≠ []
      ∧ (ctor_int (-7)).data.length ≤ 4294967296 ∧ 4294967296 < 576460752236314624
      ∧ ((-5 : Int) % 32 = 0 → shl_outcome 4294967296 (ctor_int (-7)) (-5) = Outcome.undefined)
      ∧ ((-5 : Int) % 32 ≠ 0
          → shl_outcome 4294967296 (ctor_int (-7)) (-5) = Outcome.signals Error.BadAlloc)
      ∧ shl_outcome 4294967296 (ctor_int (-7)) (-5) ≠ Outcome.signals Error.InvalidArgument
      ∧ ∀ r, shl_outcome 4294967296 (ctor_int (-7)) (-5) ≠ Outcome.returns r :=
  ⟨by decide, by decide, by decide, by decide, by decide,
    shl_negative_count _ _ _ (by decide) (by decide) (by decide) (by decide) (by decide)⟩

/-! ## Defects found by evaluation -/

/-- C1 (code defect): for the canonical operands 2^96 and 2^64 + 5 the general path of `operator/`
returns 0, although the truncating quotient is 4294967295. In the second round of the digit loop
the estimate `x / y` is exactly 2^32, and the cast to `uint32_t` stores 0. -/
theorem div_truncated_estimate_gives_zero :
    Canonical ⟨[0, 0, 0, 1], false⟩ ∧ Canonical ⟨[5, 0, 1], false⟩
      ∧ div ⟨[0, 0, 0, 1], false⟩ ⟨[5, 0, 1], false⟩ = some ⟨[0], false⟩
      ∧ mag [0, 0, 0, 1] / mag [5, 0, 1] = 4294967295
      ∧ top3 [0, 0, 0, 1] / top2 [5, 0, 1] = BASE
      ∧ estimate [0, 0, 0, 1] [5, 0, 1] = 0 := by
  decide

/-- C7 (code defect): `operator<<` returns without calling `normalize`; zero shifted left by 33
is the limb sequence `[0, 0]`, which is not canonical. And `operator>>` resizes to
`size() - block_shift` limbs before `normalize`, which keeps an empty sequence as it is: 1 shifted
right by 32 has no limb at all. -/
theorem shift_result_not_canonical :
    Canonical (ctor_int 0) ∧ shl (ctor_int 0) 33 = some ⟨[0, 0], false⟩
      ∧ ¬ Canonical ⟨[0, 0], false⟩
      ∧ Canonical (ctor_int 1) ∧ shr (ctor_int 1) 32 = some ⟨[], false⟩
      ∧ ¬ Canonical ⟨[], false⟩ := by
  decide

/-- C8 (code defect): `big_integer(uint64_t x)` always pushes two limbs; for `x = 5` the value is
`[5, 0]`, which is not canonical and is not `==` to `big_integer(uint32_t 5)`. -/
theorem ctor_uint64_not_canonical :
    ctor_uint64 5 = ⟨[5, 0], false⟩ ∧ ¬ Canonical (ctor_uint64 5)
      ∧ Canonical (ctor_uint32 5) ∧ eq (ctor_uint64 5) (ctor_uint32 5) = false := by
  decide

/-- C9 (code defect): `convert` takes the flag of the operand after `++result`, and for -1 that
is zero, whose flag `normalize` has cleared. So `-1 & -1` and `-1 ^ 0` are both 2^64 - 1
instead of -1. -/
theorem bitwise_minus_one_loses_sign :
    Canonical (ctor_int (-1)) ∧ (convert (ctor_int (-1)) 2).negative = false
      ∧ bit_and (ctor_int (-1)) (ctor_int (-1)) = ⟨[4294967295, 4294967295], false⟩
      ∧ toInt (bit_and (ctor_int (-1)) (ctor_int (-1))) = 18446744073709551615
      ∧ Int.land (toInt (ctor_int (-1))) (toInt (ctor_int (-1))) = -1
      ∧ toInt (bit_xor (ctor_int (-1)) (ctor_int 0)) = 18446744073709551615
      ∧ Int.xor (toInt (ctor_int (-1))) (toInt (ctor_int 0)) = -1 := by
  decide

/-- C10 (code defect): for a shift count that is a multiple of 32 the first loop of `operator<<`
evaluates `i >> 32` on a 32-bit limb, which is undefined, so `1 << 64` has no defined value; and
for zero shifted by 33 the result `[0, 0]` is not `==` to `0 * 2^33`. -/
theorem shl_not_times_power_of_two :
    shl (ctor_int 1) 64 = none
      ∧ shr32 1 (32 - 64 % 32) = none
      ∧ shl (ctor_int 0) 33 = some ⟨[0, 0], false⟩
      ∧ eq ⟨[0, 0], false⟩ (mul (ctor_int 0) (ctor_uint64 8589934592)) = false := by
  decide


/-- C11 (code defect): `operator>>` does not round a negative value toward negative infinity.
For `Integer(-1) >> 1` the limb becomes 0, `normalize` clears the sign of a zero, and the
post-decrement behind `if (result.negative)` is skipped: the result is 0, not -1. For
`Integer(-4) >> 1` no bit is shifted out and the post-decrement is applied all the same: the
result is -3, not -2. -/
theorem shr_negative_not_floor :
    Canonical (ctor_int (-1)) ∧ shr (ctor_int (-1)) 1 = some (ctor_int 0)
      ∧ Int.fdiv (toInt (ctor_int (-1))) (2 ^ 1) = -1
      ∧ (shr (ctor_int (-1)) 1).map (fun r => eq r (ctor_int (-1))) = some false
      ∧ Canonical (ctor_int (-4)) ∧ shr (ctor_int (-4)) 1 = some (ctor_int (-3))
      ∧ Int.fdiv (toInt (ctor_int (-4))) (2 ^ 1) = -2
      ∧ (shr (ctor_int (-4)) 1).map toInt = some (-3) := by
  decide

/-- C12 (code defect): for a count that is a multiple of 32, zero included, `(a << n) >> n` has
no defined value. With `inner_shift = 0` the first loop of `operator<<` evaluates
`i >> (32 - inner_shift)`, a shift of a 32-bit limb by 32 positions, and the second loop of
`operator>>` evaluates `(*i & offset) << (32 - inner_shift)`, again a shift by 32 positions. -/
theorem shl_then_shr_undefined :
    Canonical (ctor_int 1) ∧ (ctor_int 1).negative = false
      ∧ (shl (ctor_int 1) 32).bind (fun r => shr r 32) = none
      ∧ (shl (ctor_int 1) 0).bind (fun r => shr r 0) = none
      ∧ shl (ctor_int 1) 32 = none ∧ shl (ctor_int 1) 0 = none
      ∧ shr32 1 (32 - 0) = none
      ∧ shr ⟨[0, 1], false⟩ 32 = none ∧ shr (ctor_int 1) 0 = none
      ∧ shl32 (1 &&& (2 ^ 0 - 1)) (32 - 0) = none := by
  decide

/-- C17 (code defect): `small_object::insert` calls `desmall()` and then `data->insert(len)`,
without the `uniquify()` its six sibling mutators have. After `small_object a(3, 7)`,
`small_object b(a)` and `b.insert(len)`, whatever `cow_wrapper::insert` does to the limbs (`ins`),
`b` still points at the buffer of `a` and `a` shows the limbs after the insertion; if `insert(1)`
puts one zero limb in front, `a.size()` goes from 3 to 4 and `a[0]` from 7 to 0. The same
happens after an assignment `b = a`. After `b.push_back(9)` the limbs of `a` are unchanged. -/
theorem insert_after_copy_changes_source (ins : Nat → List Nat → List Nat) (len : Nat) :
    so_contents (so_ctor [] 3 7).1 (so_ctor [] 3 7).2 = some [7, 7, 7]
      ∧ (so_copy (so_ctor [] 3 7).1 (so_ctor [] 3 7).2).bind (fun b =>
          (so_insert ins b.1 b.2 len).bind (fun r =>
            so_contents r.1 (so_ctor [] 3 7).2)) = some (ins len [7, 7, 7])
      ∧ (so_copy (so_ctor [] 3 7).1 (so_ctor [] 3 7).2).bind (fun b =>
          (so_insert ins b.1 b.2 len).map (fun r => r.2.data)) = some (so_ctor [] 3 7).2.data
      ∧ (so_copy (so_ctor [] 3 7).1 (so_ctor [] 3 7).2).bind (fun b =>
          (so_insert (fun n v => List.replicate n 0 ++ v) b.1 b.2 1).bind (fun r =>
            so_size r.1 (so_ctor [] 3 7).2)) = some 4
      ∧ (so_copy (so_ctor [] 3 7).1 (so_ctor [] 3 7).2).bind (fun b =>
          (so_insert (fun n v => List.replicate n 0 ++ v) b.1 b.2 1).bind (fun r =>
            so_read r.1 (so_ctor [] 3 7).2 0)) = some 0
      ∧ (so_assign (so_ctor (so_ctor [] 3 7).1 1 5).1 (so_ctor (so_ctor [] 3 7).1 1 5).2
            (so_ctor [] 3 7).2).bind (fun b =>
          (so_insert ins b.1 b.2 len).bind (fun r =>
            so_contents r.1 (so_ctor [] 3 7).2)) = some (ins len [7, 7, 7])
      ∧ (so_copy (so_ctor [] 3 7).1 (so_ctor [] 3 7).2).bind (fun b =>
          (so_push_back b.1 b.2 9).bind (fun r =>
            so_contents r.1 (so_ctor [] 3 7).2)) = some [7, 7, 7] := by
  refine ⟨rfl, rfl, rfl, rfl, rfl, rfl, rfl⟩

/-- C20 (code defect): the estimate `x / y` is not always below 2^32. For the canonical operands
2^96 and 2^64 + 5 the second round of the digit loop works on the dividend `[0, 0, 0, 1]`: the
top three limbs give `x = 2^64`, the top two limbs of the divisor give `y = 2^32`, so
`x / y = 2^32`, and `static_cast<uint32_t>(x / y)` stores 0 instead. -/
theorem estimate_reaches_base :
    Canonical ⟨[0, 0, 0, 1], false⟩ ∧ Canonical ⟨[5, 0, 1], false⟩
      ∧ 2 ≤ size ⟨[5, 0, 1], false⟩
      ∧ lt ⟨[0, 0, 0, 1], false⟩ ⟨[5, 0, 1], false⟩ = false
      ∧ roundDivident ⟨[5, 0, 1], false⟩ 4 ([0, 0, 0, 1] ++ [0]) = [0, 0, 0, 1]
      ∧ top3 [0, 0, 0, 1] = 18446744073709551616 ∧ top2 [5, 0, 1] = 4294967296
      ∧ ¬ top3 [0, 0, 0, 1] / top2 [5, 0, 1] < 2 ^ 32
      ∧ estimate [0, 0, 0, 1] [5, 0, 1] ≠ top3 [0, 0, 0, 1] / top2 [5, 0, 1] := by
  decide

end BigInteger
